import Mathlib

/-!
Verification of the authorization-logic engine (sequent calculus, matcher,
verifier, rebasing, certificate/credential checking, canonical encoding)
against its specification.  The definitions below are a shallow embedding of
the Python sources in `src/`: `logic.py`, `verifier.py`, `crypto.py`,
`util.py`, `parser.py`, `proofrules.py`.

Modelling conventions:
* Python dataclasses become inductive types / structures with the same names.
* Python `dict` becomes an association list with insert-or-overwrite
  semantics (`dinsert`) preserving insertion order, matching CPython dicts.
* Python `set`-typed expressions that are converted back to lists
  (`list(set(a) | set(b))`) are modelled as order-preserving deduplication
  (`pyUnion`), a deterministic refinement of CPython's hash-order iteration.
* Python exceptions (KeyError, IndexError, ...) are modelled with `Except`.
* Unbounded recursion that is not structurally decreasing in the source
  (`matchs`, `verify_cert`) takes an explicit fuel argument; running out of
  fuel is modelled as a RecursionError, mirroring CPython's recursion limit.
* The Ed25519 primitives and file-system access in `crypto.py` are external
  to the repository; they are abstracted as an explicit `CryptoOps` record
  of oracles (fingerprint, signature check, signing).
-/

namespace AuthLogic

/-- The `Operator` enumeration from `logic.py`. -/
inductive Operator where
  | NOT | AND | OR | IMPLIES | TRUE | FALSE | SAYS
  | ISKEY | SIGN | ISCA | OPEN | OTHER
deriving DecidableEq, Repr

/-- Formulas from `logic.py`: the union of the atom dataclasses
`Variable`, `Agent`, `Key`, `Resource` with `App` and `Forall`.
`App` stores the operator, the `arity` field, and the argument list,
exactly as the Python dataclass does. -/
inductive Formula where
  | Variable (id : String)
  | Agent (id : String)
  | Key (fingerprint : String)
  | Resource (id : String)
  | App (op : Operator) (arity : Nat) (args : List Formula)
  | Forall (x : String) (p : Formula)

mutual

/-- Structural (dataclass) equality on formulas, decidable. -/
def Formula.decEqF : (a b : Formula) → Decidable (a = b)
  | .Variable x, .Variable y =>
      match String.decEq x y with
      | isTrue h => isTrue (h ▸ rfl)
      | isFalse h => isFalse (fun he => h (Formula.Variable.inj he))
  | .Agent x, .Agent y =>
      match String.decEq x y with
      | isTrue h => isTrue (h ▸ rfl)
      | isFalse h => isFalse (fun he => h (Formula.Agent.inj he))
  | .Key x, .Key y =>
      match String.decEq x y with
      | isTrue h => isTrue (h ▸ rfl)
      | isFalse h => isFalse (fun he => h (Formula.Key.inj he))
  | .Resource x, .Resource y =>
      match String.decEq x y with
      | isTrue h => isTrue (h ▸ rfl)
      | isFalse h => isFalse (fun he => h (Formula.Resource.inj he))
  | .App o₁ n₁ a₁, .App o₂ n₂ a₂ =>
      match instDecidableEqOperator o₁ o₂, Nat.decEq n₁ n₂, Formula.decEqL a₁ a₂ with
      | isTrue h₁, isTrue h₂, isTrue h₃ => isTrue (h₁ ▸ h₂ ▸ h₃ ▸ rfl)
      | isFalse h, _, _ => isFalse (fun he => h (Formula.App.inj he).1)
      | _, isFalse h, _ => isFalse (fun he => h (Formula.App.inj he).2.1)
      | _, _, isFalse h => isFalse (fun he => h (Formula.App.inj he).2.2)
  | .Forall x₁ p₁, .Forall x₂ p₂ =>
      match String.decEq x₁ x₂, Formula.decEqF p₁ p₂ with
      | isTrue h₁, isTrue h₂ => isTrue (h₁ ▸ h₂ ▸ rfl)
      | isFalse h, _ => isFalse (fun he => h (Formula.Forall.inj he).1)
      | _, isFalse h => isFalse (fun he => h (Formula.Forall.inj he).2)
  | .Variable _, .Agent _ => isFalse (fun h => Formula.noConfusion h)
  | .Variable _, .Key _ => isFalse (fun h => Formula.noConfusion h)
  | .Variable _, .Resource _ => isFalse (fun h => Formula.noConfusion h)
  | .Variable _, .App _ _ _ => isFalse (fun h => Formula.noConfusion h)
  | .Variable _, .Forall _ _ => isFalse (fun h => Formula.noConfusion h)
  | .Agent _, .Variable _ => isFalse (fun h => Formula.noConfusion h)
  | .Agent _, .Key _ => isFalse (fun h => Formula.noConfusion h)
  | .Agent _, .Resource _ => isFalse (fun h => Formula.noConfusion h)
  | .Agent _, .App _ _ _ => isFalse (fun h => Formula.noConfusion h)
  | .Agent _, .Forall _ _ => isFalse (fun h => Formula.noConfusion h)
  | .Key _, .Variable _ => isFalse (fun h => Formula.noConfusion h)
  | .Key _, .Agent _ => isFalse (fun h => Formula.noConfusion h)
  | .Key _, .Resource _ => isFalse (fun h => Formula.noConfusion h)
  | .Key _, .App _ _ _ => isFalse (fun h => Formula.noConfusion h)
  | .Key _, .Forall _ _ => isFalse (fun h => Formula.noConfusion h)
  | .Resource _, .Variable _ => isFalse (fun h => Formula.noConfusion h)
  | .Resource _, .Agent _ => isFalse (fun h => Formula.noConfusion h)
  | .Resource _, .Key _ => isFalse (fun h => Formula.noConfusion h)
  | .Resource _, .App _ _ _ => isFalse (fun h => Formula.noConfusion h)
  | .Resource _, .Forall _ _ => isFalse (fun h => Formula.noConfusion h)
  | .App _ _ _, .Variable _ => isFalse (fun h => Formula.noConfusion h)
  | .App _ _ _, .Agent _ => isFalse (fun h => Formula.noConfusion h)
  | .App _ _ _, .Key _ => isFalse (fun h => Formula.noConfusion h)
  | .App _ _ _, .Resource _ => isFalse (fun h => Formula.noConfusion h)
  | .App _ _ _, .Forall _ _ => isFalse (fun h => Formula.noConfusion h)
  | .Forall _ _, .Variable _ => isFalse (fun h => Formula.noConfusion h)
  | .Forall _ _, .Agent _ => isFalse (fun h => Formula.noConfusion h)
  | .Forall _ _, .Key _ => isFalse (fun h => Formula.noConfusion h)
  | .Forall _ _, .Resource _ => isFalse (fun h => Formula.noConfusion h)
  | .Forall _ _, .App _ _ _ => isFalse (fun h => Formula.noConfusion h)

/-- Decidable equality on formula lists. -/
def Formula.decEqL : (as bs : List Formula) → Decidable (as = bs)
  | [], [] => isTrue rfl
  | [], _ :: _ => isFalse (fun h => List.noConfusion h)
  | _ :: _, [] => isFalse (fun h => List.noConfusion h)
  | a :: as, b :: bs =>
      match Formula.decEqF a b, Formula.decEqL as bs with
      | isTrue h₁, isTrue h₂ => isTrue (h₁ ▸ h₂ ▸ rfl)
      | isFalse h, _ => isFalse (fun he => h (List.cons.inj he).1)
      | _, isFalse h => isFalse (fun he => h (List.cons.inj he).2)

end

instance : DecidableEq Formula := Formula.decEqF

/-- Judgements from `logic.py`: `Proposition(p)` or `Affirmation(a, p)`.
The Python field `a` is typed `Agent | Variable`; we store it as a
`Formula` (which includes both). -/
inductive Judgement where
  | Proposition (p : Formula)
  | Affirmation (a : Formula) (p : Formula)
deriving DecidableEq

/-- Sequents from `logic.py`. -/
structure Sequent where
  gamma : List Judgement
  delta : Judgement
deriving DecidableEq

/-- Rules from `logic.py`. -/
structure Rule where
  premises : List Sequent
  conclusion : Sequent
  name : String
deriving DecidableEq

/-- Proofs from `logic.py`: premises are `Proof | Sequent`;
a `Sequent` premise is an open obligation. -/
inductive Proof where
  | node (premises : List (Sequent ⊕ Proof)) (conclusion : Sequent) (rule : Rule)

mutual

/-- Decidable structural equality on proofs. -/
def Proof.decEqP : (a b : Proof) → Decidable (a = b)
  | .node ps₁ c₁ r₁, .node ps₂ c₂ r₂ =>
      match Proof.decEqPL ps₁ ps₂, instDecidableEqSequent c₁ c₂, instDecidableEqRule r₁ r₂ with
      | isTrue h₁, isTrue h₂, isTrue h₃ => isTrue (h₁ ▸ h₂ ▸ h₃ ▸ rfl)
      | isFalse h, _, _ => isFalse (fun he => h (Proof.node.inj he).1)
      | _, isFalse h, _ => isFalse (fun he => h (Proof.node.inj he).2.1)
      | _, _, isFalse h => isFalse (fun he => h (Proof.node.inj he).2.2)

/-- Decidable equality on `Sequent ⊕ Proof` premises. -/
def Proof.decEqPS : (a b : Sequent ⊕ Proof) → Decidable (a = b)
  | .inl s₁, .inl s₂ =>
      match instDecidableEqSequent s₁ s₂ with
      | isTrue h => isTrue (h ▸ rfl)
      | isFalse h => isFalse (fun he => h (Sum.inl.inj he))
  | .inr p₁, .inr p₂ =>
      match Proof.decEqP p₁ p₂ with
      | isTrue h => isTrue (h ▸ rfl)
      | isFalse h => isFalse (fun he => h (Sum.inr.inj he))
  | .inl _, .inr _ => isFalse (fun h => Sum.noConfusion h)
  | .inr _, .inl _ => isFalse (fun h => Sum.noConfusion h)

/-- Decidable equality on premise lists. -/
def Proof.decEqPL : (as bs : List (Sequent ⊕ Proof)) → Decidable (as = bs)
  | [], [] => isTrue rfl
  | [], _ :: _ => isFalse (fun h => List.noConfusion h)
  | _ :: _, [] => isFalse (fun h => List.noConfusion h)
  | a :: as, b :: bs =>
      match Proof.decEqPS a b, Proof.decEqPL as bs with
      | isTrue h₁, isTrue h₂ => isTrue (h₁ ▸ h₂ ▸ rfl)
      | isFalse h, _ => isFalse (fun he => h (List.cons.inj he).1)
      | _, isFalse h => isFalse (fun he => h (List.cons.inj he).2)

end

instance : DecidableEq Proof := Proof.decEqP

namespace Proof

def conclusion : Proof → Sequent
  | node _ c _ => c

def premises : Proof → List (Sequent ⊕ Proof)
  | node p _ _ => p

def rule : Proof → Rule
  | node _ _ r => r

end Proof

/-- Substitutions: Python `dict[Variable, Formula]`, modelled as an
insertion-ordered association list (CPython dict semantics).  Python code
occasionally uses non-`Variable` formulas as keys (the matcher's template
bookkeeping), so keys are `Formula`. -/
abbrev Subst := List (Formula × Formula)

/-- Dict lookup: `rho[k]` / `k in rho`. -/
def dget? (rho : Subst) (k : Formula) : Option Formula :=
  match rho with
  | [] => none
  | (k', v) :: rest => if k' = k then some v else dget? rest k

/-- Dict membership test `k in rho`. -/
def dmem (rho : Subst) (k : Formula) : Bool :=
  (dget? rho k).isSome

/-- Dict update `{**rho, k: v}`: overwrite in place if present, else append,
matching CPython's insertion-order semantics. -/
def dinsert (rho : Subst) (k v : Formula) : Subst :=
  match rho with
  | [] => [(k, v)]
  | (k', v') :: rest =>
      if k' = k then (k', v) :: rest else (k', v') :: dinsert rest k v

/-- Dict comprehension `{a: b for a, b in rho.items() if pred a}`. -/
def dfilter (rho : Subst) (pred : Formula → Bool) : Subst :=
  rho.filter (fun kv => pred kv.1)

/-- Python exceptions that the embedded code can raise. -/
inductive PyErr where
  | keyError | indexError | attrError | typeError | recursionError | ioError
deriving DecidableEq, Repr

instance {ε α : Type} [DecidableEq ε] [DecidableEq α] : DecidableEq (Except ε α) :=
  fun a b =>
    match a, b with
    | .ok x, .ok y =>
        match decEq x y with
        | isTrue h => isTrue (h ▸ rfl)
        | isFalse h => isFalse (fun he => h (Except.ok.inj he))
    | .error x, .error y =>
        match decEq x y with
        | isTrue h => isTrue (h ▸ rfl)
        | isFalse h => isFalse (fun he => h (Except.error.inj he))
    | .ok _, .error _ => isFalse (fun h => Except.noConfusion h)
    | .error _, .ok _ => isFalse (fun h => Except.noConfusion h)

/-- Dict lookup `rho[k]`, raising `KeyError` on a missing key. -/
def dgetE (rho : Subst) (k : Formula) : Except PyErr Formula :=
  match dget? rho k with
  | some v => .ok v
  | none => .error .keyError

/-- List indexing `l[n]`, raising `IndexError` when out of range. -/
def idxE (l : List Formula) (n : Nat) : Except PyErr Formula :=
  match l.get? n with
  | some v => .ok v
  | none => .error .indexError

/-- The `.id` attribute access used by the matcher (`a[0].id`): present on
`Variable`, `Agent` and `Resource`; anything else raises `AttributeError`
(`Key` has `fingerprint`, `App`/`Forall` have no `id`). -/
def pyId? : Formula → Option String
  | .Variable i => some i
  | .Agent i => some i
  | .Resource i => some i
  | _ => none

mutual

/-- `apply_formula` from `logic.py`.  `App(OTHER, _, args)` applies the
substitution to `args[0]`; on an empty argument list Python would raise
`IndexError`, which is unreachable for arity-correct formulas, and the model
returns the formula unchanged there. -/
def apply_formula : Formula → Subst → Formula
  | .Variable x, rho =>
      match dget? rho (.Variable x) with
      | some q => q
      | none => .Variable x
  | .App .OTHER n args, rho =>
      match args with
      | a :: _ => apply_formula a rho
      | [] => .App .OTHER n []
  | .App o n args, rho => .App o n (apply_formula_list args rho)
  | .Forall x p, rho =>
      .Forall x (apply_formula p (dfilter rho (fun v => decide (v ≠ .Variable x))))
  | p, _ => p

/-- `[apply_formula(a, rho) for a in args]`. -/
def apply_formula_list : List Formula → Subst → List Formula
  | [], _ => []
  | a :: as, rho => apply_formula a rho :: apply_formula_list as rho

end

/-- `apply_judgement` from `logic.py`. -/
def apply_judgement (j : Judgement) (rho : Subst) : Judgement :=
  match j with
  | .Proposition p => .Proposition (apply_formula p rho)
  | .Affirmation a p =>
      .Affirmation (match dget? rho a with | some q => q | none => a)
        (apply_formula p rho)

/-- `apply_sequent` from `logic.py`. -/
def apply_sequent (seq : Sequent) (rho : Subst) : Sequent :=
  ⟨seq.gamma.map (fun p => apply_judgement p rho), apply_judgement seq.delta rho⟩

/-- `matchs` from `logic.py`.  The Python recursion is not structurally
decreasing (the template-hole case re-enters with a formula taken out of
`rho`), so the model takes explicit fuel; exhausting it is a
`RecursionError`.  Python exceptions (`KeyError` on `rho[...]`,
`IndexError` on `a[0]`/`a[1]`, `AttributeError` on `.id`, and the
`TypeError` raised by `{**rho, ...}` when the quantifier sub-match returned
`None`) are modelled in `Except`.  A `None` result is `some none`. -/
def matchs (fuel : Nat) (eqs : List (Formula × Formula)) (rho : Subst) :
    Except PyErr (Option Subst) :=
  match fuel with
  | 0 => .error .recursionError
  | fuel + 1 =>
    match eqs with
    | [] => .ok (some rho)
    | (l, r) :: rest =>
      match l, r with
      | .Variable x, o =>
          match dget? rho (.Variable x) with
          | some v => if v = o then matchs fuel rest rho else .ok none
          | none => matchs fuel rest (dinsert rho (.Variable x) o)
      | .App .OTHER _ a, o => do
          let a0 ← idxE a 0
          let a0id ← match pyId? a0 with
            | some s => Except.ok s
            | none => Except.error .attrError
          let pl_p := Formula.Variable ("@P" ++ a0id)
          let a1 ← idxE a 1
          if dmem rho pl_p then do
            let rpl ← dgetE rho pl_p
            let rho_p ←
              if dmem rho a1 then do
                let ra1 ← dgetE rho a1
                pure (dinsert rho rpl ra1)
              else
                pure (dinsert rho a1 rpl)
            let ra0 ← dgetE rho a0
            let res ← matchs fuel [(ra0, o)] rho_p
            match res with
            | some rho_p' => do
                let pl_v ← dgetE rho_p' rpl
                let rho' := dfilter rho_p' (fun v => decide (v ≠ rpl ∧ v ≠ a1))
                matchs fuel rest (dinsert rho' a1 pl_v)
            | none => pure none
          else
            matchs fuel rest (dinsert (dinsert rho a0 o) pl_p a1)
      | .App o₁ n₁ a₁, .App o₂ n₂ a₂ =>
          if o₁ = o₂ ∧ n₁ = n₂ then matchs fuel (List.zip a₁ a₂ ++ rest) rho
          else .ok none
      | .Forall x₁ p₁, .Forall x₂ p₂ => do
          let rho_x := dfilter rho (fun v => decide (v ≠ .Variable x₁))
          let res ← matchs fuel
            ((p₁, apply_formula p₂ [(.Variable x₂, .Variable x₁)]) :: rest) rho_x
          -- `rho = {**rho, x1: old_rho[x1]} if x1 in old_rho else rho`, then
          -- the binding for x1 is filtered out of the returned substitution.
          -- When the sub-match returned None and x1 was bound, `{**None, ...}`
          -- raises TypeError.
          match res, dget? rho (.Variable x₁) with
          | some r, some v =>
              pure (some (dfilter (dinsert r (.Variable x₁) v)
                (fun w => decide (w ≠ .Variable x₁))))
          | some r, none =>
              pure (some (dfilter r (fun w => decide (w ≠ .Variable x₁))))
          | none, some _ => .error .typeError
          | none, none => pure none
      | o₁, o₂ => if o₁ = o₂ then matchs fuel rest rho else .ok none

mutual

/-- Data-model invariant on formulas (spec §3): every application node
satisfies `args.len() == arity`. -/
def wfArity : Formula → Bool
  | .App _ n args => decide (args.length = n) && wfArityL args
  | .Forall _ p => wfArity p
  | _ => true

def wfArityL : List Formula → Bool
  | [] => true
  | a :: as => wfArity a && wfArityL as

end

mutual

/-- Plain patterns: arity-correct formulas containing neither a quantifier
nor the matcher-internal `OTHER` template application. -/
def plainF : Formula → Bool
  | .App .OTHER _ _ => false
  | .App _ n args => decide (args.length = n) && plainFL args
  | .Forall _ _ => false
  | _ => true

def plainFL : List Formula → Bool
  | [] => true
  | a :: as => plainF a && plainFL as

end

/-- `rho'` preserves every binding of `rho`. -/
def SubstExt (rho rho' : Subst) : Prop :=
  ∀ k v, dget? rho k = some v → dget? rho' k = some v

/-! Python set expressions over lists.  CPython iterates sets in hash order;
the model uses the deterministic refinement that keeps first occurrences in
list order.  All uses below are either emptiness/membership tests (where
order is irrelevant) or are documented at the use site. -/

/-- Helper for `pyDedup`: drop elements already seen. -/
def pyDedupAux {α : Type} [DecidableEq α] (seen : List α) : List α → List α
  | [] => []
  | a :: as => if a ∈ seen then pyDedupAux seen as else a :: pyDedupAux (a :: seen) as

/-- `list(set(l))`, keeping first occurrences. -/
def pyDedup {α : Type} [DecidableEq α] (l : List α) : List α :=
  pyDedupAux [] l

/-- `list(set(a) - set(b))`. -/
def pySetDiff {α : Type} [DecidableEq α] (a b : List α) : List α :=
  pyDedup (a.filter (fun x => decide (x ∉ b)))

/-- `set(a).issubset(set(b))`. -/
def pySubset {α : Type} [DecidableEq α] (a b : List α) : Bool :=
  a.all (fun x => decide (x ∈ b))

/-- `list(set(a) | set(b))`. -/
def pyUnion {α : Type} [DecidableEq α] (a b : List α) : List α :=
  pyDedup (a ++ b)

/-- `list(set(a) ^ set(b))` (symmetric difference). -/
def pySymmDiff {α : Type} [DecidableEq α] (a b : List α) : List α :=
  pySetDiff a b ++ pySetDiff b a

/-- The `.p` attribute shared by `Proposition` and `Affirmation`. -/
def jP : Judgement → Formula
  | .Proposition p => p
  | .Affirmation _ p => p

/-- `premises[i].gamma if isinstance(premises[i], Sequent) else
premises[i].conclusion.gamma` — the premise-access idiom used by every
rule checker in `verifier.py`. -/
def premGamma : Sequent ⊕ Proof → List Judgement
  | .inl s => s.gamma
  | .inr p => p.conclusion.gamma

/-- The corresponding premise `delta` access. -/
def premDelta : Sequent ⊕ Proof → Judgement
  | .inl s => s.delta
  | .inr p => p.conclusion.delta

mutual

/-- `allvars` from `util.py`, at the formula level (returned as a list whose
membership matches the Python set). -/
def allvarsF : Formula → List Formula
  | .Variable x => [.Variable x]
  | .App _ _ args => allvarsFL args
  | .Forall x p => (allvarsF p).filter (fun v => decide (v ≠ .Variable x))
  | _ => []

/-- `allvars` over an argument list. -/
def allvarsFL : List Formula → List Formula
  | [] => []
  | a :: as => allvarsF a ++ allvarsFL as

end

/-- `allvars` on judgements.  Note the Python match only covers
`Affirmation(Variable(_), _)` and `Affirmation(Agent(_), _)`; any other
affirmation falls through to `return set()`. -/
def allvarsJ : Judgement → List Formula
  | .Proposition p => allvarsF p
  | .Affirmation (.Variable x) p => .Variable x :: allvarsF p
  | .Affirmation (.Agent _) p => allvarsF p
  | .Affirmation _ _ => []

/-- `allvars` on sequents. -/
def allvarsSeq (seq : Sequent) : List Formula :=
  allvarsJ seq.delta ++ (seq.gamma.map allvarsJ).flatten

/-! The rule catalog from `proofrules.py`, with each `parse(...)` call
replaced by the formula/sequent AST it produces. -/

def identityRule : Rule :=
  ⟨[], ⟨[.Proposition (.Variable "P")], .Proposition (.Variable "P")⟩, "id"⟩

def falseLeftRule : Rule :=
  ⟨[], ⟨[.Proposition (.App .FALSE 0 [])], .Proposition (.Variable "P")⟩, "botL"⟩

def impRightRule : Rule :=
  ⟨[⟨[.Proposition (.Variable "P")], .Proposition (.Variable "Q")⟩],
   ⟨[], .Proposition (.App .IMPLIES 2 [.Variable "P", .Variable "Q"])⟩, "->R"⟩

def impLeftRule : Rule :=
  ⟨[⟨[], .Proposition (.Variable "P")⟩,
    ⟨[.Proposition (.Variable "Q")], .Proposition (.Variable "R")⟩],
   ⟨[.Proposition (.App .IMPLIES 2 [.Variable "P", .Variable "Q"])],
    .Proposition (.Variable "R")⟩, "->L"⟩

def impLeftAffRule : Rule :=
  ⟨[⟨[], .Proposition (.Variable "P")⟩,
    ⟨[.Proposition (.Variable "Q")], .Affirmation (.Variable "A") (.Variable "R")⟩],
   ⟨[.Proposition (.App .IMPLIES 2 [.Variable "P", .Variable "Q"])],
    .Affirmation (.Variable "A") (.Variable "R")⟩, "->Laff"⟩

def forallRightRule : Rule :=
  ⟨[⟨[], .Proposition (.App .OTHER 2 [.Variable "P", .Variable "y"])⟩],
   ⟨[], .Proposition (.Forall "x" (.App .OTHER 2 [.Variable "P", .Variable "x"]))⟩,
   "@R"⟩

def forallLeftRule : Rule :=
  ⟨[⟨[.Proposition (.App .OTHER 2 [.Variable "P", .Variable "e"])],
     .Proposition (.Variable "Q")⟩],
   ⟨[.Proposition (.Forall "x" (.App .OTHER 2 [.Variable "P", .Variable "x"]))],
    .Proposition (.Variable "Q")⟩, "@L"⟩

def forallLeftAffRule : Rule :=
  ⟨[⟨[.Proposition (.App .OTHER 2 [.Variable "P", .Variable "e"])],
     .Affirmation (.Variable "A") (.Variable "Q")⟩],
   ⟨[.Proposition (.Forall "x" (.App .OTHER 2 [.Variable "P", .Variable "x"]))],
    .Affirmation (.Variable "A") (.Variable "Q")⟩, "@Laff"⟩

def weakenRule : Rule :=
  ⟨[⟨[.Proposition (.Variable "Q")], .Proposition (.Variable "R")⟩],
   ⟨[.Proposition (.Variable "P"), .Proposition (.Variable "Q")],
    .Proposition (.Variable "R")⟩, "W"⟩

def cutRule : Rule :=
  ⟨[⟨[], .Proposition (.Variable "P")⟩,
    ⟨[.Proposition (.Variable "P")], .Proposition (.Variable "Q")⟩],
   ⟨[], .Proposition (.Variable "Q")⟩, "cut"⟩

def affCutRule : Rule :=
  ⟨[⟨[], .Proposition (.Variable "P")⟩,
    ⟨[.Proposition (.Variable "P")], .Affirmation (.Variable "A") (.Variable "Q")⟩],
   ⟨[], .Affirmation (.Variable "A") (.Variable "Q")⟩, "affcut"⟩

def affRule : Rule :=
  ⟨[⟨[], .Proposition (.Variable "P")⟩],
   ⟨[], .Affirmation (.Variable "A") (.Variable "P")⟩, "aff"⟩

def saysLeftRule : Rule :=
  ⟨[⟨[.Proposition (.Variable "P")], .Affirmation (.Variable "A") (.Variable "Q")⟩],
   ⟨[.Proposition (.App .SAYS 2 [.Variable "A", .Variable "P"])],
    .Affirmation (.Variable "A") (.Variable "Q")⟩, "saysL"⟩

def saysRightRule : Rule :=
  ⟨[⟨[], .Affirmation (.Variable "A") (.Variable "P")⟩],
   ⟨[], .Proposition (.App .SAYS 2 [.Variable "A", .Variable "P"])⟩, "saysR"⟩

def signRule : Rule :=
  ⟨[⟨[], .Proposition (.App .ISKEY 2 [.Variable "A", .Variable "pk"])⟩,
    ⟨[], .Proposition (.App .SIGN 2 [.Variable "P", .Variable "pk"])⟩],
   ⟨[], .Proposition (.App .SAYS 2 [.Variable "A", .Variable "P"])⟩, "sign"⟩

def certRule : Rule :=
  ⟨[⟨[], .Proposition (.App .ISCA 1 [.Variable "A"])⟩,
    ⟨[], .Proposition (.App .SAYS 2
      [.Variable "A", .App .ISKEY 2 [.Variable "B", .Variable "pk"]])⟩],
   ⟨[], .Proposition (.App .ISKEY 2 [.Variable "B", .Variable "pk"])⟩, "cert"⟩

/-- The keys of the `calculus` dictionary built in `proofrules.py`. -/
def calculusNames : List String :=
  ["id", "botL", "->R", "->L", "->Laff", "@R", "@L", "@Laff", "W",
   "cut", "affcut", "aff", "saysL", "saysR", "sign", "cert"]

/-! The per-rule checkers from `verifier.py`.  `print_feedback` only writes
to stdout, so the model elides it (this is the semantics of the
`feedback=False` mode used by `verify_request`); return values and
exceptions are modelled exactly. -/

/-- `verify_identity`. -/
def verify_identity (pf : Proof) : Bool :=
  if pf.premises.length > 0 then false
  else match pf.conclusion.delta with
    | .Proposition _ => decide (pf.conclusion.delta ∈ pf.conclusion.gamma)
    | _ => false

/-- `verify_botl`.  Note: when `false true` is not among the assumptions the
Python code prints feedback but, unlike every sibling checker, does not
`return False`; it falls through to `return True` (verifier.py lines 55-59).
The model reproduces this faithfully. -/
def verify_botl (pf : Proof) : Bool :=
  if pf.premises.length > 0 then false
  else match pf.conclusion.delta with
    | .Proposition _ => true
    | _ => false

/-- `verify_impright`. -/
def verify_impright (pf : Proof) : Except PyErr Bool := do
  if pf.premises.length ≠ 1 then return false
  match pf.conclusion.delta with
  | .Proposition (.App .IMPLIES _ args) =>
      match pf.premises with
      | [prem] => do
          let ant ← idxE args 0
          let suc ← idxE args 1
          let gamma := premGamma prem
          let delta := premDelta prem
          if Judgement.Proposition suc ≠ delta then return false
          if (pySetDiff gamma
              (pf.conclusion.gamma ++ [Judgement.Proposition ant])).length > 0 then
            return false
          return true
      | _ => return false
  | _ => return false

/-- `verify_impleft` (used for both `->L` and `->Laff`). -/
def verify_impleft (pf : Proof) : Except PyErr Bool := do
  if (pyDedup (pf.conclusion.gamma.filter (fun p =>
      match jP p with | .App .IMPLIES _ _ => true | _ => false))).length = 0 then
    return false
  if pf.premises.length ≠ 2 then return false
  match pf.premises with
  | [prem0, prem1] => do
      let gamma0 := premGamma prem0
      let delta0 := premDelta prem0
      let gamma1 := premGamma prem1
      let delta1 := premDelta prem1
      if pf.conclusion.delta ≠ delta1 then return false
      if (pySetDiff gamma0 pf.conclusion.gamma).length > 0 then return false
      let extra := pySetDiff gamma1 pf.conclusion.gamma
      let bad := extra.filter (fun p => decide
        (Judgement.Proposition (.App .IMPLIES 2 [jP delta0, jP p])
          ∉ pf.conclusion.gamma))
      if bad.length > 0 then return false
      return true
  | _ => return false

/-- `verify_leftforall` (used for both `@L` and `@Laff`).  `prems[0]` and
`prems[1]` are read from the symmetric difference of the premise and
conclusion assumption sets after only a `len(prems) > 2` guard, so a
difference with fewer than two elements raises `IndexError`, and a
conclusion-side element that is not a `Forall` raises `AttributeError`
at `eq[0].x`. -/
def verify_leftforall (fuel : Nat) (pf : Proof) : Except PyErr Bool := do
  if (pyDedup (pf.conclusion.gamma.filter (fun p =>
      match jP p with | .Forall _ _ => true | _ => false))).length = 0 then
    return false
  if pf.premises.length ≠ 1 then return false
  match pf.premises with
  | [prem] => do
      let delta := premDelta prem
      let gamma := premGamma prem
      if pf.conclusion.delta ≠ delta then return false
      let prems := pySymmDiff gamma pf.conclusion.gamma
      if prems.length > 2 then return false
      let p0 ← match prems.get? 0 with
        | some j => Except.ok j
        | none => Except.error .indexError
      let p1 ← match prems.get? 1 with
        | some j => Except.ok j
        | none => Except.error .indexError
      let eq0 := if p0 ∈ pf.conclusion.gamma then jP p0 else jP p1
      let eq1 := if p0 ∈ pf.conclusion.gamma then jP p1 else jP p0
      match eq0 with
      | .Forall x body => do
          let res ← matchs fuel [(body, eq1)] []
          match res with
          | none => return false
          | some rho =>
              if ¬ dmem rho (.Variable x) then return false
              let rx ← dgetE rho (.Variable x)
              if apply_formula body [(.Variable x, rx)] ≠ eq1 then return false
              -- the trailing `sub_gamma` check (verifier.py lines 177-182)
              -- prints feedback when it fails but does not return False
              return true
      | _ => Except.error .attrError
  | _ => return false

/-- `verify_rightforall`. -/
def verify_rightforall (fuel : Nat) (pf : Proof) : Except PyErr Bool := do
  match pf.conclusion.delta with
  | .Proposition (.Forall v body) =>
      if pf.premises.length ≠ 1 then return false
      else match pf.premises with
      | [prem] => do
          let delta := premDelta prem
          let res ← matchs fuel [(body, jP delta)] []
          match res with
          | none => return false
          | some rho =>
              if ¬ dmem rho (.Variable v) then return false
              let rv ← dgetE rho (.Variable v)
              if apply_formula body rho ≠ jP delta then return false
              if rv ∈ allvarsSeq pf.conclusion then return false
              return true
      | _ => return false
  | _ => return false

/-- `verify_weaken`. -/
def verify_weaken (pf : Proof) : Except PyErr Bool := do
  if pf.premises.length ≠ 1 then return false
  match pf.premises with
  | [prem] => do
      if pf.conclusion.delta ≠ premDelta prem then return false
      if ¬ pySubset (premGamma prem) pf.conclusion.gamma then return false
      return true
  | _ => return false

/-- `verify_cut` (used for both `cut` and `affcut`). -/
def verify_cut (pf : Proof) : Except PyErr Bool := do
  if pf.premises.length ≠ 2 then return false
  match pf.premises with
  | [prem0, prem1] => do
      if pf.conclusion.delta ≠ premDelta prem1 then return false
      if (pySetDiff (premGamma prem0) pf.conclusion.gamma).length > 0 then
        return false
      if (pySetDiff (premGamma prem1)
          (pf.conclusion.gamma ++ [premDelta prem0])).length > 0 then
        return false
      return true
  | _ => return false

/-- `verify_aff`. -/
def verify_aff (pf : Proof) : Except PyErr Bool := do
  if pf.premises.length ≠ 1 then return false
  match pf.premises with
  | [prem] => do
      let delta := premDelta prem
      let gamma := premGamma prem
      match pf.conclusion.delta with
      | .Affirmation _ cp =>
          match delta with
          | .Proposition dp => do
              if cp ≠ dp then return false
              if ¬ pySubset gamma pf.conclusion.gamma then return false
              return true
          | _ => return false
      | _ => return false
  | _ => return false

/-- `verify_saysleft`. -/
def verify_saysleft (pf : Proof) : Except PyErr Bool := do
  if (pyDedup (pf.conclusion.gamma.filter (fun p =>
      match jP p with | .App .SAYS _ _ => true | _ => false))).length = 0 then
    return false
  if pf.premises.length ≠ 1 then return false
  match pf.conclusion.delta with
  | .Affirmation ag _ =>
      match pf.premises with
      | [prem] => do
          let delta := premDelta prem
          let gamma := premGamma prem
          if pf.conclusion.delta ≠ delta then return false
          let newAssumes := pySetDiff gamma pf.conclusion.gamma
          let bad := newAssumes.filter (fun p => decide
            (Judgement.Proposition (.App .SAYS 2 [ag, jP p]) ∉ pf.conclusion.gamma))
          if bad.length > 0 then return false
          return true
      | _ => return false
  | _ => return false

/-- `verify_saysright`. -/
def verify_saysright (pf : Proof) : Except PyErr Bool := do
  match pf.conclusion.delta with
  | .Proposition (.App .SAYS _ args) =>
      if pf.premises.length ≠ 1 then return false
      else match pf.premises with
      | [prem] => do
          let delta := premDelta prem
          let gamma := premGamma prem
          match delta with
          | .Affirmation aff_ag aff_p => do
              let says_ag ← idxE args 0
              let says_p ← idxE args 1
              if says_ag ≠ aff_ag then return false
              if says_p ≠ aff_p then return false
              if ¬ pySubset gamma pf.conclusion.gamma then return false
              return true
          | _ => return false
      | _ => return false
  | _ => return false

/-- `verify_sign`. -/
def verify_sign (pf : Proof) : Except PyErr Bool := do
  match pf.conclusion.delta with
  | .Proposition (.App .SAYS _ cargs) =>
      if pf.premises.length ≠ 2 then return false
      else match pf.premises with
      | [prem0, prem1] => do
          let gamma0 := premGamma prem0
          let delta0 := premDelta prem0
          let gamma1 := premGamma prem1
          let delta1 := premDelta prem1
          let ag ← idxE cargs 0
          let p ← idxE cargs 1
          match delta0 with
          | .Proposition (.App .ISKEY _ a0) =>
              match delta1 with
              | .Proposition (.App .SIGN _ a1) => do
                  let d0a0 ← idxE a0 0
                  if ag ≠ d0a0 then return false
                  let d1a0 ← idxE a1 0
                  if p ≠ d1a0 then return false
                  let d0a1 ← idxE a0 1
                  let d1a1 ← idxE a1 1
                  if d0a1 ≠ d1a1 then return false
                  if ¬ pySubset gamma0 pf.conclusion.gamma then return false
                  if ¬ pySubset gamma1 pf.conclusion.gamma then return false
                  return true
              | _ => return false
          | _ => return false
      | _ => return false
  | _ => return false

/-- `verify_cert`. -/
def verify_cert_rule (pf : Proof) : Except PyErr Bool := do
  match pf.conclusion.delta with
  | .Proposition (.App .ISKEY _ cargs) =>
      if pf.premises.length ≠ 2 then return false
      else match pf.premises with
      | [prem0, prem1] => do
          let gamma0 := premGamma prem0
          let delta0 := premDelta prem0
          let gamma1 := premGamma prem1
          let delta1 := premDelta prem1
          let ag ← idxE cargs 0
          let k ← idxE cargs 1
          match delta0 with
          | .Proposition (.App .ISCA _ a0) =>
              match delta1 with
              | .Proposition (.App .SAYS _ a1) => do
                  let d1a1 ← idxE a1 1
                  match d1a1 with
                  | .App .ISKEY _ ka => do
                      let ka0 ← idxE ka 0
                      if ag ≠ ka0 then return false
                      let d0a0 ← idxE a0 0
                      let d1a0 ← idxE a1 0
                      if d0a0 ≠ d1a0 then return false
                      let ka1 ← idxE ka 1
                      if k ≠ ka1 then return false
                      if ¬ pySubset gamma0 pf.conclusion.gamma then return false
                      if ¬ pySubset gamma1 pf.conclusion.gamma then return false
                      return true
                  | _ => return false
              | _ => return false
          | _ => return false
      | _ => return false
  | _ => return false

/-- `verify_step`: dispatch on the rule name, first checking membership in
the `calculus` catalog. -/
def verify_step (fuel : Nat) (pf : Proof) : Except PyErr Bool :=
  if pf.rule.name ∉ calculusNames then pure false
  else match pf.rule.name with
    | "id" => pure (verify_identity pf)
    | "botL" => pure (verify_botl pf)
    | "->R" => verify_impright pf
    | "->L" => verify_impleft pf
    | "->Laff" => verify_impleft pf
    | "@L" => verify_leftforall fuel pf
    | "@Laff" => verify_leftforall fuel pf
    | "@R" => verify_rightforall fuel pf
    | "W" => verify_weaken pf
    | "cut" => verify_cut pf
    | "affcut" => verify_cut pf
    | "aff" => verify_aff pf
    | "saysL" => verify_saysleft pf
    | "saysR" => verify_saysright pf
    | "sign" => verify_sign pf
    | "cert" => verify_cert_rule pf
    | _ => pure false

/-- The `Sequent` premises of a node, in order: the open obligations
collected first by `verify`. -/
def obligations (prems : List (Sequent ⊕ Proof)) : List Sequent :=
  prems.filterMap (fun pr => match pr with | .inl s => some s | .inr _ => none)

/-- The recursion of `verify` over premises, parameterized by the
verification function applied to `Proof` premises: those are verified in
order and their obligations appended. -/
def verifyPrems (vf : Proof → Except PyErr (List Sequent)) :
    List (Sequent ⊕ Proof) → Except PyErr (List Sequent)
  | [] => return []
  | .inl _ :: rest => verifyPrems vf rest
  | .inr p :: rest => do
      let o ← vf p
      let r ← verifyPrems vf rest
      return o ++ r

/-- `verify` from `verifier.py`: returns the list of open obligations, or
the offending conclusion as a singleton when a step is illegal.  The
`@cache` memoization has no observable effect on the pure semantics.  The
top-level `isinstance(pf, Sequent)` test cannot fire for a `Proof`-typed
argument and is subsumed by `verifyPrems` handling `Sequent` premises.
The fuel bounds both the matcher recursion inside rule checkers and the
proof-tree depth (CPython's recursion limit). -/
def verify : Nat → Proof → Except PyErr (List Sequent)
  | 0, _ => .error .recursionError
  | fuel + 1, .node prems conc rule => do
      let ok ← verify_step fuel (.node prems conc rule)
      if ¬ ok then return [conc]
      let rest ← verifyPrems (verify fuel) prems
      return obligations prems ++ rest

/-- The `op_dict` lookup in `fmla_stringify`; a missing operator is a
`KeyError`. -/
def opName : Operator → Except PyErr String
  | .NOT => .ok "!"
  | .AND => .ok "&"
  | .OR => .ok "|"
  | .IMPLIES => .ok "->"
  | .SAYS => .ok "says"
  | .ISCA => .ok "ca"
  | _ => .error .keyError

/-- `sep.join(ss)`. -/
def joinSep (sep : String) : List String → String
  | [] => ""
  | [s] => s
  | s :: rest => s ++ sep ++ joinSep sep rest

mutual

/-- `fmla_stringify` from `util.py`: the canonical textual encoding signed
by credentials.  Python raises `KeyError` when a unary or n-ary connective
is missing from `op_dict` and `IndexError` on short argument lists; both are
modelled in `Except`.  Note the source renders any nullary application other
than `TRUE` as `"false"`. -/
def fmla_stringify : Formula → Except PyErr String
  | .Variable id => .ok id
  | .Resource id => .ok id
  | .Agent id => .ok id
  | .Key id => .ok id
  | .App op arity args =>
      if arity = 0 then
        .ok (if op = .TRUE then "true" else "false")
      else if arity = 1 then do
        let opn ← opName op
        match args with
        | a0 :: _ => do
            let s0 ← fmla_stringify a0
            Except.ok (opn ++ "(" ++ s0 ++ ")")
        | [] => Except.error .indexError
      else
        match op with
        | .SIGN =>
            match args with
            | a0 :: rest => do
                let s0 ← fmla_stringify a0
                match rest with
                | a1 :: _ => do
                    let s1 ← fmla_stringify a1
                    Except.ok ("sign((" ++ s0 ++ "), " ++ s1 ++ ")")
                | [] => Except.error .indexError
            | [] => .error .indexError
        | .ISKEY =>
            match args with
            | a0 :: rest => do
                let s0 ← fmla_stringify a0
                match rest with
                | a1 :: _ => do
                    let s1 ← fmla_stringify a1
                    Except.ok ("iskey(" ++ s0 ++ ", " ++ s1 ++ ")")
                | [] => Except.error .indexError
            | [] => .error .indexError
        | .OPEN =>
            match args with
            | a0 :: rest => do
                let s0 ← fmla_stringify a0
                match rest with
                | a1 :: _ => do
                    let s1 ← fmla_stringify a1
                    Except.ok ("open(" ++ s0 ++ ", " ++ s1 ++ ")")
                | [] => Except.error .indexError
            | [] => .error .indexError
        | .OTHER =>
            match args with
            | a0 :: rest => do
                let s0 ← fmla_stringify a0
                match rest with
                | a1 :: _ => do
                    let s1 ← fmla_stringify a1
                    Except.ok (s0 ++ "(" ++ s1 ++ ")")
                | [] => Except.error .indexError
            | [] => .error .indexError
        | _ => do
            let opn ← opName op
            let ss ← fmla_stringify_list args
            Except.ok ("(" ++ joinSep (" " ++ opn ++ " ") ss ++ ")")
  | .Forall x p => do
      let sp ← fmla_stringify p
      Except.ok ("(@" ++ x ++ " . (" ++ sp ++ "))")

/-- `[fmla_stringify(q) for q in args]`. -/
def fmla_stringify_list : List Formula → Except PyErr (List String)
  | [] => .ok []
  | a :: as => do
      let s ← fmla_stringify a
      let ss ← fmla_stringify_list as
      .ok (s :: ss)

end



/-- The `Sequent` branch of `rebase_proof` (crypto.py 539-548): drop `sign`
assumptions that are not in the new context, keep everything else, then take
the union with the new context.  `list(set(new_gamma) | set(gamma))` is
modelled as order-preserving deduplication of the concatenation. -/
def rebase_sequent (s : Sequent) (gamma : List Judgement) : Sequent :=
  let new_gamma := s.gamma.filter (fun p =>
    match jP p with
    | .App .SIGN _ _ => decide (p ∈ gamma)
    | _ => true)
  ⟨pyUnion new_gamma gamma, s.delta⟩

mutual

/-- `rebase_proof` from `crypto.py`, at `Proof` arguments. -/
def rebase_proof (pf : Proof) (gamma : List Judgement) : Proof :=
  match pf with
  | .node prems conc rule =>
      .node (rebase_prems prems gamma) (rebase_sequent conc gamma) rule

/-- `rebase_proof` mapped over premises (`Proof | Sequent`). -/
def rebase_prems (prems : List (Sequent ⊕ Proof)) (gamma : List Judgement) :
    List (Sequent ⊕ Proof) :=
  match prems with
  | [] => []
  | .inl s :: rest => .inl (rebase_sequent s gamma) :: rebase_prems rest gamma
  | .inr p :: rest => .inr (rebase_proof p gamma) :: rebase_prems rest gamma

end

/-! The credential/certificate layer from `crypto.py`.  Ed25519 keys, the
file system, and hashing are external to the repository; they enter the
model through an explicit record of oracles.  Public keys are opaque
strings (their PEM encoding). -/

/-- Oracles for the cryptographic primitives used by `crypto.py`:
`fp` is `fingerprint`, `sigOk pk sig msg` is the success of
`pk.verify(bytes.fromhex(sig), msg)`, and `sign ag msg` is
`load_private_key(ag).sign(msg).hex()`. -/
structure CryptoOps where
  fp : String → String
  sigOk : String → String → String → Bool
  sign : Formula → String → String

/-- `Credential` from `crypto.py` (fields `p`, `signator`, `signature`).
`signator` is an `Agent` atom. -/
structure Credential where
  p : Formula
  signator : Formula
  signature : String
deriving DecidableEq

/-- `Certificate` from `crypto.py` (fields `public_key`, `agent`, `cred`). -/
structure Certificate where
  public_key : String
  agent : Formula
  cred : Credential
deriving DecidableEq

/-- `AccessRequest` from `crypto.py`.  The `creds`/`certs` fields are Python
sets; the model carries them as lists iterated in order (a deterministic
refinement of set iteration). -/
structure AccessRequest where
  proof : Proof
  signature : Credential
  creds : List Credential
  certs : List Certificate

/-- Certificate chains: `dict[Agent, Certificate]`. -/
abbrev CertChain := List (Formula × Certificate)

/-- Dict lookup in a certificate chain; missing key raises `KeyError`. -/
def chainGet (chain : CertChain) (k : Formula) : Except PyErr Certificate :=
  match chain with
  | [] => .error .keyError
  | (k', v) :: rest => if k' = k then .ok v else chainGet rest k

/-- `k in chain.keys()`. -/
def chainMem (chain : CertChain) (k : Formula) : Bool :=
  match chain with
  | [] => false
  | (k', _) :: rest => k' = k || chainMem rest k

/-- Dict insert-or-overwrite, for `{cert.agent: cert for cert in req.certs}`. -/
def chainInsert (chain : CertChain) (k : Formula) (v : Certificate) : CertChain :=
  match chain with
  | [] => [(k, v)]
  | (k', v') :: rest =>
      if k' = k then (k', v) :: rest else (k', v') :: chainInsert rest k v

/-- `cert_chain = {cert.agent: cert for cert in req.certs}`. -/
def buildChain (certs : List Certificate) : CertChain :=
  certs.foldl (fun ch c => chainInsert ch c.agent c) []

/-- `Credential.verify_signature(pk)` with an explicit public key (the form
used by `verify_request`): an Ed25519 check of `signature` over the
canonical encoding of `p`. -/
def verify_signature (ops : CryptoOps) (cred : Credential) (pk : String) :
    Except PyErr Bool := do
  let msg ← fmla_stringify cred.p
  return ops.sigOk pk cred.signature msg

/-- `Credential.sign_formula(cert)`: Python formats
`sign({stringify(p)}, {fingerprint(cert.public_key)})` and re-parses it.
The model evaluates the canonical encoding (surfacing its exceptions) and
returns the formula the parser produces on that string,
`sign(p, [fingerprint])`. -/
def sign_formula (ops : CryptoOps) (cred : Credential) (cert : Certificate) :
    Except PyErr Formula := do
  let _ ← fmla_stringify cred.p
  return .App .SIGN 2 [cred.p, .Key (ops.fp cert.public_key)]

/-- `Credential.from_formula(p, agent)` as called with an explicit agent.
The `sign(P, k)` branch scans the on-disk `certs` directory (`glob`), which
is outside the model and is represented as an error; no claim exercises it.
Otherwise the credential is `p` signed by `agent`. -/
def from_formula (ops : CryptoOps) (p : Formula) (agent : Formula) :
    Except PyErr Credential :=
  match p with
  | .App .SIGN 2 [_, _] => .error .ioError
  | _ =>
      match fmla_stringify p with
      | .error e => .error e
      | .ok msg => .ok ⟨p, agent, ops.sign agent msg⟩

/-- `verify_cert` from `crypto.py`.  Control flow follows the source: the
`iskey` pattern match against the certificate's own agent, the fingerprint
check, then — before the (dead) membership test — the `chain[...]` lookup
that raises `KeyError` for a missing signator, the signature check, the
self-signed base case with its `len(roots) > 0` guard, and the recursive
step.  Fuel models Python's recursion limit on cyclic chains. -/
def verify_cert (ops : CryptoOps) : Nat → Certificate → CertChain →
    List Certificate → Except PyErr Bool
  | 0, _, _, _ => .error .recursionError
  | fuel + 1, cert, chain, roots =>
    match cert.cred.p with
    | .App .ISKEY 2 [a0, key] =>
        if a0 = cert.agent then
          match key with
          | .Key kfp =>
              if ops.fp cert.public_key ≠ kfp then .ok false
              else
                match chainGet chain cert.cred.signator with
                | .error e => .error e
                | .ok signer =>
                    match fmla_stringify cert.cred.p with
                    | .error e => .error e
                    | .ok msg =>
                        if ¬ ops.sigOk signer.public_key cert.cred.signature msg then
                          .ok false
                        else if ¬ chainMem chain cert.cred.signator then .ok false
                        else if cert.agent = cert.cred.signator then
                          .ok (if roots.length > 0 then decide (cert ∈ roots) else true)
                        else verify_cert ops fuel signer chain roots
          | _ => .error .attrError
        else .ok false
    | _ => .ok false

/-- `get_cas` from `util.py`: the agents declared as CAs in the context. -/
def get_cas (seq : Sequent) : List Formula :=
  pyDedup (seq.gamma.filterMap (fun p =>
    match p with
    | .Proposition (.App .ISCA _ [ag]) => some ag
    | _ => none))

/-- The certificate-verification loop of `verify_request`. -/
def checkCerts (ops : CryptoOps) (fuel : Nat) (chain : CertChain)
    (roots : List Certificate) : List Certificate → Except PyErr Bool
  | [] => return true
  | c :: rest => do
      let ok ← verify_cert ops fuel c chain roots
      if ¬ ok then return false
      checkCerts ops fuel chain roots rest

/-- The credential-verification loop of `verify_request`
(`cert_chain[cred.signator]` raises `KeyError` for an unknown signator). -/
def checkCreds (ops : CryptoOps) (chain : CertChain) :
    List Credential → Except PyErr Bool
  | [] => return true
  | c :: rest => do
      let signer ← chainGet chain c.signator
      let ok ← verify_signature ops c signer.public_key
      if ¬ ok then return false
      checkCreds ops chain rest

/-- `[Proposition(parse(f'iskey({ca.id}, {fingerprint(...)}')) for ca in cas]`. -/
def casKeys (ops : CryptoOps) (chain : CertChain) :
    List Formula → Except PyErr (List Judgement)
  | [] => return []
  | ca :: rest => do
      let cert ← chainGet chain ca
      let tail ← casKeys ops chain rest
      return Judgement.Proposition
        (.App .ISKEY 2 [ca, .Key (ops.fp cert.public_key)]) :: tail

/-- `[Proposition(cert.cred.sign_formula(...)) for cert in req.certs]`. -/
def certSignFormulas (ops : CryptoOps) (chain : CertChain) :
    List Certificate → Except PyErr (List Judgement)
  | [] => return []
  | c :: rest => do
      let signer ← chainGet chain c.cred.signator
      let f ← sign_formula ops c.cred signer
      let tail ← certSignFormulas ops chain rest
      return Judgement.Proposition f :: tail

/-- `[Proposition(cred.sign_formula(...)) for cred in req.creds]`. -/
def credSignFormulas (ops : CryptoOps) (chain : CertChain) :
    List Credential → Except PyErr (List Judgement)
  | [] => return []
  | c :: rest => do
      let signer ← chainGet chain c.signator
      let f ← sign_formula ops c signer
      let tail ← credSignFormulas ops chain rest
      return Judgement.Proposition f :: tail

/-- The context built by `verify_request` from CA declarations, CA key
bindings, certificate-signing credentials and policy credentials
(crypto.py 583-590); the `parse(f'...')` calls are replaced by the ASTs
they produce. -/
def requestGamma (ops : CryptoOps) (chain : CertChain) (req : AccessRequest) :
    Except PyErr (List Judgement) := do
  let cas := get_cas req.proof.conclusion
  let caDecls := cas.map (fun ca => Judgement.Proposition (.App .ISCA 1 [ca]))
  let caKeys ← casKeys ops chain cas
  let certSigns ← certSignFormulas ops chain req.certs
  let credSigns ← credSignFormulas ops chain req.creds
  return caDecls ++ caKeys ++ certSigns ++ credSigns




/-- `req.signature.p.args[1]`: `.args` raises `AttributeError` unless the
statement is an application; `[1]` raises `IndexError` on a short list. -/
def signatureGoalArg (req : AccessRequest) : Except PyErr Formula :=
  match req.signature.p with
  | .App _ _ args => idxE args 1
  | _ => .error .attrError

/-- `verify_request` from `crypto.py`: verify certificates, verify
credential signatures, rebuild the context, rebase the proof onto it, run
the verifier, and on success return a fresh credential signed by `#root`
over `req.signature.p.args[1]`. -/
def verify_request (ops : CryptoOps) (fuel : Nat) (req : AccessRequest)
    (roots : List Certificate) : Except PyErr (Option Credential) :=
  match checkCerts ops fuel (buildChain req.certs) roots req.certs with
  | .error e => .error e
  | .ok false => .ok none
  | .ok true =>
    match checkCreds ops (buildChain req.certs) req.creds with
    | .error e => .error e
    | .ok false => .ok none
    | .ok true =>
      match requestGamma ops (buildChain req.certs) req with
      | .error e => .error e
      | .ok gamma =>
        match verify fuel (rebase_proof
          (.node req.proof.premises ⟨gamma, req.proof.conclusion.delta⟩ req.proof.rule)
          gamma) with
        | .error e => .error e
        | .ok obs =>
          if obs.length > 0 then .ok none
          else
            match signatureGoalArg req with
            | .error e => .error e
            | .ok goalArg =>
              match from_formula ops goalArg (.Agent "#root") with
              | .error e => .error e
              | .ok c => .ok (some c)

mutual

/-- Every sequent appearing in a proof: each node's conclusion followed by
the sequents of its premises (leaf obligations and, recursively, the
sequents of sub-proofs). -/
def proofSequents : Proof → List Sequent
  | .node prems conc _ => conc :: proofSequentsPrems prems

def proofSequentsPrems : List (Sequent ⊕ Proof) → List Sequent
  | [] => []
  | .inl s :: rest => s :: proofSequentsPrems rest
  | .inr p :: rest => proofSequents p ++ proofSequentsPrems rest

end

mutual

/-- Every rule used in a proof, in the same traversal order. -/
def proofRules : Proof → List Rule
  | .node prems _ rule => rule :: proofRulesPrems prems

def proofRulesPrems : List (Sequent ⊕ Proof) → List Rule
  | [] => []
  | .inl _ :: rest => proofRulesPrems rest
  | .inr p :: rest => proofRules p ++ proofRulesPrems rest

end

/-- The non-`sign` filter applied by `rebase_proof` when the target context
is empty. -/
def nonSignFilter (gamma : List Judgement) : List Judgement :=
  gamma.filter (fun p =>
    match jP p with
    | .App .SIGN _ _ => false
    | _ => true)

mutual

/-- Formulas free of the matcher-internal `OTHER` template application
(which `apply_formula` eliminates rather than preserves). -/
def noOther : Formula → Bool
  | .App .OTHER _ _ => false
  | .App _ _ args => noOtherL args
  | .Forall _ p => noOther p
  | _ => true

def noOtherL : List Formula → Bool
  | [] => true
  | a :: as => noOther a && noOtherL as

end

mutual

/-- Every `OTHER` template application in the formula has at least one
argument (the data model's template form is binary; Python's
`apply_formula` indexes `args[0]`). -/
def otherOk : Formula → Bool
  | .App .OTHER _ [] => false
  | .App _ _ args => otherOkL args
  | .Forall _ p => otherOk p
  | _ => true

def otherOkL : List Formula → Bool
  | [] => true
  | a :: as => otherOk a && otherOkL as

end

/-- A substitution is separated when no value formula mentions a variable
bound as a key, and no value contains an `OTHER` template.  Under this
condition `apply_formula` is idempotent. -/
def SubstSeparated (rho : Subst) : Prop :=
  ∀ kv ∈ rho, noOther kv.2 = true ∧ ∀ v ∈ allvarsF kv.2, dmem rho v = false

instance (rho : Subst) : Decidable (SubstSeparated rho) := by
  unfold SubstSeparated
  infer_instance

/-! The formula grammar from `parser.py`, modelled as a recursive-descent
parser over character lists.  pyparsing constructs are modelled as follows:
whitespace is skipped before every token (`skipWs`); `Literal`/`Suppress`
match a literal prefix; `Word(alphas, alphanums+'_'+'.')` is `parseIdent`;
`MatchFirst` (`|`, used in `atom`) is ordered choice committing to the
first alternative that succeeds; `Or` (`^`, used at the `sign`, `says` and
forall levels) resolves to the longest match, which on grammar-reachable
inputs coincides with trying the compound alternative first (the compound,
when it succeeds, consumes strictly more than the plain alternative);
the left-recursive `implies` production is the standard left-associative
chain.  An explicit fuel (decremented on every level descent) makes the
recursion structural; `fmla_parse` supplies ample fuel. -/

/-- The character class of `IdentParser` bodies. -/
def isIdentChar (c : Char) : Bool := c.isAlphanum || c = '_' || c = '.'

/-- The character class of `KeyParser`. -/
def isKeyChar (c : Char) : Bool := c.isAlphanum || c = ':' || c = '_'

/-- pyparsing's default skippable whitespace. -/
def isWsChar (c : Char) : Bool := c = ' ' || c = '\t' || c = '\n'

/-- Drop leading whitespace. -/
def skipWs : List Char → List Char
  | [] => []
  | c :: cs => if isWsChar c then skipWs cs else c :: cs

/-- Greedy run of identifier-body characters. -/
def takeIdent : List Char → (List Char × List Char)
  | [] => ([], [])
  | c :: cs =>
      if isIdentChar c then
        let (w, r) := takeIdent cs
        (c :: w, r)
      else ([], c :: cs)

/-- Greedy run of key characters. -/
def takeKey : List Char → (List Char × List Char)
  | [] => ([], [])
  | c :: cs =>
      if isKeyChar c then
        let (w, r) := takeKey cs
        (c :: w, r)
      else ([], c :: cs)

/-- `IdentParser()`: a word starting with a letter. -/
def parseIdent (input : List Char) : Option (String × List Char) :=
  match skipWs input with
  | [] => none
  | c :: cs =>
      if c.isAlpha then
        match takeIdent cs with
        | (w, r) => some (String.mk (c :: w), r)
      else none

/-- Match a literal character sequence (no whitespace skipping). -/
def litGo : List Char → List Char → Option (List Char)
  | [], input => some input
  | _ :: _, [] => none
  | l :: ls, c :: cs => if c = l then litGo ls cs else none

/-- `Literal`/`Suppress`: skip whitespace, then match the literal. -/
def parseLit (lit : List Char) (input : List Char) : Option (List Char) :=
  litGo lit (skipWs input)

/-- `ag_or_var = vx ^ ag` (the alternatives have disjoint first tokens). -/
def parseAgOrVar (input : List Char) : Option (Formula × List Char) :=
  match skipWs input with
  | '#' :: cs =>
      match parseIdent cs with
      | some (id, r) => some (.Agent ("#" ++ id), r)
      | none => none
  | s =>
      match parseIdent s with
      | some (id, r) => some (.Variable id, r)
      | none => none

/-- `key_or_var = vx ^ key`. -/
def parseKeyOrVar (input : List Char) : Option (Formula × List Char) :=
  match skipWs input with
  | '[' :: cs =>
      match takeKey cs with
      | ([], _) => none
      | (w, r) =>
          match litGo [']'] r with
          | some r' => some (.Key ("[" ++ String.mk w ++ "]"), r')
          | none => none
  | s =>
      match parseIdent s with
      | some (id, r) => some (.Variable id, r)
      | none => none

/-- `res_or_var = vx ^ res`. -/
def parseResOrVar (input : List Char) : Option (Formula × List Char) :=
  match skipWs input with
  | '<' :: cs =>
      match parseIdent cs with
      | some (id, r) =>
          match litGo ['>'] (skipWs r) with
          | some r' => some (.Resource ("<" ++ id ++ ">"), r')
          | none => none
      | none => none
  | s =>
      match parseIdent s with
      | some (id, r) => some (.Variable id, r)
      | none => none

mutual

/-- The `atom` production (a `MatchFirst` chain, in source order:
`true`, `false`, `ca`, `iskey`, `open`, parenthesized formula,
`with_named_var`, variable). -/
def parseAtom : Nat → List Char → Option (Formula × List Char)
  | 0, _ => none
  | fuel + 1, input =>
    let s := skipWs input
    match litGo ['t','r','u','e'] s with
    | some r => some (.App .TRUE 0 [], r)
    | none =>
    match litGo ['f','a','l','s','e'] s with
    | some r => some (.App .FALSE 0 [], r)
    | none =>
    match (do
      let r1 ← litGo ['c','a'] s
      let r2 ← parseLit ['('] r1
      let (a, r3) ← parseAgOrVar r2
      let r4 ← parseLit [')'] r3
      pure ((Formula.App .ISCA 1 [a]), r4)) with
    | some res => some res
    | none =>
    match (do
      let r1 ← litGo ['i','s','k','e','y'] s
      let r2 ← parseLit ['('] r1
      let (a, r3) ← parseAgOrVar r2
      let r4 ← parseLit [','] r3
      let (k, r5) ← parseKeyOrVar r4
      let r6 ← parseLit [')'] r5
      pure ((Formula.App .ISKEY 2 [a, k]), r6)) with
    | some res => some res
    | none =>
    match (do
      let r1 ← litGo ['o','p','e','n'] s
      let r2 ← parseLit ['('] r1
      let (a, r3) ← parseAgOrVar r2
      let r4 ← parseLit [','] r3
      let (rr, r5) ← parseResOrVar r4
      let r6 ← parseLit [')'] r5
      pure ((Formula.App .OPEN 2 [a, rr]), r6)) with
    | some res => some res
    | none =>
    match (do
      let r1 ← litGo ['('] s
      let (f, r2) ← parseFmla fuel r1
      let r3 ← parseLit [')'] r2
      pure (f, r3)) with
    | some res => some res
    | none =>
    match (do
      let (fid, r1) ← parseIdent s
      let r2 ← parseLit ['('] r1
      let (xid, r3) ← parseIdent r2
      let r4 ← parseLit [')'] r3
      pure ((Formula.App .OTHER 2 [.Variable fid, .Variable xid]), r4)) with
    | some res => some res
    | none =>
    match parseIdent s with
    | some (id, r) => some (.Variable id, r)
    | none => none

/-- The `sign_fmla` production: `atom ^ sign((fmla), key)`. -/
def parseSign : Nat → List Char → Option (Formula × List Char)
  | 0, _ => none
  | fuel + 1, input =>
    let s := skipWs input
    match (do
      let r1 ← litGo ['s','i','g','n'] s
      let r2 ← parseLit ['('] r1
      let (p, r3) ← parseFmla fuel r2
      let r4 ← parseLit [','] r3
      let (k, r5) ← parseKeyOrVar r4
      let r6 ← parseLit [')'] r5
      pure ((Formula.App .SIGN 2 [p, k]), r6)) with
    | some res => some res
    | none => parseAtom fuel s

/-- The left-associative tail of `implies_fmla`. -/
def impLoop : Nat → Formula → List Char → Option (Formula × List Char)
  | 0, _, _ => none
  | fuel + 1, acc, input =>
    match parseLit ['-','>'] input with
    | some r1 =>
        match parseSign fuel r1 with
        | some (rhs, r2) => impLoop fuel (.App .IMPLIES 2 [acc, rhs]) r2
        | none => some (acc, input)
    | none => some (acc, input)

/-- The `implies_fmla` production (left recursion eliminated). -/
def parseImplies : Nat → List Char → Option (Formula × List Char)
  | 0, _ => none
  | fuel + 1, input =>
    match parseSign fuel input with
    | some (e, r) => impLoop fuel e r
    | none => none

/-- The `says_fmla` production: `implies_fmla ^ (ag_or_var says implies)`. -/
def parseSays : Nat → List Char → Option (Formula × List Char)
  | 0, _ => none
  | fuel + 1, input =>
    let s := skipWs input
    match (do
      let (ag, r1) ← parseAgOrVar s
      let r2 ← parseLit ['s','a','y','s'] r1
      let (p, r3) ← parseImplies fuel r2
      pure ((Formula.App .SAYS 2 [ag, p]), r3)) with
    | some res => some res
    | none => parseImplies fuel s

/-- The `fmla` production: `says_fmla ^ (@ vx . says_fmla)` (the branches
have disjoint first tokens). -/
def parseFmla : Nat → List Char → Option (Formula × List Char)
  | 0, _ => none
  | fuel + 1, input =>
    match skipWs input with
    | '@' :: cs => (do
        let (x, r1) ← parseIdent cs
        let r2 ← parseLit ['.'] r1
        let (p, r3) ← parseSays fuel r2
        pure ((Formula.Forall x p), r3))
    | s => parseSays fuel s

end

/-- `fmla_parse(s)` with `parse_all=True`: the whole input (up to trailing
whitespace) must be consumed. -/
def fmla_parse (s : String) : Option Formula :=
  match parseFmla (100 * (s.length + 1)) s.data with
  | some (f, rest) => if skipWs rest = [] then some f else none
  | none => none

/-- `parse(s)` from `parser.py` for the round-trip claim.  The Python
function falls back to the judgement and sequent parsers, but those return
`Judgement`/`Sequent` objects (never a `Formula`), and on the formula
strings considered here they fail exactly when `fmla_parse` does (the
judgement production itself starts by parsing a formula), so the formula
branch is the relevant semantics. -/
def parse (s : String) : Option Formula := fmla_parse s

mutual

/-- Number of nodes of a formula (used to budget parser fuel). -/
def sizeF : Formula → Nat
  | .App _ _ args => 1 + sizeFL args
  | .Forall _ p => 1 + sizeF p
  | _ => 1

def sizeFL : List Formula → Nat
  | [] => 0
  | a :: as => sizeF a + sizeFL as

end

/-- Identifiers accepted by `IdentParser` that survive the `atom`
`MatchFirst`: they must not begin with the literals `true`/`false`, which
succeed on any input they prefix and commit the parse. -/
def validIdentStr (s : String) : Bool :=
  match s.data with
  | [] => false
  | c :: cs =>
      c.isAlpha && cs.all isIdentChar &&
      !(['t','r','u','e'].isPrefixOf s.data) &&
      !(['f','a','l','s','e'].isPrefixOf s.data)

/-- Agents as the grammar's `ag` production prints them: `#` then an
identifier. -/
def agentOrVarOk : Formula → Bool
  | .Variable id => validIdentStr id
  | .Agent id =>
      match id.data with
      | '#' :: c :: cs => c.isAlpha && cs.all isIdentChar
      | _ => false
  | _ => false

/-- Tail of a key fingerprint: key characters closed by `]`. -/
def keyTail : List Char → Bool
  | [] => false
  | [c] => c = ']'
  | c :: cs => isKeyChar c && keyTail cs

/-- Keys as the grammar's `key` production prints them. -/
def keyOrVarOk : Formula → Bool
  | .Variable id => validIdentStr id
  | .Key id =>
      match id.data with
      | '[' :: c :: cs => isKeyChar c && keyTail cs
      | _ => false
  | _ => false

/-- Resources as the grammar's `res` production prints them. -/
def resOrVarOk : Formula → Bool
  | .Variable id => validIdentStr id
  | .Resource id =>
      match id.data with
      | '<' :: c :: cs =>
          c.isAlpha &&
          (match cs.getLast? with | some '>' => true | _ => false) &&
          cs.dropLast.all isIdentChar
      | _ => false
  | _ => false

/-- The grammar-supported fragment of the formula language: exactly the
shapes `parser.py` can produce, with identifiers that survive keyword
prefixes.  `NOT`, `AND`, `OR` and bare `Agent`/`Key`/`Resource` atoms are
outside the grammar (the claim's counterexamples). -/
def canonicalFmla : Formula → Bool
  | .Variable id => validIdentStr id
  | .App .TRUE 0 [] => true
  | .App .FALSE 0 [] => true
  | .App .ISCA 1 [a] => agentOrVarOk a
  | .App .ISKEY 2 [a, k] => agentOrVarOk a && keyOrVarOk k
  | .App .OPEN 2 [a, r] => agentOrVarOk a && resOrVarOk r
  | .App .SIGN 2 [p, k] => canonicalFmla p && keyOrVarOk k
  | .App .IMPLIES 2 [p, q] => canonicalFmla p && canonicalFmla q
  | .App .SAYS 2 [a, p] => agentOrVarOk a && canonicalFmla p
  | .App .OTHER 2 [.Variable f, .Variable x] =>
      validIdentStr f && validIdentStr x && decide (f ≠ "ca")
  | .Forall x p => validIdentStr x && canonicalFmla p
  | _ => false

/-- Continuations a formula string may be followed by inside a larger
canonical string: nothing, a closing delimiter, or an infix continuation.
`CB` (close boundary) is the subset without infix continuations. -/
def CB (rest : List Char) : Prop :=
  rest = [] ∨ (∃ cs, rest = ')' :: cs) ∨ (∃ cs, rest = ',' :: cs)

/-- Sign/atom-level boundary: a close boundary or an `->` continuation. -/
def SB (rest : List Char) : Prop :=
  CB rest ∨ (∃ cs, rest = ' ' :: '-' :: '>' :: ' ' :: cs)

/-- Head of `rest` is not an identifier character (or `rest` is empty). -/
def headNI (rest : List Char) : Prop :=
  ∀ c cs, rest = c :: cs → isIdentChar c = false

/-- Head of `rest` is not a key character (or `rest` is empty). -/
def headNK (rest : List Char) : Prop :=
  ∀ c cs, rest = c :: cs → isKeyChar c = false

/-- Whether the top constructor is a `sign` application (those are parsed
by the dedicated `sign_fmla` branch, not by `atom`). -/
def isSignTop : Formula → Bool
  | .App .SIGN _ _ => true
  | _ => false

/-- Round-trip statement at the `atom` level. -/
def AtomStmt (F : Formula) : Prop :=
  ∀ (str : String) (rest : List Char) (fuel : Nat),
    fmla_stringify F = .ok str → SB rest → 10 * sizeF F + 50 ≤ fuel →
    parseAtom fuel (str.data ++ rest) = some (F, rest)

/-- Round-trip statement at the `sign_fmla` level. -/
def SignStmt (F : Formula) : Prop :=
  ∀ (str : String) (rest : List Char) (fuel : Nat),
    fmla_stringify F = .ok str → SB rest → 10 * sizeF F + 51 ≤ fuel →
    parseSign fuel (str.data ++ rest) = some (F, rest)

/-- Round-trip statement at the `implies_fmla` level. -/
def ImpStmt (F : Formula) : Prop :=
  ∀ (str : String) (rest : List Char) (fuel : Nat),
    fmla_stringify F = .ok str → CB rest → 10 * sizeF F + 52 ≤ fuel →
    parseImplies fuel (str.data ++ rest) = some (F, rest)

/-- Round-trip statement at the `says_fmla` level. -/
def SaysStmt (F : Formula) : Prop :=
  ∀ (str : String) (rest : List Char) (fuel : Nat),
    fmla_stringify F = .ok str → CB rest → 10 * sizeF F + 53 ≤ fuel →
    parseSays fuel (str.data ++ rest) = some (F, rest)

/-- Round-trip statement at the `fmla` level. -/
def FmlaStmt (F : Formula) : Prop :=
  ∀ (str : String) (rest : List Char) (fuel : Nat),
    fmla_stringify F = .ok str → CB rest → 10 * sizeF F + 54 ≤ fuel →
    parseFmla fuel (str.data ++ rest) = some (F, rest)

/-- Round trip for a parenthesized canonical string, `says` level. -/
def ParenSaysStmt (F : Formula) : Prop :=
  ∀ (str : String) (rest : List Char) (fuel : Nat),
    fmla_stringify F = .ok str → CB rest → 10 * sizeF F + 58 ≤ fuel →
    parseSays fuel ('(' :: (str.data ++ ')' :: rest)) = some (F, rest)

/-- Round trip for a parenthesized canonical string, `fmla` level. -/
def ParenFmlaStmt (F : Formula) : Prop :=
  ∀ (str : String) (rest : List Char) (fuel : Nat),
    fmla_stringify F = .ok str → CB rest → 10 * sizeF F + 59 ≤ fuel →
    parseFmla fuel ('(' :: (str.data ++ ')' :: rest)) = some (F, rest)

/-! Concrete fixtures used by claim theorems and witnesses. -/

/-- Concrete crypto oracles: fingerprinting brackets the key id, every
signature verifies, signing returns a fixed tag. -/
def opsFix : CryptoOps := ⟨fun pk => "[K" ++ pk ++ "]", fun _ _ _ => true, fun _ _ => "sig"⟩

/-- A well-formed self-signed certificate for `#a`. -/
def certFixA : Certificate :=
  ⟨"pkA", .Agent "#a", ⟨.App .ISKEY 2 [.Agent "#a", .Key "[KpkA]"], .Agent "#a", "s"⟩⟩

/-- A well-formed self-signed certificate for `#b`, distinct from
`certFixA`. -/
def certFixB : Certificate :=
  ⟨"pkB", .Agent "#b", ⟨.App .ISKEY 2 [.Agent "#b", .Key "[KpkB]"], .Agent "#b", "s"⟩⟩

/-- The access goal `#a says open(#b, <r>)`. -/
def goalFix : Formula :=
  .App .SAYS 2 [.Agent "#a", .App .OPEN 2 [.Agent "#b", .Resource "<r>"]]

/-- An access request carrying no certificates or credentials whose proof is
a single `botL` node (which the verifier accepts because of the missing
`return False` in `verify_botl`). -/
def reqFix : AccessRequest :=
  ⟨.node [] ⟨[], .Proposition (.App .TRUE 0 [])⟩ falseLeftRule,
   ⟨goalFix, .Agent "#a", "s"⟩, [], []⟩

/-- Matcher pattern reusing the predicate hole `P`: `(P & P(x))`. -/
def patFix : Formula :=
  .App .AND 2 [.Variable "P", .App .OTHER 2 [.Variable "P", .Variable "x"]]

/-- Concrete counterpart `(true & false)` for `patFix`. -/
def conFix : Formula := .App .AND 2 [.App .TRUE 0 [], .App .FALSE 0 []]

/-- The substitution the matcher returns on `patFix = conFix`: the
template branch overwrites the earlier binding of `P`. -/
def rhoFix : Subst :=
  [(.Variable "P", .App .FALSE 0 []), (.Variable "@PP", .Variable "x")]

/-- A substitution chaining bindings: `x ↦ y, y ↦ z`. -/
def rhoChainFix : Subst :=
  [(.Variable "x", .Variable "y"), (.Variable "y", .Variable "z")]

/-- A separated substitution whose value is an `OTHER` template
application. -/
def rhoTemplFix : Subst :=
  [(.Variable "x", .App .OTHER 2 [.Variable "y", .Variable "z"])]

/-- `@L` node whose premise assumptions equal the conclusion assumptions:
the symmetric difference is empty. -/
def pfFixForall : Proof :=
  .node [.inl ⟨[.Proposition (.Forall "x" (.Variable "x"))], .Proposition (.Variable "Q")⟩]
    ⟨[.Proposition (.Forall "x" (.Variable "x"))], .Proposition (.Variable "Q")⟩
    forallLeftRule

/-! ### Theorems -/

/-- C1: the claim says `verify` accepts a zero-premise `botL` node with a
`Proposition` goal only when `false true` is among the conclusion's
assumptions, and otherwise reports the step illegal, returning the offending
conclusion.  The code prints the diagnostic but is missing the
`return False` (verifier.py lines 55-58), so `verify_botl` returns `True`
and `verify` returns `[]` — the proof counts as closed — even though
`false true` is absent.  This theorem evaluates the code at such a node. -/
theorem botL_missing_false_accepted :
    verify_botl (.node [] ⟨[], .Proposition (.App .TRUE 0 [])⟩ falseLeftRule) = true ∧
    Judgement.Proposition (.App .FALSE 0 []) ∉
      (Proof.node [] ⟨[], .Proposition (.App .TRUE 0 [])⟩ falseLeftRule).conclusion.gamma ∧
    verify 10 (.node [] ⟨[], .Proposition (.App .TRUE 0 [])⟩ falseLeftRule) = .ok [] := by
  decide

/-- C10: the claim says `verify` is total — in particular that an
`@L`/`@Laff` node whose premise assumptions differ from the conclusion
assumptions in fewer than two judgements is reported as an illegal step.
The code indexes `prems[0]`/`prems[1]` of the symmetric difference after
only a `> 2` guard (verifier.py lines 158-165), so such a node raises
`IndexError`.  This theorem evaluates the code at a node whose premise and
conclusion assumptions coincide. -/
theorem leftforall_small_diff_indexerror :
    verify 10 pfFixForall = .error .indexError := by decide

/-- C3: the claim says a certificate whose `cred.signator` has no entry in
the chain makes `verify_cert` return `False` rather than raise.  The code
evaluates `chain[cert.cred.signator]` (crypto.py line 498) before the
membership test on line 506, so for a certificate that passes the
fingerprint check the lookup raises `KeyError`.  This theorem evaluates the
code on such a certificate with an empty chain. -/
theorem verify_cert_missing_signator_keyerror :
    verify_cert opsFix 5 certFixA [] [] = .error .keyError := by decide

/-- C2 counterexample: a self-signed certificate that is not a member of the
(empty) trusted-roots set is accepted — `verify_cert` returns `True`, not
`False` as the claim states, because of the `len(roots) > 0` guard on
crypto.py line 509. -/
theorem verify_cert_empty_roots_accepts :
    certFixA.agent = certFixA.cred.signator ∧
    certFixA ∉ ([] : List Certificate) ∧
    verify_cert opsFix 5 certFixA [(.Agent "#a", certFixA)] [] = .ok true := by
  decide

/-- C2 (amended): for a self-signed certificate and a NON-EMPTY
trusted-roots set that does not contain it, `verify_cert` never accepts
(on the paths that pass the earlier checks it returns `ok false`; the claim
as stated is wrong for an empty roots set, where the code returns `True`,
and a missing chain entry raises instead of returning). -/
theorem verify_cert_selfsigned_rejected (ops : CryptoOps) (fuel : Nat)
    (cert : Certificate) (chain : CertChain) (roots : List Certificate)
    (hself : cert.agent = cert.cred.signator)
    (hroots : roots ≠ [])
    (hnotin : cert ∉ roots) :
    verify_cert ops fuel cert chain roots ≠ .ok true := by
  have hlen : roots.length > 0 := by
    cases roots with
    | nil => exact absurd rfl hroots
    | cons r rs => simp
  cases fuel with
  | zero => simp [verify_cert]
  | succ fuel =>
      unfold verify_cert
      repeat' split
      all_goals simp_all

theorem SubstExt.rfl (rho : Subst) : SubstExt rho rho := fun _ _ h => h

theorem SubstExt.trans {a b c : Subst} (h₁ : SubstExt a b) (h₂ : SubstExt b c) :
    SubstExt a c := fun k v h => h₂ k v (h₁ k v h)

theorem dget_dinsert_self (rho : Subst) (k v : Formula) :
    dget? (dinsert rho k v) k = some v := by
  induction rho with
  | nil => simp [dinsert, dget?]
  | cons kv rest ih =>
      by_cases h : kv.1 = k <;> simp [dinsert, dget?, h, ih]

theorem dget_dinsert_ne (rho : Subst) (k v k' : Formula) (h : k' ≠ k) :
    dget? (dinsert rho k v) k' = dget? rho k' := by
  have hne : ¬k = k' := fun he => h he.symm
  induction rho with
  | nil => simp [dinsert, dget?, hne]
  | cons kv rest ih =>
      obtain ⟨k₀, v₀⟩ := kv
      by_cases hk : k₀ = k
      · subst hk
        simp [dinsert, dget?, hne]
      · simp only [dinsert, dget?, hk, if_false]
        by_cases hk' : k₀ = k' <;> simp [dget?, hk', ih]

theorem apply_formula_list_eq_map (args : List Formula) (rho : Subst) :
    apply_formula_list args rho = args.map (fun a => apply_formula a rho) := by
  induction args with
  | nil => simp [apply_formula_list]
  | cons a as ih => simp [apply_formula_list, ih]

theorem plainFL_mem {l : List Formula} {a : Formula} (hl : plainFL l = true)
    (ha : a ∈ l) : plainF a = true := by
  induction l with
  | nil => cases ha
  | cons b bs ih =>
      simp only [plainFL, Bool.and_eq_true] at hl
      rcases List.mem_cons.mp ha with h | h
      · exact h ▸ hl.1
      · exact ih hl.2 h

theorem wfArityL_mem {l : List Formula} {a : Formula} (hl : wfArityL l = true)
    (ha : a ∈ l) : wfArity a = true := by
  induction l with
  | nil => cases ha
  | cons b bs ih =>
      simp only [wfArityL, Bool.and_eq_true] at hl
      rcases List.mem_cons.mp ha with h | h
      · exact h ▸ hl.1
      · exact ih hl.2 h

theorem map_eq_of_zip {f : Formula → Formula} :
    ∀ (a₁ a₂ : List Formula), a₁.length = a₂.length →
    (∀ pc ∈ a₁.zip a₂, f pc.1 = pc.2) → a₁.map f = a₂
  | [], [], _, _ => rfl
  | [], _ :: _, h, _ => by cases h
  | _ :: _, [], h, _ => by cases h
  | a :: as, b :: bs, h, hz => by
      simp only [List.map_cons]
      have h₁ : f a = b := hz (a, b) (by simp [List.zip])
      have h₂ : as.map f = bs :=
        map_eq_of_zip as bs (by simpa using h)
          (fun pc hpc => hz pc (by simp [List.zip] at hpc ⊢; right; exact hpc))
      rw [h₁, h₂]

theorem apply_formula_app_ne_other (o : Operator) (n : Nat) (args : List Formula)
    (rho : Subst) (h : o ≠ .OTHER) :
    apply_formula (.App o n args) rho = .App o n (apply_formula_list args rho) := by
  cases o <;> first
    | rfl
    | exact absurd rfl h

theorem plainF_app {o : Operator} {n : Nat} {args : List Formula}
    (h : plainF (.App o n args) = true) :
    o ≠ .OTHER ∧ args.length = n ∧ plainFL args = true := by
  cases o <;>
    simp only [plainF, Bool.and_eq_true, decide_eq_true_eq] at h <;>
    simp_all

theorem wfArity_app {o : Operator} {n : Nat} {args : List Formula}
    (h : wfArity (.App o n args) = true) :
    args.length = n ∧ wfArityL args = true := by
  simp only [wfArity, Bool.and_eq_true, decide_eq_true_eq] at h
  exact h

/-- Soundness invariant of the matcher on plain patterns: a successful run
extends the incoming substitution and solves every equation. -/
theorem matchs_sound_aux (fuel : Nat) (eqs : List (Formula × Formula)) (rho : Subst) :
    ∀ rho', matchs fuel eqs rho = .ok (some rho') →
    (∀ pc ∈ eqs, plainF pc.1 = true ∧ wfArity pc.2 = true) →
    SubstExt rho rho' ∧ ∀ pc ∈ eqs, apply_formula pc.1 rho' = pc.2 := by
  induction fuel, eqs, rho using matchs.induct with
  | case1 eqs rho =>
      intro rho' h
      simp [matchs] at h
  | case2 rho fuel =>
      intro rho' h _
      simp only [matchs, Except.ok.injEq, Option.some.injEq] at h
      subst h
      exact ⟨SubstExt.rfl _, by simp⟩
  | case3 rho fuel rest x v hget ih =>
      intro rho' h hwf
      simp only [matchs, hget, if_pos rfl] at h
      obtain ⟨hext, hrest⟩ := ih rho' h (fun pc hpc => hwf pc (List.mem_cons_of_mem _ hpc))
      refine ⟨hext, fun pc hpc => ?_⟩
      rcases List.mem_cons.mp hpc with hh | hh
      · subst hh
        simp [apply_formula, hext _ _ hget]
      · exact hrest pc hh
  | case4 rho fuel rest x o v hget hne =>
      intro rho' h _
      simp only [matchs, hget, if_neg hne] at h
      cases h
  | case5 rho fuel rest x o hget ih =>
      intro rho' h hwf
      simp only [matchs, hget] at h
      obtain ⟨hext, hrest⟩ := ih rho' h (fun pc hpc => hwf pc (List.mem_cons_of_mem _ hpc))
      have hx : dget? rho' (.Variable x) = some o :=
        hext _ _ (dget_dinsert_self rho (.Variable x) o)
      refine ⟨?_, fun pc hpc => ?_⟩
      · intro k w hk
        refine hext k w ?_
        have hkx : k ≠ .Variable x := fun he => by
          rw [he, hget] at hk; cases hk
        rw [dget_dinsert_ne rho (.Variable x) o k hkx]
        exact hk
      · rcases List.mem_cons.mp hpc with hh | hh
        · subst hh
          simp [apply_formula, hx]
        · exact hrest pc hh
  | case6 rho fuel rest arity a o ih₁ ih₂ ih₃ =>
      intro rho' h hwf
      have := (hwf _ (List.mem_cons_self _ _)).1
      simp [plainF] at this
  | case7 rho fuel rest o₁ n₁ a₁ o₂ n₂ a₂ hno hcond ih =>
      intro rho' h hwf
      simp only [matchs, if_pos hcond] at h
      obtain ⟨ho, hn⟩ := hcond
      have hhead := hwf _ (List.mem_cons_self _ _)
      have hone : o₁ ≠ Operator.OTHER := fun he => hno he
      have hp' : a₁.length = n₁ ∧ plainFL a₁ = true := (plainF_app hhead.1).2
      have hw' : a₂.length = n₂ ∧ wfArityL a₂ = true := wfArity_app hhead.2
      have hwzip : ∀ pc ∈ a₁.zip a₂ ++ rest, plainF pc.1 = true ∧ wfArity pc.2 = true := by
        intro pc hpc
        rcases List.mem_append.mp hpc with hz | hr
        · obtain ⟨hm₁, hm₂⟩ := List.of_mem_zip hz
          exact ⟨plainFL_mem hp'.2 hm₁, wfArityL_mem hw'.2 hm₂⟩
        · exact hwf pc (List.mem_cons_of_mem _ hr)
      obtain ⟨hext, hall⟩ := ih rho' h hwzip
      refine ⟨hext, fun pc hpc => ?_⟩
      rcases List.mem_cons.mp hpc with hh | hh
      · subst hh
        rw [apply_formula_app_ne_other o₁ n₁ a₁ rho' hone]
        rw [apply_formula_list_eq_map]
        have hlen : a₁.length = a₂.length := by omega
        have := map_eq_of_zip (f := fun a => apply_formula a rho') a₁ a₂ hlen
          (fun pc hpc => hall pc (List.mem_append.mpr (Or.inl hpc)))
        rw [this, ho, hn]
      · exact hall pc (List.mem_append.mpr (Or.inr hh))
  | case8 rho fuel rest o₁ n₁ a₁ o₂ n₂ a₂ hno hcond =>
      intro rho' h _
      simp only [matchs, if_neg hcond] at h
      cases h
  | case9 rho fuel rest x₁ p₁ x₂ p₂ ih =>
      intro rho' h hwf
      have := (hwf _ (List.mem_cons_self _ _)).1
      simp [plainF] at this
  | case10 rho fuel rest o₂ hv hother happ hfa ih =>
      intro rho' h hwf
      simp only [matchs, if_pos rfl] at h
      obtain ⟨hext, hrest⟩ := ih rho' h (fun pc hpc => hwf pc (List.mem_cons_of_mem _ hpc))
      refine ⟨hext, fun pc hpc => ?_⟩
      rcases List.mem_cons.mp hpc with hh | hh
      · subst hh
        cases o₂ with
        | Variable x => exact absurd rfl (hv x)
        | App o n a => exact absurd rfl (happ o n a o n a rfl)
        | Forall x p => exact absurd rfl (hfa x p x p rfl)
        | Agent i => rfl
        | Key i => rfl
        | Resource i => rfl
      · exact hrest pc hh
  | case11 rho fuel rest o₁ o₂ hv hother happ hfa hne =>
      intro rho' h _
      simp only [matchs, if_neg hne] at h
      cases h


/-- C2 witness: the amended statement applied to a concrete self-signed
certificate with a non-empty roots list not containing it. -/
theorem verify_cert_selfsigned_rejected_witness :
    certFixA.agent = certFixA.cred.signator ∧
    ([certFixB] : List Certificate) ≠ [] ∧
    certFixA ∉ [certFixB] ∧
    verify_cert opsFix 5 certFixA [(.Agent "#a", certFixA)] [certFixB] ≠ .ok true :=
  ⟨by decide, by decide, by decide,
   verify_cert_selfsigned_rejected opsFix 5 certFixA [(.Agent "#a", certFixA)]
     [certFixB] (by decide) (by decide) (by decide)⟩

/-- C4 counterexample: matcher soundness fails as stated.  (i) On the
quantifier pattern `@x. x` against `@y. y` the matcher succeeds with the
empty substitution, but applying the pattern does not reproduce the
concrete formula (the bound variable is α-renamed away).  (ii) On the
template pattern `(P & P(x))` against `(true & false)` the `OTHER` branch
overwrites the earlier binding of `P`, and applying the result yields
`(false & false)`. -/
theorem matchs_unsound_counterexample :
    (matchs 10 [(.Forall "x" (.Variable "x"), .Forall "y" (.Variable "y"))] []
        = .ok (some []) ∧
      apply_formula (.Forall "x" (.Variable "x")) [] ≠ .Forall "y" (.Variable "y")) ∧
    (matchs 10 [(patFix, conFix)] [] = .ok (some rhoFix) ∧
      apply_formula patFix rhoFix ≠ conFix) := by
  decide

/-- C4 (amended): matcher soundness holds for plain patterns — arity-correct
patterns containing neither `Forall` nor the matcher-internal `OTHER`
template — against arity-correct concrete formulas: a successful
`matchs([(P, C)], {})` returns a substitution under which the pattern
applies back to exactly `C`. -/
theorem matchs_plain_sound (fuel : Nat) (P C : Formula) (rho : Subst)
    (hP : plainF P = true) (hC : wfArity C = true)
    (h : matchs fuel [(P, C)] [] = .ok (some rho)) :
    apply_formula P rho = C :=
  (matchs_sound_aux fuel [(P, C)] [] rho h
    (fun pc hpc => by
      rcases List.mem_singleton.mp hpc with rfl
      exact ⟨hP, hC⟩)).2 (P, C) (List.mem_singleton.mpr rfl)

/-- C4 witness: the soundness theorem applied at the pattern `x` and the
concrete formula `true`. -/
theorem matchs_plain_sound_witness :
    plainF (.Variable "x") = true ∧
    wfArity (.App .TRUE 0 []) = true ∧
    matchs 5 [(.Variable "x", .App .TRUE 0 [])] []
      = .ok (some [(.Variable "x", .App .TRUE 0 [])]) ∧
    apply_formula (.Variable "x") [(.Variable "x", .App .TRUE 0 [])]
      = .App .TRUE 0 [] :=
  ⟨by decide, by decide, by decide,
   matchs_plain_sound 5 (.Variable "x") (.App .TRUE 0 [])
     [(.Variable "x", .App .TRUE 0 [])] (by decide) (by decide) (by decide)⟩

theorem from_formula_ok {ops : CryptoOps} {p ag : Formula} {c : Credential}
    (h : from_formula ops p ag = .ok c) : c.p = p ∧ c.signator = ag := by
  unfold from_formula at h
  split at h
  · cases h
  · split at h
    · cases h
    · cases h
      exact ⟨rfl, rfl⟩

/-- C5 (amended): when `verify_request` accepts, the returned credential is
signed by `#root` over `req.signature.p.args[1]` — the second argument of
the signature statement (for a goal `A says open(B, R)` this is
`open(B, R)`), not the goal formula itself as the claim states. -/
theorem verify_request_signs_goal_arg (ops : CryptoOps) (fuel : Nat)
    (req : AccessRequest) (roots : List Certificate) (c : Credential)
    (h : verify_request ops fuel req roots = .ok (some c)) :
    c.signator = .Agent "#root" ∧ signatureGoalArg req = .ok c.p := by
  unfold verify_request at h
  cases hcerts : checkCerts ops fuel (buildChain req.certs) roots req.certs with
  | error e => simp [hcerts] at h
  | ok b₁ =>
    cases b₁ with
    | false => simp [hcerts] at h
    | true =>
      simp only [hcerts] at h
      cases hcreds : checkCreds ops (buildChain req.certs) req.creds with
      | error e => simp [hcreds] at h
      | ok b₂ =>
        cases b₂ with
        | false => simp [hcreds] at h
        | true =>
          simp only [hcreds] at h
          cases hgam : requestGamma ops (buildChain req.certs) req with
          | error e => simp [hgam] at h
          | ok gamma =>
            simp only [hgam] at h
            cases hver : verify fuel (rebase_proof
                (.node req.proof.premises ⟨gamma, req.proof.conclusion.delta⟩
                  req.proof.rule) gamma) with
            | error e => simp [hver] at h
            | ok obs =>
              simp only [hver] at h
              by_cases hobs : obs.length > 0
              · simp only [hobs, if_pos] at h
                cases h
              · simp only [hobs, if_neg, ite_false] at h
                cases hgoal : signatureGoalArg req with
                | error e => simp [hgoal] at h
                | ok goalArg =>
                  simp only [hgoal] at h
                  cases hform : from_formula ops goalArg (.Agent "#root") with
                  | error e => simp [hform] at h
                  | ok c' =>
                    simp only [hform] at h
                    injection h with h1
                    injection h1 with h2
                    subst h2
                    obtain ⟨hp, hs⟩ := from_formula_ok hform
                    subst hp
                    exact ⟨hs, rfl⟩

/-- C5 counterexample: a request that passes all three phases (empty
certificate and credential sets, and a `botL` proof node the verifier
accepts) is granted a credential whose statement is `open(#b, <r>)` — not
the request's goal formula `#a says open(#b, <r>)` as claimed:
`verify_request` signs `req.signature.p.args[1]` (crypto.py line 606). -/
theorem verify_request_signs_subformula_counterexample :
    verify_request opsFix 10 reqFix []
      = .ok (some ⟨.App .OPEN 2 [.Agent "#b", .Resource "<r>"],
          .Agent "#root", "sig"⟩) ∧
    Formula.App .OPEN 2 [.Agent "#b", .Resource "<r>"] ≠ reqFix.signature.p := by
  decide

/-- C5 witness: the amended statement applied to the concrete accepted
request. -/
theorem verify_request_signs_goal_arg_witness :
    verify_request opsFix 10 reqFix []
      = .ok (some ⟨.App .OPEN 2 [.Agent "#b", .Resource "<r>"],
          .Agent "#root", "sig"⟩) ∧
    (Credential.mk (.App .OPEN 2 [.Agent "#b", .Resource "<r>"])
        (.Agent "#root") "sig").signator = .Agent "#root" ∧
    signatureGoalArg reqFix
      = .ok (Credential.mk (.App .OPEN 2 [.Agent "#b", .Resource "<r>"])
          (.Agent "#root") "sig").p :=
  ⟨by decide,
   (verify_request_signs_goal_arg opsFix 10 reqFix []
     ⟨.App .OPEN 2 [.Agent "#b", .Resource "<r>"], .Agent "#root", "sig"⟩
     (by decide)).1,
   (verify_request_signs_goal_arg opsFix 10 reqFix []
     ⟨.App .OPEN 2 [.Agent "#b", .Resource "<r>"], .Agent "#root", "sig"⟩
     (by decide)).2⟩

theorem mem_pyDedupAux {α : Type} [DecidableEq α] {a : α} :
    ∀ {seen l : List α}, a ∈ pyDedupAux seen l ↔ a ∈ l ∧ a ∉ seen := by
  intro seen l
  induction l generalizing seen with
  | nil => simp [pyDedupAux]
  | cons b bs ih =>
      by_cases hb : b ∈ seen
      · rw [pyDedupAux, if_pos hb, ih]
        constructor
        · rintro ⟨h1, h2⟩
          exact ⟨List.mem_cons_of_mem _ h1, h2⟩
        · rintro ⟨h1, h2⟩
          rcases List.mem_cons.mp h1 with rfl | h1'
          · exact absurd hb h2
          · exact ⟨h1', h2⟩
      · rw [pyDedupAux, if_neg hb]
        constructor
        · intro h
          rcases List.mem_cons.mp h with rfl | h'
          · exact ⟨List.mem_cons_self _ _, hb⟩
          · obtain ⟨h1, h2⟩ := ih.mp h'
            exact ⟨List.mem_cons_of_mem _ h1,
              fun hs => h2 (List.mem_cons_of_mem _ hs)⟩
        · rintro ⟨h1, h2⟩
          rcases List.mem_cons.mp h1 with rfl | h1'
          · exact List.mem_cons_self _ _
          · by_cases hab : a = b
            · subst hab
              exact List.mem_cons_self _ _
            · refine List.mem_cons_of_mem _ (ih.mpr ⟨h1', fun hs => ?_⟩)
              rcases List.mem_cons.mp hs with h | h
              · exact hab h
              · exact h2 h

theorem mem_pyDedup {α : Type} [DecidableEq α] {a : α} {l : List α} :
    a ∈ pyDedup l ↔ a ∈ l := by
  simp [pyDedup, mem_pyDedupAux]

theorem pyDedupAux_eq_nil {α : Type} [DecidableEq α] {seen l : List α}
    (h : ∀ a ∈ l, a ∈ seen) : pyDedupAux seen l = [] := by
  induction l with
  | nil => rfl
  | cons b bs ih =>
      have hb : b ∈ seen := h b (List.mem_cons_self _ _)
      simp only [pyDedupAux, if_pos hb]
      exact ih (fun a ha => h a (List.mem_cons_of_mem _ ha))

theorem pyDedupAux_append_subset {α : Type} [DecidableEq α] {y : List α} :
    ∀ {seen z : List α}, (∀ a ∈ y, a ∈ z ∨ a ∈ seen) →
    pyDedupAux seen (z ++ y) = pyDedupAux seen z := by
  intro seen z
  induction z generalizing seen with
  | nil =>
      intro h
      simp only [List.nil_append, pyDedupAux]
      exact pyDedupAux_eq_nil (fun a ha => (h a ha).resolve_left (by simp))
  | cons b bs ih =>
      intro h
      by_cases hb : b ∈ seen
      · simp only [List.cons_append, pyDedupAux, if_pos hb]
        refine ih (fun a ha => ?_)
        rcases h a ha with hz | hs
        · rcases List.mem_cons.mp hz with rfl | hz'
          · exact Or.inr hb
          · exact Or.inl hz'
        · exact Or.inr hs
      · simp only [List.cons_append, pyDedupAux, if_neg hb]
        refine congrArg _ (ih (fun a ha => ?_))
        rcases h a ha with hz | hs
        · rcases List.mem_cons.mp hz with rfl | hz'
          · exact Or.inr (List.mem_cons_self _ _)
          · exact Or.inl hz'
        · exact Or.inr (List.mem_cons_of_mem _ hs)

theorem pyDedupAux_fixed {α : Type} [DecidableEq α] :
    ∀ {seen l : List α}, (∀ a ∈ l, a ∉ seen) → l.Nodup →
    pyDedupAux seen l = l := by
  intro seen l
  induction l generalizing seen with
  | nil => intro _ _; rfl
  | cons b bs ih =>
      intro hd hn
      have hb : b ∉ seen := hd b (List.mem_cons_self _ _)
      simp only [pyDedupAux, if_neg hb]
      refine congrArg _ (ih (fun a ha => ?_) (List.Nodup.of_cons hn))
      intro hs
      rcases List.mem_cons.mp hs with rfl | hs'
      · exact (List.nodup_cons.mp hn).1 ha
      · exact hd a (List.mem_cons_of_mem _ ha) hs'

theorem nodup_pyDedupAux {α : Type} [DecidableEq α] :
    ∀ {seen l : List α}, (pyDedupAux seen l).Nodup := by
  intro seen l
  induction l generalizing seen with
  | nil => exact List.nodup_nil
  | cons b bs ih =>
      by_cases hb : b ∈ seen
      · simpa [pyDedupAux, if_pos hb] using ih
      · simp only [pyDedupAux, if_neg hb, List.nodup_cons]
        refine ⟨fun hmem => ?_, ih⟩
        exact (mem_pyDedupAux.mp hmem).2 (List.mem_cons_self _ _)

theorem pyDedup_idem {α : Type} [DecidableEq α] (l : List α) :
    pyDedup (pyDedup l) = pyDedup l :=
  pyDedupAux_fixed (fun a _ ha => (List.mem_nil_iff a).mp ha) nodup_pyDedupAux

theorem pyDedup_append_subset {α : Type} [DecidableEq α] {z y : List α}
    (h : ∀ a ∈ y, a ∈ z) : pyDedup (z ++ y) = pyDedup z :=
  pyDedupAux_append_subset (fun a ha => Or.inl (h a ha))

/-- Filtering then unioning with a context whose elements all satisfy the
filter is idempotent. -/
theorem pyUnion_filter_idem {α : Type} [DecidableEq α] (f : α → Bool)
    (l gamma : List α) (hgamma : ∀ a ∈ gamma, f a = true) :
    pyUnion ((pyUnion (l.filter f) gamma).filter f) gamma
      = pyUnion (l.filter f) gamma := by
  unfold pyUnion
  have hfix : (pyDedup (l.filter f ++ gamma)).filter f
      = pyDedup (l.filter f ++ gamma) := by
    apply List.filter_eq_self.mpr
    intro p hp
    rcases List.mem_append.mp (mem_pyDedup.mp hp) with hl | hg
    · exact List.of_mem_filter hl
    · exact hgamma p hg
  rw [hfix]
  have h1 : pyDedup (pyDedup (l.filter f ++ gamma) ++ gamma)
      = pyDedup (pyDedup (l.filter f ++ gamma)) :=
    pyDedup_append_subset
      (fun a ha => mem_pyDedup.mpr (List.mem_append.mpr (Or.inr ha)))
  rw [h1, pyDedup_idem]

/-- The sequent-level rebase with an empty target just drops `sign`
assumptions and deduplicates. -/
theorem rebase_sequent_nil (s : Sequent) :
    rebase_sequent s [] = ⟨pyDedup (nonSignFilter s.gamma), s.delta⟩ := by
  simp only [rebase_sequent, pyUnion, nonSignFilter, List.append_nil]
  congr 1

/-- Rebasing a sequent twice onto the same context is the same as rebasing
once. -/
theorem rebase_sequent_idem (s : Sequent) (gamma : List Judgement) :
    rebase_sequent (rebase_sequent s gamma) gamma = rebase_sequent s gamma := by
  simp only [rebase_sequent]
  congr 1
  refine pyUnion_filter_idem _ s.gamma gamma (fun a ha => ?_)
  cases hj : jP a with
  | App o n args => cases o <;> simp [ha]
  | Variable x => simp
  | Agent x => simp
  | Key x => simp
  | Resource x => simp
  | Forall x q => simp

mutual

theorem rebase_idem_aux (pf : Proof) (gamma : List Judgement) :
    rebase_proof (rebase_proof pf gamma) gamma = rebase_proof pf gamma := by
  cases pf with
  | node prems conc rule =>
      rw [rebase_proof, rebase_proof, rebase_sequent_idem,
        rebase_prems_idem_aux prems gamma]

theorem rebase_prems_idem_aux (prems : List (Sequent ⊕ Proof))
    (gamma : List Judgement) :
    rebase_prems (rebase_prems prems gamma) gamma = rebase_prems prems gamma := by
  cases prems with
  | nil => rfl
  | cons pr rest =>
      cases pr with
      | inl s =>
          rw [rebase_prems, rebase_prems, rebase_sequent_idem,
            rebase_prems_idem_aux rest gamma]
      | inr p =>
          rw [rebase_prems, rebase_prems, rebase_idem_aux p gamma,
            rebase_prems_idem_aux rest gamma]

end

/-- C7: rebasing is idempotent — rebasing a proof twice onto the same
assumption list equals rebasing it once (structural equality, with Python's
`list(set(..) | set(..))` modelled as order-preserving dedup union). -/
theorem rebase_proof_idempotent (pf : Proof) (gamma : List Judgement) :
    rebase_proof (rebase_proof pf gamma) gamma = rebase_proof pf gamma :=
  rebase_idem_aux pf gamma

mutual

theorem rebase_nil_seqs_aux (pf : Proof) :
    proofSequents (rebase_proof pf []) = (proofSequents pf).map
      (fun s => ⟨pyDedup (nonSignFilter s.gamma), s.delta⟩) := by
  cases pf with
  | node prems conc rule =>
      rw [rebase_proof, proofSequents, proofSequents, List.map_cons,
        rebase_sequent_nil, rebase_nil_seqsPrems_aux prems]

theorem rebase_nil_seqsPrems_aux (prems : List (Sequent ⊕ Proof)) :
    proofSequentsPrems (rebase_prems prems []) = (proofSequentsPrems prems).map
      (fun s => ⟨pyDedup (nonSignFilter s.gamma), s.delta⟩) := by
  cases prems with
  | nil => rfl
  | cons pr rest =>
      cases pr with
      | inl s =>
          rw [rebase_prems, proofSequentsPrems, proofSequentsPrems,
            List.map_cons, rebase_sequent_nil, rebase_nil_seqsPrems_aux rest]
      | inr p =>
          rw [rebase_prems, proofSequentsPrems, proofSequentsPrems,
            List.map_append, rebase_nil_seqs_aux p, rebase_nil_seqsPrems_aux rest]

end

mutual

theorem rebase_rules_aux (pf : Proof) (gamma : List Judgement) :
    proofRules (rebase_proof pf gamma) = proofRules pf := by
  cases pf with
  | node prems conc rule =>
      rw [rebase_proof, proofRules, proofRules, rebase_rulesPrems_aux prems gamma]

theorem rebase_rulesPrems_aux (prems : List (Sequent ⊕ Proof))
    (gamma : List Judgement) :
    proofRulesPrems (rebase_prems prems gamma) = proofRulesPrems prems := by
  cases prems with
  | nil => rfl
  | cons pr rest =>
      cases pr with
      | inl s =>
          rw [rebase_prems, proofRulesPrems, proofRulesPrems,
            rebase_rulesPrems_aux rest gamma]
      | inr p =>
          rw [rebase_prems, proofRulesPrems, proofRulesPrems,
            rebase_rules_aux p gamma, rebase_rulesPrems_aux rest gamma]

end

/-- C6 (amended): rebasing onto `[]` does not empty the assumption lists.
Every sequent of `rebase_proof(pi, [])` (each node's conclusion and each
leaf) carries the corresponding original sequent's gamma with exactly the
`sign`-formula assumptions removed (and duplicates collapsed), the same
delta, and every node keeps its rule. -/
theorem rebase_nil_strips_only_sign (pf : Proof) :
    proofSequents (rebase_proof pf []) = (proofSequents pf).map
      (fun s => ⟨pyDedup (nonSignFilter s.gamma), s.delta⟩) ∧
    proofRules (rebase_proof pf []) = proofRules pf :=
  ⟨rebase_nil_seqs_aux pf, rebase_rules_aux pf []⟩

/-- C6 counterexample: a proof node whose assumption `Q true` is not a
`sign` formula keeps it after `rebase_proof(pi, [])`, so the rebased
sequent's gamma is not the empty list the claim requires. -/
theorem rebase_nil_keeps_assumptions_counterexample :
    rebase_proof
        (.node [] ⟨[.Proposition (.Variable "Q")], .Proposition (.Variable "Q")⟩
          identityRule) []
      = .node [] ⟨[.Proposition (.Variable "Q")], .Proposition (.Variable "Q")⟩
          identityRule ∧
    (Proof.node [] ⟨[.Proposition (.Variable "Q")], .Proposition (.Variable "Q")⟩
        identityRule).conclusion.gamma ≠ [] := by
  decide

theorem dget_mem {rho : Subst} {k v : Formula} (h : dget? rho k = some v) :
    (k, v) ∈ rho := by
  induction rho with
  | nil => cases h
  | cons kv rest ih =>
      obtain ⟨k', v'⟩ := kv
      by_cases hk : k' = k
      · subst hk
        simp [dget?] at h
        subst h
        exact List.mem_cons_self _ _
      · simp only [dget?, if_neg hk] at h
        exact List.mem_cons_of_mem _ (ih h)

theorem mem_key_dmem {rho : Subst} {k v : Formula} (h : (k, v) ∈ rho) :
    dmem rho k = true := by
  induction rho with
  | nil => cases h
  | cons kv rest ih =>
      obtain ⟨k', v'⟩ := kv
      rcases List.mem_cons.mp h with heq | htail
      · injection heq with h1 h2
        subst h1
        simp [dmem, dget?]
      · by_cases hk : k' = k <;> simp [dmem, dget?, hk]
        · exact ih htail

theorem dget_dfilter_ne {rho : Subst} {t k : Formula} (h : k ≠ t) :
    dget? (dfilter rho (fun w => decide (w ≠ t))) k = dget? rho k := by
  induction rho with
  | nil => rfl
  | cons kv rest ih =>
      obtain ⟨k', v'⟩ := kv
      simp only [dfilter, ne_eq, decide_not] at ih ⊢
      by_cases ht : k' = t
      · subst ht
        have hkk : ¬k' = k := fun he => h he.symm
        simp [List.filter_cons, dget?, hkk, ih]
      · by_cases hk : k' = k <;>
          simp [List.filter_cons, dget?, ht, hk, ih, h]

theorem dget_dfilter_self {rho : Subst} {t : Formula} :
    dget? (dfilter rho (fun w => decide (w ≠ t))) t = none := by
  induction rho with
  | nil => rfl
  | cons kv rest ih =>
      obtain ⟨k', v'⟩ := kv
      simp only [dfilter, ne_eq, decide_not] at ih ⊢
      by_cases ht : k' = t
      · simp [List.filter_cons, ht, ih]
      · simp [List.filter_cons, dget?, ht, ih]

theorem dmem_dfilter_imp {rho : Subst} {pred : Formula → Bool} {k : Formula}
    (h : dmem (dfilter rho pred) k = true) : dmem rho k = true := by
  unfold dmem at h
  cases hg : dget? (dfilter rho pred) k with
  | none => rw [hg] at h; cases h
  | some v =>
      exact mem_key_dmem (List.mem_of_mem_filter (dget_mem hg))

theorem dmem_dfilter_ne_false {rho : Subst} {t k : Formula} (hk : k ≠ t)
    (h : dmem rho k = false) :
    dmem (dfilter rho (fun w => decide (w ≠ t))) k = false := by
  unfold dmem at *
  rw [dget_dfilter_ne hk]
  exact h

theorem otherOkL_mem {l : List Formula} {a : Formula}
    (hl : otherOkL l = true) (ha : a ∈ l) : otherOk a = true := by
  induction l with
  | nil => cases ha
  | cons b bs ih =>
      simp only [otherOkL, Bool.and_eq_true] at hl
      rcases List.mem_cons.mp ha with h | h
      · exact h ▸ hl.1
      · exact ih hl.2 h

theorem otherOk_app {o : Operator} {n : Nat} {args : List Formula}
    (h : otherOk (.App o n args) = true) (hne : o ≠ .OTHER ∨ args ≠ []) :
    otherOkL args = true := by
  cases o <;> cases args <;> simp_all [otherOk, otherOkL]

mutual

theorem apply_noOther_aux (f : Formula) (rho : Subst)
    (hok : otherOk f = true)
    (hr : ∀ kv ∈ rho, noOther kv.2 = true) :
    noOther (apply_formula f rho) = true := by
  cases f with
  | Variable x =>
      cases hg : dget? rho (.Variable x) with
      | some q =>
          simp only [apply_formula, hg]
          exact hr (.Variable x, q) (dget_mem hg)
      | none => simp [apply_formula, hg, noOther]
  | Agent a => simp [apply_formula, noOther]
  | Key a => simp [apply_formula, noOther]
  | Resource a => simp [apply_formula, noOther]
  | App o n args =>
      by_cases ho : o = Operator.OTHER
      · subst ho
        cases args with
        | nil => simp [otherOk] at hok
        | cons a rest =>
            simp only [apply_formula]
            refine apply_noOther_aux a rho ?_ hr
            exact otherOkL_mem (otherOk_app hok (Or.inr (by simp)))
              (List.mem_cons_self _ _)
      · rw [apply_formula_app_ne_other o n args rho ho]
        have hl : noOtherL (apply_formula_list args rho) = true :=
          apply_noOtherL_aux args rho (otherOk_app hok (Or.inl ho)) hr
        cases o <;> first
          | exact absurd rfl ho
          | simpa [noOther] using hl
  | Forall x p =>
      simp only [apply_formula, noOther]
      refine apply_noOther_aux p _ (by simpa [otherOk] using hok)
        (fun kv hkv => hr kv (List.mem_of_mem_filter hkv))

theorem apply_noOtherL_aux (args : List Formula) (rho : Subst)
    (hok : otherOkL args = true)
    (hr : ∀ kv ∈ rho, noOther kv.2 = true) :
    noOtherL (apply_formula_list args rho) = true := by
  cases args with
  | nil => rfl
  | cons a as =>
      simp only [otherOkL, Bool.and_eq_true] at hok
      simp only [apply_formula_list, noOtherL, Bool.and_eq_true]
      exact ⟨apply_noOther_aux a rho hok.1 hr, apply_noOtherL_aux as rho hok.2 hr⟩

end

mutual

theorem apply_vars_aux (f : Formula) (rho : Subst)
    (hsep : ∀ kv ∈ rho, ∀ v ∈ allvarsF kv.2, dmem rho v = false) :
    ∀ v ∈ allvarsF (apply_formula f rho), dmem rho v = false := by
  cases f with
  | Variable x =>
      cases hg : dget? rho (.Variable x) with
      | some q =>
          simp only [apply_formula, hg]
          exact hsep (.Variable x, q) (dget_mem hg)
      | none =>
          simp only [apply_formula, hg, allvarsF]
          intro v hv
          rcases List.mem_singleton.mp hv with rfl
          simp [dmem, hg]
  | Agent a => simp [apply_formula, allvarsF]
  | Key a => simp [apply_formula, allvarsF]
  | Resource a => simp [apply_formula, allvarsF]
  | App o n args =>
      by_cases ho : o = Operator.OTHER
      · subst ho
        cases args with
        | nil => simp [apply_formula, allvarsF, allvarsFL]
        | cons a rest =>
            simp only [apply_formula]
            exact apply_vars_aux a rho hsep
      · rw [apply_formula_app_ne_other o n args rho ho]
        simp only [allvarsF]
        exact apply_varsL_aux args rho hsep
  | Forall x p =>
      simp only [apply_formula, allvarsF]
      intro v hv
      obtain ⟨hv', hvx⟩ := List.mem_filter.mp hv
      have hvx' : v ≠ .Variable x := by simpa using hvx
      have hsep' : ∀ kv ∈ dfilter rho (fun w => decide (w ≠ .Variable x)),
          ∀ w ∈ allvarsF kv.2,
          dmem (dfilter rho (fun w => decide (w ≠ .Variable x))) w = false := by
        intro kv hkv w hw
        have hbase := hsep kv (List.mem_of_mem_filter hkv) w hw
        cases hmem : dmem (dfilter rho (fun w => decide (w ≠ .Variable x))) w with
        | false => rfl
        | true => exact absurd (dmem_dfilter_imp hmem) (by simp [hbase])
      have := apply_vars_aux p _ hsep' v hv'
      unfold dmem at this ⊢
      rwa [dget_dfilter_ne hvx'] at this

theorem apply_varsL_aux (args : List Formula) (rho : Subst)
    (hsep : ∀ kv ∈ rho, ∀ v ∈ allvarsF kv.2, dmem rho v = false) :
    ∀ v ∈ allvarsFL (apply_formula_list args rho), dmem rho v = false := by
  cases args with
  | nil => simp [apply_formula_list, allvarsFL]
  | cons a as =>
      simp only [apply_formula_list, allvarsFL]
      intro v hv
      rcases List.mem_append.mp hv with h | h
      · exact apply_vars_aux a rho hsep v h
      · exact apply_varsL_aux as rho hsep v h

end

mutual

theorem apply_fixed_aux (g : Formula) (rho : Subst)
    (hno : noOther g = true)
    (hvars : ∀ v ∈ allvarsF g, dmem rho v = false) :
    apply_formula g rho = g := by
  cases g with
  | Variable x =>
      have := hvars (.Variable x) (List.mem_singleton.mpr rfl)
      unfold dmem at this
      cases hg : dget? rho (.Variable x) with
      | some q => rw [hg] at this; cases this
      | none => simp [apply_formula, hg]
  | Agent a => simp [apply_formula]
  | Key a => simp [apply_formula]
  | Resource a => simp [apply_formula]
  | App o n args =>
      have ho : o ≠ .OTHER := by
        intro h
        subst h
        simp [noOther] at hno
      rw [apply_formula_app_ne_other o n args rho ho]
      have hnol : noOtherL args = true := by
        cases o <;> simp_all [noOther]
      have : apply_formula_list args rho = args :=
        apply_fixedL_aux args rho hnol (by simpa [allvarsF] using hvars)
      rw [this]
  | Forall x p =>
      simp only [apply_formula]
      congr 1
      refine apply_fixed_aux p _ (by simpa [noOther] using hno)
        (fun v hv => ?_)
      by_cases hvx : v = .Variable x
      · subst hvx
        unfold dmem
        rw [dget_dfilter_self]
        rfl
      · refine dmem_dfilter_ne_false hvx ?_
        refine hvars v ?_
        simp only [allvarsF, List.mem_filter]
        exact ⟨hv, by simpa using hvx⟩

theorem apply_fixedL_aux (args : List Formula) (rho : Subst)
    (hno : noOtherL args = true)
    (hvars : ∀ v ∈ allvarsFL args, dmem rho v = false) :
    apply_formula_list args rho = args := by
  cases args with
  | nil => rfl
  | cons a as =>
      simp only [noOtherL, Bool.and_eq_true] at hno
      simp only [apply_formula_list]
      rw [apply_fixed_aux a rho hno.1
        (fun v hv => hvars v (by simp [allvarsFL, hv])),
        apply_fixedL_aux as rho hno.2
        (fun v hv => hvars v (by simp [allvarsFL, hv]))]

end

/-- C8 (amended): substitution application is idempotent for separated
substitutions — when no value formula mentions a key of `rho` and no value
contains an `OTHER` template — on formulas whose `OTHER` template
applications are non-degenerate (non-empty argument lists; the data model
fixes `OTHER` at arity 2).  As stated the
claim fails: chained bindings (`x ↦ y, y ↦ z`) rewrite again on the second
pass, and an `OTHER` template in a value is eliminated by the second pass. -/
theorem apply_formula_idempotent (F : Formula) (rho : Subst)
    (hok : otherOk F = true) (hsep : SubstSeparated rho) :
    apply_formula (apply_formula F rho) rho = apply_formula F rho :=
  apply_fixed_aux (apply_formula F rho) rho
    (apply_noOther_aux F rho hok (fun kv hkv => (hsep kv hkv).1))
    (apply_vars_aux F rho (fun kv hkv => (hsep kv hkv).2))

/-- C8 counterexample: idempotence fails as stated.  (i) For
`rho = {x ↦ y, y ↦ z}` the second application rewrites `y` to `z`.
(ii) Even when no value mentions a key, a value containing an `OTHER`
template (`rho = {x ↦ P(y)}` with `P(y)` the template application) is
collapsed by the second pass. -/
theorem apply_formula_not_idempotent_counterexample :
    (apply_formula (apply_formula (.Variable "x") rhoChainFix) rhoChainFix
      ≠ apply_formula (.Variable "x") rhoChainFix) ∧
    ((∀ kv ∈ rhoTemplFix, ∀ v ∈ allvarsF kv.2, dmem rhoTemplFix v = false) ∧
     apply_formula (apply_formula (.Variable "x") rhoTemplFix) rhoTemplFix
      ≠ apply_formula (.Variable "x") rhoTemplFix) := by
  decide

/-- C8 witness: the amended statement applied to `F = x` and
`rho = {x ↦ true}`. -/
theorem apply_formula_idempotent_witness :
    otherOk (.Variable "x") = true ∧
    SubstSeparated [(.Variable "x", .App .TRUE 0 [])] ∧
    apply_formula (apply_formula (.Variable "x")
        [(.Variable "x", .App .TRUE 0 [])]) [(.Variable "x", .App .TRUE 0 [])]
      = apply_formula (.Variable "x") [(.Variable "x", .App .TRUE 0 [])] :=
  ⟨by decide, by decide,
   apply_formula_idempotent (.Variable "x") [(.Variable "x", .App .TRUE 0 [])]
     (by decide) (by decide)⟩

/-- Whitespace characters are not identifier characters, etc. -/
theorem ws_not_ident {c : Char} (h : isWsChar c = true) : isIdentChar c = false := by
  simp only [isWsChar, Bool.or_eq_true, decide_eq_true_eq] at h
  rcases h with (h | h) | h <;> subst h <;> decide

theorem ident_not_ws {c : Char} (h : isIdentChar c = true) : isWsChar c = false := by
  cases hw : isWsChar c
  · rfl
  · rw [ws_not_ident hw] at h; cases h

theorem alpha_ident {c : Char} (h : c.isAlpha = true) : isIdentChar c = true := by
  simp [isIdentChar, Char.isAlphanum, h]

theorem alpha_not_ws {c : Char} (h : c.isAlpha = true) : isWsChar c = false := by
  cases hw : isWsChar c
  · rfl
  · exfalso
    simp only [isWsChar, Bool.or_eq_true, decide_eq_true_eq] at hw
    rcases hw with (hw | hw) | hw <;> subst hw <;> simp [Char.isAlpha, Char.isUpper, Char.isLower] at h

theorem skipWs_cons_of_neg {c : Char} (h : isWsChar c = false) (l : List Char) :
    skipWs (c :: l) = c :: l := by simp [skipWs, h]

theorem skipWs_cons_space (l : List Char) : skipWs (' ' :: l) = skipWs l := by
  simp [skipWs, isWsChar]

theorem takeIdent_word {w rest : List Char} (hw : ∀ c ∈ w, isIdentChar c = true)
    (hr : headNI rest) : takeIdent (w ++ rest) = (w, rest) := by
  induction w with
  | nil =>
      simp only [List.nil_append]
      cases rest with
      | nil => rfl
      | cons c cs => simp [takeIdent, hr c cs rfl]
  | cons c w ih =>
      have hc := hw c (List.mem_cons_self c w)
      simp [takeIdent, hc, ih (fun x hx => hw x (List.mem_cons_of_mem c hx))]

theorem parseIdent_word {c : Char} {w rest : List Char} (hc : c.isAlpha = true)
    (hw : ∀ x ∈ w, isIdentChar x = true) (hr : headNI rest) :
    parseIdent ((c :: w) ++ rest) = some (String.mk (c :: w), rest) := by
  simp only [parseIdent, List.cons_append, skipWs_cons_of_neg (alpha_not_ws hc), hc,
    if_true, takeIdent_word hw hr]

theorem litGo_self (lit rest : List Char) : litGo lit (lit ++ rest) = some rest := by
  induction lit with
  | nil => rfl
  | cons c cs ih => simp [litGo, ih]

theorem litGo_none_of_not_pref {lit w rest : List Char}
    (hlit : ∀ c ∈ lit, isIdentChar c = true) (hw : ∀ c ∈ w, isIdentChar c = true)
    (hr : headNI rest) (hnp : lit.isPrefixOf w = false) :
    litGo lit (w ++ rest) = none := by
  induction lit generalizing w with
  | nil => simp [List.isPrefixOf] at hnp
  | cons l ls ih =>
      cases w with
      | nil =>
          cases rest with
          | nil => rfl
          | cons c cs =>
              have : isIdentChar c = false := hr c cs rfl
              have hl := hlit l (List.mem_cons_self l ls)
              simp only [List.nil_append, litGo]
              have : c ≠ l := by intro h; rw [h, hl] at this; cases this
              simp [this]
      | cons a as =>
          simp only [List.isPrefixOf, Bool.and_eq_false_iff] at hnp
          simp only [List.cons_append, litGo]
          by_cases hal : a = l
          · subst hal
            simp only [if_pos rfl]
            rcases hnp with hnp | hnp
            · simp at hnp
            · exact ih (fun c hc => hlit c (List.mem_cons_of_mem _ hc))
                (fun c hc => hw c (List.mem_cons_of_mem _ hc)) hnp
          · simp [hal]

theorem CB_SB {rest : List Char} (h : CB rest) : SB rest := Or.inl h

theorem SB_headNI {rest : List Char} (h : SB rest) : headNI rest := by
  rcases h with (h | ⟨cs, h⟩ | ⟨cs, h⟩) | ⟨cs, h⟩ <;> subst h <;>
    intro c cs' hc <;> cases hc <;> decide

/-- After skipping whitespace, an `SB` continuation is empty or starts with
one of the delimiter characters. -/
theorem SB_skipWs {rest : List Char} (h : SB rest) :
    skipWs rest = [] ∨ ∃ c cs, skipWs rest = c :: cs ∧ (c = ')' ∨ c = ',' ∨ c = '-') := by
  rcases h with (h | ⟨cs, h⟩ | ⟨cs, h⟩) | ⟨cs, h⟩ <;> subst h
  · exact Or.inl rfl
  · exact Or.inr ⟨')', cs, by simp [skipWs, isWsChar], Or.inl rfl⟩
  · exact Or.inr ⟨',', cs, by simp [skipWs, isWsChar], Or.inr (Or.inl rfl)⟩
  · exact Or.inr ⟨'-', '>' :: ' ' :: cs, by simp [skipWs, isWsChar], Or.inr (Or.inr rfl)⟩

/-- A run of identifier characters followed by an `SB` boundary is never
followed by `(`: the `Literal("(")` of the application branches fails. -/
theorem parseLit_lpar_none {t rest : List Char} (ht : ∀ c ∈ t, isIdentChar c = true)
    (hr : SB rest) : parseLit ['('] (t ++ rest) = none := by
  cases t with
  | nil =>
      simp only [List.nil_append, parseLit]
      rcases SB_skipWs hr with h | ⟨c, cs, h, hc⟩
      · rw [h]; rfl
      · rw [h]
        rcases hc with hc | hc | hc <;> subst hc <;> rfl
  | cons c t' =>
      have hc := ht c (List.mem_cons_self c t')
      simp only [List.cons_append, parseLit, skipWs_cons_of_neg (ident_not_ws hc)]
      have : c ≠ '(' := by intro h; rw [h] at hc; cases hc
      simp [litGo, this]

/-- Under an `SB` boundary the literal `says` cannot follow. -/
theorem parseLit_says_none {rest : List Char} (hr : SB rest) :
    parseLit ['s','a','y','s'] rest = none := by
  rcases SB_skipWs hr with h | ⟨c, cs, h, hc⟩
  · simp only [parseLit, h]; rfl
  · simp only [parseLit, h]
    rcases hc with hc | hc | hc <;> subst hc <;> rfl

/-- Under a `CB` boundary the literal `->` cannot follow. -/
theorem parseLit_arrow_none {rest : List Char} (hr : CB rest) :
    parseLit ['-','>'] rest = none := by
  rcases hr with h | ⟨cs, h⟩ | ⟨cs, h⟩ <;> subst h
  · rfl
  · simp only [parseLit, skipWs_cons_of_neg (show isWsChar ')' = false by decide)]; rfl
  · simp only [parseLit, skipWs_cons_of_neg (show isWsChar ',' = false by decide)]; rfl

/-- `impLoop` halts at a close boundary. -/
theorem impLoop_stop {fuel : Nat} (acc : Formula) {rest : List Char}
    (hr : CB rest) (hf : 1 ≤ fuel) : impLoop fuel acc rest = some (acc, rest) := by
  cases fuel with
  | zero => omega
  | succ f => simp [impLoop, parseLit_arrow_none hr]

/-- Whitespace absorption for the productions that skip leading blanks. -/
theorem parseSign_ws (fuel : Nat) (l : List Char) :
    parseSign fuel (' ' :: l) = parseSign fuel l := by
  cases fuel with
  | zero => rfl
  | succ f => simp only [parseSign, skipWs_cons_space]

theorem parseImplies_ws (fuel : Nat) (l : List Char) :
    parseImplies fuel (' ' :: l) = parseImplies fuel l := by
  cases fuel with
  | zero => rfl
  | succ f => simp only [parseImplies, parseSign_ws]

theorem parseSays_ws (fuel : Nat) (l : List Char) :
    parseSays fuel (' ' :: l) = parseSays fuel l := by
  cases fuel with
  | zero => rfl
  | succ f => simp only [parseSays, skipWs_cons_space]

theorem string_mk_data (s : String) : String.mk s.data = s := rfl

theorem validIdent_parts {id : String} (h : validIdentStr id = true) :
    ∃ c cs, id.data = c :: cs ∧ c.isAlpha = true ∧ (∀ x ∈ cs, isIdentChar x = true) := by
  unfold validIdentStr at h
  cases hd : id.data with
  | nil => rw [hd] at h; cases h
  | cons c cs =>
      rw [hd] at h
      simp only [Bool.and_eq_true, List.all_eq_true] at h
      exact ⟨c, cs, rfl, h.1.1.1, fun x hx => h.1.1.2 x hx⟩

theorem parseIdent_valid {id : String} {rest : List Char} (h : validIdentStr id = true)
    (hr : headNI rest) : parseIdent (id.data ++ rest) = some (id, rest) := by
  obtain ⟨c, cs, hd, hc, hcs⟩ := validIdent_parts h
  rw [hd, parseIdent_word hc hcs hr, ← hd, string_mk_data]

/-- `parseAgOrVar` on a canonical agent-or-variable string. -/
theorem parseAgOrVar_ok {a : Formula} {sa : String} {rest : List Char}
    (ha : agentOrVarOk a = true) (hs : fmla_stringify a = .ok sa) (hr : headNI rest) :
    parseAgOrVar (sa.data ++ rest) = some (a, rest) := by
  cases a with
  | Variable id =>
      have hsa : sa = id := by
        have h2 : (Except.ok id : Except PyErr String) = .ok sa := hs
        injection h2 with h2; exact h2.symm
      subst hsa
      simp only [agentOrVarOk] at ha
      obtain ⟨c, cs, hd, hc, hcs⟩ := validIdent_parts ha
      rw [hd]
      simp only [parseAgOrVar, List.cons_append, skipWs_cons_of_neg (alpha_not_ws hc)]
      have hch : c ≠ '#' := by
        intro h; rw [h] at hc; cases hc
      split
      · next cs1 heq =>
          exfalso
          injection heq with h1 h2
          exact hch h1
      · rw [show (c :: (cs ++ rest)) = ((c :: cs) ++ rest) from rfl,
          parseIdent_word hc hcs hr, ← hd, string_mk_data]
  | Agent id =>
      have hsa : sa = id := by
        have h2 : (Except.ok id : Except PyErr String) = .ok sa := hs
        injection h2 with h2; exact h2.symm
      rw [hsa]
      simp only [agentOrVarOk] at ha
      cases hd : id.data with
      | nil => rw [hd] at ha; cases ha
      | cons c0 cs0 =>
          rw [hd] at ha
          cases cs0 with
          | nil =>
              exfalso
              by_cases hc0 : c0 = '#' <;> simp [hc0] at ha
          | cons c1 cs1 =>
              by_cases hc0 : c0 = '#'
              · subst hc0
                simp only [Bool.and_eq_true, List.all_eq_true] at ha
                simp only [parseAgOrVar, List.cons_append,
                  skipWs_cons_of_neg (show isWsChar '#' = false by decide)]
                rw [show (c1 :: (cs1 ++ rest)) = ((c1 :: cs1) ++ rest) from rfl,
                  parseIdent_word ha.1 (fun x hx => ha.2 x hx) hr]
                have hid : ("#" ++ String.mk (c1 :: cs1)) = id := by
                  apply String.ext
                  simp [hd, String.data_append]
                show some (Formula.Agent ("#" ++ String.mk (c1 :: cs1)), rest) =
                  some (Formula.Agent id, rest)
                rw [hid]
              · exfalso; simp [hc0] at ha
  | Key id => simp [agentOrVarOk] at ha
  | Resource id => simp [agentOrVarOk] at ha
  | App op n args => simp [agentOrVarOk] at ha
  | Forall x p => simp [agentOrVarOk] at ha

theorem takeKey_word {w rest : List Char} (hw : ∀ c ∈ w, isKeyChar c = true)
    (hr : headNK rest) : takeKey (w ++ rest) = (w, rest) := by
  induction w with
  | nil =>
      simp only [List.nil_append]
      cases rest with
      | nil => rfl
      | cons c cs => simp [takeKey, hr c cs rfl]
  | cons c w ih =>
      have hc := hw c (List.mem_cons_self c w)
      simp [takeKey, hc, ih (fun x hx => hw x (List.mem_cons_of_mem c hx))]

theorem keyTail_parts {l : List Char} (h : keyTail l = true) :
    ∃ w, l = w ++ [']'] ∧ ∀ c ∈ w, isKeyChar c = true := by
  induction l with
  | nil => cases h
  | cons c cs ih =>
      cases cs with
      | nil =>
          have : c = ']' := by
            simpa [keyTail] using h
          exact ⟨[], by simp [this], by simp⟩
      | cons c1 cs1 =>
          have h2 : (isKeyChar c && keyTail (c1 :: cs1)) = true := h
          simp only [Bool.and_eq_true] at h2
          obtain ⟨w, hw, hwall⟩ := ih h2.2
          exact ⟨c :: w, by simp [hw], by
            intro x hx
            rcases List.mem_cons.mp hx with hx | hx
            · exact hx ▸ h2.1
            · exact hwall x hx⟩

theorem parseKeyOrVar_ws (l : List Char) :
    parseKeyOrVar (' ' :: l) = parseKeyOrVar l := by
  simp only [parseKeyOrVar, skipWs_cons_space]

theorem parseResOrVar_ws (l : List Char) :
    parseResOrVar (' ' :: l) = parseResOrVar l := by
  simp only [parseResOrVar, skipWs_cons_space]

/-- `parseKeyOrVar` on a canonical key-or-variable string. -/
theorem parseKeyOrVar_ok {k : Formula} {sk : String} {rest : List Char}
    (hk : keyOrVarOk k = true) (hs : fmla_stringify k = .ok sk)
    (hrI : headNI rest) :
    parseKeyOrVar (sk.data ++ rest) = some (k, rest) := by
  cases k with
  | Variable id =>
      have hsa : sk = id := by
        have h2 : (Except.ok id : Except PyErr String) = .ok sk := hs
        injection h2 with h2; exact h2.symm
      rw [hsa]
      simp only [keyOrVarOk] at hk
      obtain ⟨c, cs, hd, hc, hcs⟩ := validIdent_parts hk
      rw [hd]
      simp only [parseKeyOrVar, List.cons_append, skipWs_cons_of_neg (alpha_not_ws hc)]
      have hch : c ≠ '[' := by
        intro h; rw [h] at hc; cases hc
      split
      · next cs1 heq =>
          exfalso
          injection heq with h1 h2
          exact hch h1
      · rw [show (c :: (cs ++ rest)) = ((c :: cs) ++ rest) from rfl,
          parseIdent_word hc hcs hrI, ← hd, string_mk_data]
  | Key id =>
      have hsa : sk = id := by
        have h2 : (Except.ok id : Except PyErr String) = .ok sk := hs
        injection h2 with h2; exact h2.symm
      rw [hsa]
      simp only [keyOrVarOk] at hk
      cases hd : id.data with
      | nil => rw [hd] at hk; cases hk
      | cons c0 cs0 =>
          rw [hd] at hk
          cases cs0 with
          | nil =>
              exfalso
              by_cases hc0 : c0 = '[' <;> simp [hc0] at hk
          | cons c1 cs1 =>
              by_cases hc0 : c0 = '['
              · subst hc0
                simp only [Bool.and_eq_true] at hk
                obtain ⟨w, hw, hwall⟩ := keyTail_parts hk.2
                simp only [parseKeyOrVar, List.cons_append,
                  skipWs_cons_of_neg (show isWsChar '[' = false by decide)]
                have hsplit : (c1 :: (cs1 ++ rest)) = ((c1 :: w) ++ (']' :: rest)) := by
                  simp [hw]
                rw [hsplit, takeKey_word (by
                    intro x hx
                    rcases List.mem_cons.mp hx with hx | hx
                    · exact hx ▸ hk.1
                    · exact hwall x hx)
                  (by intro c cs h; injection h with h1 _; rw [← h1]; decide)]
                show (match litGo [']'] (']' :: rest) with
                  | some r1 => some (Formula.Key ("[" ++ String.mk (c1 :: w) ++ "]"), r1)
                  | none => none) = some (Formula.Key id, rest)
                rw [show litGo [']'] (']' :: rest) = some rest from rfl]
                have hid : ("[" ++ String.mk (c1 :: w) ++ "]") = id := by
                  apply String.ext
                  simp [hd, String.data_append, hw]
                rw [hid]
              · exfalso; simp [hc0] at hk
  | Agent id => simp [keyOrVarOk] at hk
  | Resource id => simp [keyOrVarOk] at hk
  | App op n args => simp [keyOrVarOk] at hk
  | Forall x p => simp [keyOrVarOk] at hk

theorem getLast_decomp {l : List Char} {a : Char} (h : l.getLast? = some a) :
    l = l.dropLast ++ [a] := by
  induction l with
  | nil => cases h
  | cons x t ih =>
      cases t with
      | nil =>
          have : x = a := by
            simpa [List.getLast?] using h
          simp [this]
      | cons y t' =>
          have h' : (y :: t').getLast? = some a := by
            rw [← h]; rfl
          have := ih h'
          calc x :: y :: t' = x :: ((y :: t').dropLast ++ [a]) := by rw [← this]
            _ = (x :: y :: t').dropLast ++ [a] := by simp [List.dropLast]

/-- `parseResOrVar` on a canonical resource-or-variable string. -/
theorem parseResOrVar_ok {r : Formula} {sr : String} {rest : List Char}
    (hk : resOrVarOk r = true) (hs : fmla_stringify r = .ok sr)
    (hrI : headNI rest) :
    parseResOrVar (sr.data ++ rest) = some (r, rest) := by
  cases r with
  | Variable id =>
      have hsa : sr = id := by
        have h2 : (Except.ok id : Except PyErr String) = .ok sr := hs
        injection h2 with h2; exact h2.symm
      rw [hsa]
      simp only [resOrVarOk] at hk
      obtain ⟨c, cs, hd, hc, hcs⟩ := validIdent_parts hk
      rw [hd]
      simp only [parseResOrVar, List.cons_append, skipWs_cons_of_neg (alpha_not_ws hc)]
      have hch : c ≠ '<' := by
        intro h; rw [h] at hc; cases hc
      split
      · next cs1 heq =>
          exfalso
          injection heq with h1 h2
          exact hch h1
      · rw [show (c :: (cs ++ rest)) = ((c :: cs) ++ rest) from rfl,
          parseIdent_word hc hcs hrI, ← hd, string_mk_data]
  | Resource id =>
      have hsa : sr = id := by
        have h2 : (Except.ok id : Except PyErr String) = .ok sr := hs
        injection h2 with h2; exact h2.symm
      rw [hsa]
      simp only [resOrVarOk] at hk
      cases hd : id.data with
      | nil => rw [hd] at hk; cases hk
      | cons c0 cs0 =>
          rw [hd] at hk
          cases cs0 with
          | nil =>
              exfalso
              by_cases hc0 : c0 = '<' <;> simp [hc0] at hk
          | cons c1 cs1 =>
              by_cases hc0 : c0 = '<'
              · subst hc0
                have hk2 : ((c1.isAlpha &&
                    match cs1.getLast? with
                    | some '>' => true
                    | _ => false) &&
                    cs1.dropLast.all isIdentChar) = true := hk
                simp only [Bool.and_eq_true, List.all_eq_true] at hk2
                obtain ⟨⟨halpha, hmatch⟩, hbody⟩ := hk2
                have hlast : cs1.getLast? = some '>' := by
                  cases hl : cs1.getLast? with
                  | none => rw [hl] at hmatch; cases hmatch
                  | some c =>
                      rw [hl] at hmatch
                      split at hmatch
                      · next heq =>
                          injection heq with hc
                          rw [hc]
                      · cases hmatch
                have hdec := getLast_decomp hlast
                simp only [parseResOrVar, List.cons_append,
                  skipWs_cons_of_neg (show isWsChar '<' = false by decide)]
                have hsplit : (c1 :: (cs1 ++ rest)) =
                    ((c1 :: cs1.dropLast) ++ ('>' :: rest)) := by
                  conv_lhs => rw [hdec]
                  simp
                rw [hsplit, parseIdent_word halpha hbody
                  (by intro c cs h; injection h with h1 _; rw [← h1]; decide)]
                show (match litGo ['>'] (skipWs ('>' :: rest)) with
                  | some r1 => some (Formula.Resource ("<" ++ String.mk (c1 :: cs1.dropLast) ++ ">"), r1)
                  | none => none) = some (Formula.Resource id, rest)
                rw [skipWs_cons_of_neg (show isWsChar '>' = false by decide),
                  show litGo ['>'] ('>' :: rest) = some rest from rfl]
                have hid : ("<" ++ String.mk (c1 :: cs1.dropLast) ++ ">") = id := by
                  apply String.ext
                  simp only [String.data_append, hd, string_mk_data]
                  show ('<' :: (c1 :: cs1.dropLast)) ++ ['>'] = '<' :: c1 :: cs1
                  conv_rhs => rw [hdec]
                  simp
                rw [hid]
              · exfalso
                have : False := by
                  revert hk
                  simp [hc0]
                exact this
  | Agent id => simp [resOrVarOk] at hk
  | Key id => simp [resOrVarOk] at hk
  | App op n args => simp [resOrVarOk] at hk
  | Forall x p => simp [resOrVarOk] at hk

theorem prefix_decomp {lit w : List Char} (h : lit.isPrefixOf w = true) :
    ∃ t, w = lit ++ t := by
  induction lit generalizing w with
  | nil => exact ⟨w, rfl⟩
  | cons l ls ih =>
      cases w with
      | nil => cases h
      | cons a as =>
          simp only [List.isPrefixOf, Bool.and_eq_true, beq_iff_eq] at h
          obtain ⟨t, ht⟩ := ih h.2
          exact ⟨t, by simp [h.1, ht]⟩

theorem validIdent_all {id : String} (h : validIdentStr id = true) :
    ∀ c ∈ id.data, isIdentChar c = true := by
  obtain ⟨c, cs, hd, hc, hcs⟩ := validIdent_parts h
  rw [hd]
  intro x hx
  rcases List.mem_cons.mp hx with hx | hx
  · exact hx ▸ alpha_ident hc
  · exact hcs x hx

/-- A keyword-style literal over an identifier either fails outright or
succeeds but is not followed by `(`. -/
theorem word_branch_blocked (lit : List Char) (hlit : ∀ c ∈ lit, isIdentChar c = true)
    {id : String} (hid : validIdentStr id = true) {rest : List Char} (hr : SB rest) :
    litGo lit (id.data ++ rest) = none ∨
    ∃ t, litGo lit (id.data ++ rest) = some (t ++ rest) ∧
      parseLit ['('] (t ++ rest) = none := by
  cases hp : lit.isPrefixOf id.data with
  | false =>
      exact Or.inl (litGo_none_of_not_pref hlit (validIdent_all hid) (SB_headNI hr) hp)
  | true =>
      obtain ⟨t, ht⟩ := prefix_decomp hp
      refine Or.inr ⟨t, ?_, ?_⟩
      · rw [ht, List.append_assoc, litGo_self]
      · refine parseLit_lpar_none ?_ hr
        intro c hc
        exact validIdent_all hid c (by rw [ht]; exact List.mem_append_right _ hc)

theorem validIdent_not_true {id : String} (h : validIdentStr id = true) :
    ['t','r','u','e'].isPrefixOf id.data = false := by
  unfold validIdentStr at h
  cases hd : id.data with
  | nil => rw [hd] at h; cases h
  | cons c cs =>
      rw [hd] at h
      simp only [Bool.and_eq_true, Bool.not_eq_true'] at h
      exact h.1.2

theorem validIdent_not_false {id : String} (h : validIdentStr id = true) :
    ['f','a','l','s','e'].isPrefixOf id.data = false := by
  unfold validIdentStr at h
  cases hd : id.data with
  | nil => rw [hd] at h; cases h
  | cons c cs =>
      rw [hd] at h
      simp only [Bool.and_eq_true, Bool.not_eq_true'] at h
      exact h.2

/-- The full application-style branch (keyword, then `(`...) dies on an
identifier input. -/
theorem keyword_chain_none {α : Type} (lit : List Char) (hlit : ∀ c ∈ lit, isIdentChar c = true)
    {id : String} (hid : validIdentStr id = true) {rest : List Char} (hr : SB rest)
    (K : List Char → Option α) :
    (do
      let r1 ← litGo lit (id.data ++ rest)
      let r2 ← parseLit ['('] r1
      K r2) = none := by
  rcases word_branch_blocked lit hlit hid hr with h | ⟨t, h1, h2⟩
  · rw [h]; rfl
  · rw [h1]
    show (parseLit ['('] (t ++ rest)).bind (fun r2 => K r2) = none
    rw [h2]
    rfl

/-- `parseAtom` accepts a canonical variable. -/
theorem parseAtom_var {id : String} {rest : List Char} {fuel : Nat}
    (h : validIdentStr id = true) (hr : SB rest) (hf : 1 ≤ fuel) :
    parseAtom fuel (id.data ++ rest) = some (.Variable id, rest) := by
  obtain ⟨c, cs, hd, hc, hcs⟩ := validIdent_parts h
  cases fuel with
  | zero => omega
  | succ f =>
      have hskip : skipWs (id.data ++ rest) = id.data ++ rest := by
        rw [hd]; exact skipWs_cons_of_neg (alpha_not_ws hc) _
      have h1 : litGo ['t','r','u','e'] (id.data ++ rest) = none :=
        litGo_none_of_not_pref (by decide) (validIdent_all h) (SB_headNI hr) (validIdent_not_true h)
      have h2 : litGo ['f','a','l','s','e'] (id.data ++ rest) = none :=
        litGo_none_of_not_pref (by decide) (validIdent_all h) (SB_headNI hr) (validIdent_not_false h)
      have hparen : litGo ['('] (id.data ++ rest) = none := by
        rw [hd]
        have : c ≠ '(' := by intro hcc; rw [hcc] at hc; cases hc
        simp [litGo, this]
      have hident : parseIdent (id.data ++ rest) = some (id, rest) :=
        parseIdent_valid h (SB_headNI hr)
      have hwnv : parseLit ['('] rest = none :=
        parseLit_lpar_none (t := []) (by intro c hc; cases hc) hr
      simp only [parseAtom, hskip, h1, h2]
      rw [keyword_chain_none ['c','a'] (by decide) h hr]
      rw [keyword_chain_none ['i','s','k','e','y'] (by decide) h hr]
      rw [keyword_chain_none ['o','p','e','n'] (by decide) h hr]
      simp only [hparen, hident, hwnv, Option.bind_eq_bind, Option.none_bind,
        Option.some_bind]

theorem ebind_ok {ε α β : Type} (a : α) (f : α → Except ε β) :
    (Except.ok a : Except ε α) >>= f = f a := rfl

theorem ebind_error {ε α β : Type} (e : ε) (f : α → Except ε β) :
    (Except.error e : Except ε α) >>= f = .error e := rfl

theorem stringify_var {id : String} {str : String}
    (hs : fmla_stringify (.Variable id) = .ok str) : str = id := by
  have h2 : (Except.ok id : Except PyErr String) = .ok str := hs
  injection h2 with h2; exact h2.symm

theorem stringify_true {str : String}
    (hs : fmla_stringify (.App .TRUE 0 []) = .ok str) : str.data = ['t','r','u','e'] := by
  have h2 : (Except.ok "true" : Except PyErr String) = .ok str := hs
  injection h2 with h2; rw [← h2]

theorem stringify_false {str : String}
    (hs : fmla_stringify (.App .FALSE 0 []) = .ok str) : str.data = ['f','a','l','s','e'] := by
  have h2 : (Except.ok "false" : Except PyErr String) = .ok str := hs
  injection h2 with h2; rw [← h2]

theorem stringify_isca {a : Formula} {str : String}
    (hs : fmla_stringify (.App .ISCA 1 [a]) = .ok str) :
    ∃ sa, fmla_stringify a = .ok sa ∧
      str.data = 'c' :: 'a' :: '(' :: (sa.data ++ [')']) := by
  have h2 : ((fmla_stringify a).bind fun s0 =>
      (Except.ok ("ca" ++ "(" ++ s0 ++ ")") : Except PyErr String)) = .ok str := hs
  cases hsa : fmla_stringify a with
  | error e => rw [hsa] at h2; cases h2
  | ok sa =>
      rw [hsa] at h2
      have h3 : (Except.ok ("ca" ++ "(" ++ sa ++ ")") : Except PyErr String) = .ok str := h2
      injection h3 with h3
      exact ⟨sa, rfl, by rw [← h3]; simp [String.data_append]⟩

theorem stringify_iskey {a k : Formula} {str : String}
    (hs : fmla_stringify (.App .ISKEY 2 [a, k]) = .ok str) :
    ∃ sa sk, fmla_stringify a = .ok sa ∧ fmla_stringify k = .ok sk ∧
      str.data = 'i' :: 's' :: 'k' :: 'e' :: 'y' :: '(' ::
        (sa.data ++ ',' :: ' ' :: (sk.data ++ [')'])) := by
  have h2 : ((fmla_stringify a).bind fun s0 =>
      (fmla_stringify k).bind fun s1 =>
      (Except.ok ("iskey(" ++ s0 ++ ", " ++ s1 ++ ")") : Except PyErr String)) = .ok str := hs
  cases hsa : fmla_stringify a with
  | error e => rw [hsa] at h2; cases h2
  | ok sa =>
      rw [hsa] at h2
      cases hsk : fmla_stringify k with
      | error e => rw [hsk] at h2; cases h2
      | ok sk =>
          rw [hsk] at h2
          have h3 : (Except.ok ("iskey(" ++ sa ++ ", " ++ sk ++ ")") : Except PyErr String)
              = .ok str := h2
          injection h3 with h3
          exact ⟨sa, sk, rfl, rfl, by rw [← h3]; simp [String.data_append]⟩

theorem stringify_open {a r : Formula} {str : String}
    (hs : fmla_stringify (.App .OPEN 2 [a, r]) = .ok str) :
    ∃ sa sr, fmla_stringify a = .ok sa ∧ fmla_stringify r = .ok sr ∧
      str.data = 'o' :: 'p' :: 'e' :: 'n' :: '(' ::
        (sa.data ++ ',' :: ' ' :: (sr.data ++ [')'])) := by
  have h2 : ((fmla_stringify a).bind fun s0 =>
      (fmla_stringify r).bind fun s1 =>
      (Except.ok ("open(" ++ s0 ++ ", " ++ s1 ++ ")") : Except PyErr String)) = .ok str := hs
  cases hsa : fmla_stringify a with
  | error e => rw [hsa] at h2; cases h2
  | ok sa =>
      rw [hsa] at h2
      cases hsr : fmla_stringify r with
      | error e => rw [hsr] at h2; cases h2
      | ok sr =>
          rw [hsr] at h2
          have h3 : (Except.ok ("open(" ++ sa ++ ", " ++ sr ++ ")") : Except PyErr String)
              = .ok str := h2
          injection h3 with h3
          exact ⟨sa, sr, rfl, rfl, by rw [← h3]; simp [String.data_append]⟩

theorem stringify_sign {p k : Formula} {str : String}
    (hs : fmla_stringify (.App .SIGN 2 [p, k]) = .ok str) :
    ∃ sp sk, fmla_stringify p = .ok sp ∧ fmla_stringify k = .ok sk ∧
      str.data = 's' :: 'i' :: 'g' :: 'n' :: '(' :: '(' ::
        (sp.data ++ ')' :: ',' :: ' ' :: (sk.data ++ [')'])) := by
  have h2 : ((fmla_stringify p).bind fun s0 =>
      (fmla_stringify k).bind fun s1 =>
      (Except.ok ("sign((" ++ s0 ++ "), " ++ s1 ++ ")") : Except PyErr String)) = .ok str := hs
  cases hsp : fmla_stringify p with
  | error e => rw [hsp] at h2; cases h2
  | ok sp =>
      rw [hsp] at h2
      cases hsk : fmla_stringify k with
      | error e => rw [hsk] at h2; cases h2
      | ok sk =>
          rw [hsk] at h2
          have h3 : (Except.ok ("sign((" ++ sp ++ "), " ++ sk ++ ")") : Except PyErr String)
              = .ok str := h2
          injection h3 with h3
          exact ⟨sp, sk, rfl, rfl, by rw [← h3]; simp [String.data_append]⟩

theorem stringify_implies {p q : Formula} {str : String}
    (hs : fmla_stringify (.App .IMPLIES 2 [p, q]) = .ok str) :
    ∃ sp sq, fmla_stringify p = .ok sp ∧ fmla_stringify q = .ok sq ∧
      str.data = '(' :: (sp.data ++ ' ' :: '-' :: '>' :: ' ' :: (sq.data ++ [')'])) := by
  have h2 : ((fmla_stringify_list [p, q]).bind fun ss =>
      (Except.ok ("(" ++ joinSep (" " ++ "->" ++ " ") ss ++ ")") :
        Except PyErr String)) = .ok str := hs
  cases hsp : fmla_stringify p with
  | error e =>
      exfalso
      have hl : fmla_stringify_list [p, q] = .error e := by
        simp [fmla_stringify_list, hsp, ebind_ok, ebind_error]
      rw [hl] at h2; cases h2
  | ok sp =>
      cases hsq : fmla_stringify q with
      | error e =>
          exfalso
          have hl : fmla_stringify_list [p, q] = .error e := by
            simp [fmla_stringify_list, hsp, hsq, ebind_ok, ebind_error]
          rw [hl] at h2; cases h2
      | ok sq =>
          have hl : fmla_stringify_list [p, q] = .ok [sp, sq] := by
            simp [fmla_stringify_list, hsp, hsq, ebind_ok, ebind_error]
          rw [hl] at h2
          injection h2 with h3
          exact ⟨sp, sq, rfl, rfl, by rw [← h3]; simp [String.data_append, joinSep]⟩

theorem stringify_says {a p : Formula} {str : String}
    (hs : fmla_stringify (.App .SAYS 2 [a, p]) = .ok str) :
    ∃ sa sp, fmla_stringify a = .ok sa ∧ fmla_stringify p = .ok sp ∧
      str.data = '(' :: (sa.data ++ ' ' :: 's' :: 'a' :: 'y' :: 's' :: ' ' ::
        (sp.data ++ [')'])) := by
  have h2 : ((fmla_stringify_list [a, p]).bind fun ss =>
      (Except.ok ("(" ++ joinSep (" " ++ "says" ++ " ") ss ++ ")") :
        Except PyErr String)) = .ok str := hs
  cases hsa : fmla_stringify a with
  | error e =>
      exfalso
      have hl : fmla_stringify_list [a, p] = .error e := by
        simp [fmla_stringify_list, hsa, ebind_ok, ebind_error]
      rw [hl] at h2; cases h2
  | ok sa =>
      cases hsp : fmla_stringify p with
      | error e =>
          exfalso
          have hl : fmla_stringify_list [a, p] = .error e := by
            simp [fmla_stringify_list, hsa, hsp, ebind_ok, ebind_error]
          rw [hl] at h2; cases h2
      | ok sp =>
          have hl : fmla_stringify_list [a, p] = .ok [sa, sp] := by
            simp [fmla_stringify_list, hsa, hsp, ebind_ok, ebind_error]
          rw [hl] at h2
          injection h2 with h3
          exact ⟨sa, sp, rfl, rfl, by rw [← h3]; simp [String.data_append, joinSep]⟩

theorem stringify_other {f x : Formula} {str : String}
    (hs : fmla_stringify (.App .OTHER 2 [f, x]) = .ok str) :
    ∃ sf sx, fmla_stringify f = .ok sf ∧ fmla_stringify x = .ok sx ∧
      str.data = sf.data ++ '(' :: (sx.data ++ [')']) := by
  have h2 : ((fmla_stringify f).bind fun s0 =>
      (fmla_stringify x).bind fun s1 =>
      (Except.ok (s0 ++ "(" ++ s1 ++ ")") : Except PyErr String)) = .ok str := hs
  cases hsf : fmla_stringify f with
  | error e => rw [hsf] at h2; cases h2
  | ok sf =>
      rw [hsf] at h2
      cases hsx : fmla_stringify x with
      | error e => rw [hsx] at h2; cases h2
      | ok sx =>
          rw [hsx] at h2
          have h3 : (Except.ok (sf ++ "(" ++ sx ++ ")") : Except PyErr String) = .ok str := h2
          injection h3 with h3
          exact ⟨sf, sx, rfl, rfl, by rw [← h3]; simp [String.data_append]⟩

theorem stringify_forall {x : String} {p : Formula} {str : String}
    (hs : fmla_stringify (.Forall x p) = .ok str) :
    ∃ sp, fmla_stringify p = .ok sp ∧
      str.data = '(' :: '@' :: (x.data ++ ' ' :: '.' :: ' ' :: '(' ::
        (sp.data ++ [')', ')'])) := by
  have h2 : ((fmla_stringify p).bind fun sp =>
      (Except.ok ("(@" ++ x ++ " . (" ++ sp ++ "))") : Except PyErr String)) = .ok str := hs
  cases hsp : fmla_stringify p with
  | error e => rw [hsp] at h2; cases h2
  | ok sp =>
      rw [hsp] at h2
      have h3 : (Except.ok ("(@" ++ x ++ " . (" ++ sp ++ "))") : Except PyErr String)
          = .ok str := h2
      injection h3 with h3
      exact ⟨sp, rfl, by rw [← h3]; simp [String.data_append]⟩

/-- Canonical strings begin with a printable, non-`@`, non-`#` head unless
the formula is an agent; in particular `parseFmla` falls through to the
`says` level. -/
theorem canonical_head {F : Formula} {str : String} (hF : canonicalFmla F = true)
    (hs : fmla_stringify F = .ok str) :
    ∃ c cs, str.data = c :: cs ∧ isWsChar c = false ∧ c ≠ '@' := by
  unfold canonicalFmla at hF
  split at hF
  · -- Variable
    next id =>
      rw [stringify_var hs]
      obtain ⟨c, cs, hd, hc, _⟩ := validIdent_parts hF
      exact ⟨c, cs, hd, alpha_not_ws hc, by intro h; rw [h] at hc; cases hc⟩
  · exact ⟨'t', _, stringify_true hs, by decide, by decide⟩
  · exact ⟨'f', _, stringify_false hs, by decide, by decide⟩
  · next a =>
      obtain ⟨sa, _, hd⟩ := stringify_isca hs
      exact ⟨'c', _, hd, by decide, by decide⟩
  · next a k =>
      obtain ⟨sa, sk, _, _, hd⟩ := stringify_iskey hs
      exact ⟨'i', _, hd, by decide, by decide⟩
  · next a r =>
      obtain ⟨sa, sr, _, _, hd⟩ := stringify_open hs
      exact ⟨'o', _, hd, by decide, by decide⟩
  · next p k =>
      obtain ⟨sp, sk, _, _, hd⟩ := stringify_sign hs
      exact ⟨'s', _, hd, by decide, by decide⟩
  · next p q =>
      obtain ⟨sp, sq, _, _, hd⟩ := stringify_implies hs
      exact ⟨'(', _, hd, by decide, by decide⟩
  · next a p =>
      obtain ⟨sa, sp, _, _, hd⟩ := stringify_says hs
      exact ⟨'(', _, hd, by decide, by decide⟩
  · next f x =>
      obtain ⟨sf, sx, hsf, _, hd⟩ := stringify_other hs
      simp only [Bool.and_eq_true] at hF
      obtain ⟨c, cs, hdf, hc, _⟩ := validIdent_parts hF.1.1
      refine ⟨c, cs ++ '(' :: (sx.data ++ [')']), ?_, alpha_not_ws hc,
        by intro h; rw [h] at hc; cases hc⟩
      rw [hd, stringify_var hsf, hdf]
      simp
  · next x p =>
      obtain ⟨sp, _, hd⟩ := stringify_forall hs
      exact ⟨'(', _, hd, by decide, by decide⟩
  · cases hF

/-- `parseSign` accepts a canonical variable. -/
theorem parseSign_var {id : String} {rest : List Char} {fuel : Nat}
    (h : validIdentStr id = true) (hr : SB rest) (hf : 2 ≤ fuel) :
    parseSign fuel (id.data ++ rest) = some (.Variable id, rest) := by
  obtain ⟨c, cs, hd, hc, hcs⟩ := validIdent_parts h
  cases fuel with
  | zero => omega
  | succ f =>
      have hskip : skipWs (id.data ++ rest) = id.data ++ rest := by
        rw [hd]; exact skipWs_cons_of_neg (alpha_not_ws hc) _
      simp only [parseSign, hskip]
      rw [keyword_chain_none ['s','i','g','n'] (by decide) h hr]
      exact parseAtom_var h hr (by omega)

/-- `parseImplies` accepts a canonical variable. -/
theorem parseImplies_var {id : String} {rest : List Char} {fuel : Nat}
    (h : validIdentStr id = true) (hr : CB rest) (hf : 4 ≤ fuel) :
    parseImplies fuel (id.data ++ rest) = some (.Variable id, rest) := by
  cases fuel with
  | zero => omega
  | succ f =>
      simp only [parseImplies, parseSign_var h (CB_SB hr) (by omega : 2 ≤ f)]
      exact impLoop_stop _ hr (by omega)

/-- `parseSays` accepts a canonical variable. -/
theorem parseSays_var {id : String} {rest : List Char} {fuel : Nat}
    (h : validIdentStr id = true) (hr : CB rest) (hf : 5 ≤ fuel) :
    parseSays fuel (id.data ++ rest) = some (.Variable id, rest) := by
  obtain ⟨c, cs, hd, hc, hcs⟩ := validIdent_parts h
  cases fuel with
  | zero => omega
  | succ f =>
      have hskip : skipWs (id.data ++ rest) = id.data ++ rest := by
        rw [hd]; exact skipWs_cons_of_neg (alpha_not_ws hc) _
      have hag : parseAgOrVar (id.data ++ rest) = some (.Variable id, rest) :=
        parseAgOrVar_ok (by simp [agentOrVarOk, h]) rfl (SB_headNI (CB_SB hr))
      have hsy : parseLit ['s','a','y','s'] rest = none := parseLit_says_none (CB_SB hr)
      simp only [parseSays, hskip, hag, hsy, Option.bind_eq_bind, Option.some_bind,
        Option.none_bind]
      exact parseImplies_var h hr (by omega)

/-- `parseFmla` accepts a canonical variable. -/
theorem parseFmla_var {id : String} {rest : List Char} {fuel : Nat}
    (h : validIdentStr id = true) (hr : CB rest) (hf : 6 ≤ fuel) :
    parseFmla fuel (id.data ++ rest) = some (.Variable id, rest) := by
  obtain ⟨c, cs, hd, hc, hcs⟩ := validIdent_parts h
  cases fuel with
  | zero => omega
  | succ f =>
      have hskip : skipWs (id.data ++ rest) = id.data ++ rest := by
        rw [hd]; exact skipWs_cons_of_neg (alpha_not_ws hc) _
      simp only [parseFmla, hskip]
      split
      · next cs1 heq =>
          exfalso
          rw [hd] at heq
          simp only [List.cons_append] at heq
          injection heq with h1 h2
          rw [h1] at hc; cases hc
      · exact parseSays_var h hr (by omega)

theorem parseAgOrVar_word {c : Char} {w rest : List Char} (hc : c.isAlpha = true)
    (hw : ∀ x ∈ w, isIdentChar x = true) (hr : headNI rest) :
    parseAgOrVar ((c :: w) ++ rest) = some (.Variable (String.mk (c :: w)), rest) := by
  simp only [parseAgOrVar, List.cons_append, skipWs_cons_of_neg (alpha_not_ws hc)]
  split
  · next cs1 heq =>
      exfalso
      injection heq with h1 _
      rw [h1] at hc; cases hc
  · rw [show c :: (w ++ rest) = (c :: w) ++ rest from rfl, parseIdent_word hc hw hr]

theorem parseLit_says_lpar (z : List Char) : parseLit ['s','a','y','s'] ('(' :: z) = none := rfl

theorem parseAgOrVar_lpar (z : List Char) : parseAgOrVar ('(' :: z) = none := rfl

/-- On every canonical formula string, the explicit `says` branch of
`says_fmla` fails; the parse falls through to `implies_fmla`. -/
theorem says_chain_none {F : Formula} {str : String} (hF : canonicalFmla F = true)
    (hs : fmla_stringify F = .ok str) {rest : List Char} (hr : SB rest) (fuel : Nat) :
    (do
      let (ag, r1) ← parseAgOrVar (str.data ++ rest)
      let r2 ← parseLit ['s','a','y','s'] r1
      let (p, r3) ← parseImplies fuel r2
      pure ((Formula.App .SAYS 2 [ag, p]), r3)) = none := by
  unfold canonicalFmla at hF
  split at hF
  · next id =>
      rw [stringify_var hs]
      have hag : parseAgOrVar (id.data ++ rest) = some (.Variable id, rest) :=
        parseAgOrVar_ok (by simp [agentOrVarOk, hF]) rfl (SB_headNI hr)
      simp only [hag, parseLit_says_none hr, Option.bind_eq_bind, Option.some_bind,
        Option.none_bind]
  · rw [stringify_true hs]
    have hag : parseAgOrVar (['t','r','u','e'] ++ rest) =
        some (.Variable "true", rest) := parseAgOrVar_word (by decide) (by decide) (SB_headNI hr)
    simp only [hag, parseLit_says_none hr, Option.bind_eq_bind, Option.some_bind,
      Option.none_bind]
  · rw [stringify_false hs]
    have hag : parseAgOrVar (['f','a','l','s','e'] ++ rest) =
        some (.Variable "false", rest) := parseAgOrVar_word (by decide) (by decide) (SB_headNI hr)
    simp only [hag, parseLit_says_none hr, Option.bind_eq_bind, Option.some_bind,
      Option.none_bind]
  · next a =>
      obtain ⟨sa, hsa, hd⟩ := stringify_isca hs
      rw [hd]
      have hag : parseAgOrVar (('c' :: 'a' :: '(' :: (sa.data ++ [')'])) ++ rest) =
          some (.Variable "ca", '(' :: (sa.data ++ [')'] ++ rest)) := by
        have := parseAgOrVar_word (c := 'c') (w := ['a'])
          (by decide) (by decide)
          (show headNI ('(' :: (sa.data ++ [')'] ++ rest)) by
            intro ch chs hch; injection hch with h1 _; rw [← h1]; decide)
        simpa using this
      simp only [hag, parseLit_says_lpar, Option.bind_eq_bind, Option.some_bind,
        Option.none_bind]
  · next a k =>
      obtain ⟨sa, sk, hsa, hsk, hd⟩ := stringify_iskey hs
      rw [hd]
      have hag : parseAgOrVar (('i' :: 's' :: 'k' :: 'e' :: 'y' :: '(' ::
          (sa.data ++ ',' :: ' ' :: (sk.data ++ [')']))) ++ rest) =
          some (.Variable "iskey", '(' :: (sa.data ++ ',' :: ' ' :: (sk.data ++ [')']) ++ rest)) := by
        have := parseAgOrVar_word (c := 'i') (w := ['s','k','e','y'])
          (by decide) (by decide)
          (show headNI ('(' :: (sa.data ++ ',' :: ' ' :: (sk.data ++ [')']) ++ rest)) by
            intro ch chs hch; injection hch with h1 _; rw [← h1]; decide)
        simpa using this
      simp only [hag, parseLit_says_lpar, Option.bind_eq_bind, Option.some_bind,
        Option.none_bind]
  · next a r =>
      obtain ⟨sa, sr, hsa, hsr, hd⟩ := stringify_open hs
      rw [hd]
      have hag : parseAgOrVar (('o' :: 'p' :: 'e' :: 'n' :: '(' ::
          (sa.data ++ ',' :: ' ' :: (sr.data ++ [')']))) ++ rest) =
          some (.Variable "open", '(' :: (sa.data ++ ',' :: ' ' :: (sr.data ++ [')']) ++ rest)) := by
        have := parseAgOrVar_word (c := 'o') (w := ['p','e','n'])
          (by decide) (by decide)
          (show headNI ('(' :: (sa.data ++ ',' :: ' ' :: (sr.data ++ [')']) ++ rest)) by
            intro ch chs hch; injection hch with h1 _; rw [← h1]; decide)
        simpa using this
      simp only [hag, parseLit_says_lpar, Option.bind_eq_bind, Option.some_bind,
        Option.none_bind]
  · next p k =>
      obtain ⟨sp, sk, hsp, hsk, hd⟩ := stringify_sign hs
      rw [hd]
      have hag : parseAgOrVar (('s' :: 'i' :: 'g' :: 'n' :: '(' :: '(' ::
          (sp.data ++ ')' :: ',' :: ' ' :: (sk.data ++ [')']))) ++ rest) =
          some (.Variable "sign", '(' :: '(' :: (sp.data ++ ')' :: ',' :: ' ' :: (sk.data ++ [')']) ++ rest)) := by
        have := parseAgOrVar_word (c := 's') (w := ['i','g','n'])
          (by decide) (by decide)
          (show headNI ('(' :: '(' :: (sp.data ++ ')' :: ',' :: ' ' :: (sk.data ++ [')']) ++ rest)) by
            intro ch chs hch; injection hch with h1 _; rw [← h1]; decide)
        simpa using this
      simp only [hag, parseLit_says_lpar, Option.bind_eq_bind, Option.some_bind,
        Option.none_bind]
  · next p q =>
      obtain ⟨sp, sq, hsp, hsq, hd⟩ := stringify_implies hs
      rw [hd]
      simp only [List.cons_append, parseAgOrVar_lpar, Option.bind_eq_bind, Option.none_bind]
  · next a p =>
      obtain ⟨sa, sp, hsa, hsp, hd⟩ := stringify_says hs
      rw [hd]
      simp only [List.cons_append, parseAgOrVar_lpar, Option.bind_eq_bind, Option.none_bind]
  · next f x =>
      obtain ⟨sf, sx, hsf, hsx, hd⟩ := stringify_other hs
      simp only [Bool.and_eq_true] at hF
      rw [hd, stringify_var hsf]
      obtain ⟨c, cs, hdf, hc, hcs⟩ := validIdent_parts hF.1.1
      rw [hdf]
      have hag : parseAgOrVar ((c :: cs ++ '(' :: (sx.data ++ [')'])) ++ rest) =
          some (.Variable (String.mk (c :: cs)), '(' :: (sx.data ++ [')'] ++ rest)) := by
        have := parseAgOrVar_word hc hcs
          (show headNI ('(' :: (sx.data ++ [')'] ++ rest)) by
            intro ch chs hch; injection hch with h1 _; rw [← h1]; decide)
        simpa using this
      simp only [hag, parseLit_says_lpar, Option.bind_eq_bind, Option.some_bind,
        Option.none_bind]
  · next x p =>
      obtain ⟨sp, hsp, hd⟩ := stringify_forall hs
      rw [hd]
      simp only [List.cons_append, parseAgOrVar_lpar, Option.bind_eq_bind, Option.none_bind]
  · cases hF

theorem litGo_head_ne {l c : Char} (ls cs : List Char) (h : ¬ c = l) :
    litGo (l :: ls) (c :: cs) = none := by simp [litGo, h]

/-- A keyword literal against a canonical `OTHER` application head `f(`:
either the literal fails, or (when the literal is a proper prefix of `f`)
the following `(` fails. -/
theorem keyword_chain_other_none {α : Type} (lit : List Char)
    (hlit : ∀ c ∈ lit, isIdentChar c = true)
    {f : String} (hf : validIdentStr f = true) (hne : f.data ≠ lit) (z : List Char)
    (K : List Char → Option α) :
    (do
      let r1 ← litGo lit (f.data ++ '(' :: z)
      let r2 ← parseLit ['('] r1
      K r2) = none := by
  cases hp : lit.isPrefixOf f.data with
  | false =>
      rw [litGo_none_of_not_pref hlit (validIdent_all hf)
        (by intro ch chs hch; injection hch with h1 _; rw [← h1]; decide) hp]
      rfl
  | true =>
      obtain ⟨t, ht⟩ := prefix_decomp hp
      cases t with
      | nil =>
          exact absurd (by rw [ht]; simp) hne
      | cons c t' =>
          have hc : isIdentChar c = true :=
            validIdent_all hf c (by
              rw [ht]; exact List.mem_append_right _ (List.mem_cons_self c t'))
          rw [ht, List.append_assoc, litGo_self]
          have h2 : parseLit ['('] ((c :: t') ++ ('(' :: z)) = none := by
            simp only [List.cons_append, parseLit, skipWs_cons_of_neg (ident_not_ws hc)]
            have hcc : ¬ c = '(' := fun h => by rw [h] at hc; cases hc
            simp [litGo, hcc]
          show (parseLit ['('] ((c :: t') ++ ('(' :: z))).bind (fun r2 => K r2) = none
          rw [h2]
          rfl

/-- On every canonical formula string other than a `sign` application, the
explicit `sign` branch of `sign_fmla` fails; the parse falls through to
`atom`. -/
theorem sign_chain_none {F : Formula} {str : String} (hF : canonicalFmla F = true)
    (hs : fmla_stringify F = .ok str) (hsg : isSignTop F = false)
    {rest : List Char} (hr : SB rest) {fuel : Nat} (hfuel : 6 ≤ fuel) :
    (do
      let r1 ← litGo ['s','i','g','n'] (str.data ++ rest)
      let r2 ← parseLit ['('] r1
      let (p, r3) ← parseFmla fuel r2
      let r4 ← parseLit [','] r3
      let (k, r5) ← parseKeyOrVar r4
      let r6 ← parseLit [')'] r5
      pure ((Formula.App .SIGN 2 [p, k]), r6)) = none := by
  unfold canonicalFmla at hF
  split at hF
  · next id =>
      rw [stringify_var hs]
      exact keyword_chain_none ['s','i','g','n'] (by decide) hF hr _
  · rw [stringify_true hs]
    rfl
  · rw [stringify_false hs]
    rfl
  · next a =>
      obtain ⟨sa, hsa, hd⟩ := stringify_isca hs
      rw [hd]
      rfl
  · next a k =>
      obtain ⟨sa, sk, hsa, hsk, hd⟩ := stringify_iskey hs
      rw [hd]
      rfl
  · next a r =>
      obtain ⟨sa, sr, hsa, hsr, hd⟩ := stringify_open hs
      rw [hd]
      rfl
  · next p k =>
      simp [isSignTop] at hsg
  · next p q =>
      obtain ⟨sp, sq, hsp, hsq, hd⟩ := stringify_implies hs
      rw [hd]
      rfl
  · next a p =>
      obtain ⟨sa, sp, hsa, hsp, hd⟩ := stringify_says hs
      rw [hd]
      rfl
  · next f x =>
      obtain ⟨sf, sx, hsf, hsx, hd⟩ := stringify_other hs
      simp only [Bool.and_eq_true] at hF
      rw [hd, stringify_var hsf, stringify_var hsx]
      by_cases hfe : f = "sign"
      · subst hfe
        show (do
          let r1 ← litGo ['s','i','g','n']
            ((['s','i','g','n'] ++ '(' :: (x.data ++ [')'])) ++ rest)
          let r2 ← parseLit ['('] r1
          let (p, r3) ← parseFmla fuel r2
          let r4 ← parseLit [','] r3
          let (k, r5) ← parseKeyOrVar r4
          let r6 ← parseLit [')'] r5
          pure ((Formula.App .SIGN 2 [p, k]), r6)) = none
        rw [List.append_assoc, litGo_self]
        have h1 : parseLit ['('] ('(' :: (x.data ++ [')']) ++ rest) =
            some ((x.data ++ [')']) ++ rest) := rfl
        have h2 : parseFmla fuel ((x.data ++ [')']) ++ rest) =
            some (.Variable x, ')' :: rest) := by
          have := parseFmla_var hF.1.2 (Or.inr (Or.inl ⟨rest, rfl⟩)) hfuel
          simpa [List.append_assoc] using this
        have h3 : parseLit [','] (')' :: rest) = none := rfl
        show ((parseLit ['('] ('(' :: (x.data ++ [')']) ++ rest)).bind fun r2 =>
          (parseFmla fuel r2).bind fun d =>
          (parseLit [','] d.2).bind fun r4 =>
          (parseKeyOrVar r4).bind fun d1 =>
          (parseLit [')'] d1.2).bind fun r6 =>
          pure ((Formula.App .SIGN 2 [d.1, d1.1]), r6)) = none
        rw [h1]
        show ((parseFmla fuel ((x.data ++ [')']) ++ rest)).bind fun d =>
          (parseLit [','] d.2).bind fun r4 =>
          (parseKeyOrVar r4).bind fun d1 =>
          (parseLit [')'] d1.2).bind fun r6 =>
          pure ((Formula.App .SIGN 2 [d.1, d1.1]), r6)) = none
        rw [h2]
        show ((parseLit [','] (')' :: rest)).bind fun r4 =>
          (parseKeyOrVar r4).bind fun d1 =>
          (parseLit [')'] d1.2).bind fun r6 =>
          pure ((Formula.App .SIGN 2 [Formula.Variable x, d1.1]), r6)) = none
        rw [h3]
        rfl
      · have hne : f.data ≠ ['s','i','g','n'] := by
          intro hcon
          apply hfe
          apply String.ext
          rw [hcon]
        have := keyword_chain_other_none ['s','i','g','n'] (by decide) hF.1.1 hne
          ((x.data ++ [')']) ++ rest)
          (fun r2 =>
            (parseFmla fuel r2).bind fun d =>
            (parseLit [','] d.2).bind fun r4 =>
            (parseKeyOrVar r4).bind fun d1 =>
            (parseLit [')'] d1.2).bind fun r6 =>
            pure ((Formula.App .SIGN 2 [d.1, d1.1]), r6))
        simpa [List.append_assoc] using this
  · next x p =>
      obtain ⟨sp, hsp, hd⟩ := stringify_forall hs
      rw [hd]
      rfl
  · cases hF

theorem sizeF_pos (F : Formula) : 1 ≤ sizeF F := by
  cases F <;> simp [sizeF]

theorem signStmt_of_atom {F : Formula} (hF : canonicalFmla F = true)
    (hsg : isSignTop F = false) (hA : AtomStmt F) : SignStmt F := by
  intro str rest fuel hs hr hf
  cases fuel with
  | zero => have := sizeF_pos F; omega
  | succ f =>
      obtain ⟨c, cs, hd, hws, _⟩ := canonical_head hF hs
      have hskip : skipWs (str.data ++ rest) = str.data ++ rest := by
        rw [hd]; exact skipWs_cons_of_neg hws _
      simp only [parseSign, hskip]
      rw [sign_chain_none hF hs hsg hr (by have := sizeF_pos F; omega : 6 ≤ f)]
      exact hA str rest f hs hr (by omega)

theorem impStmt_of_sign {F : Formula} (hS : SignStmt F) : ImpStmt F := by
  intro str rest fuel hs hr hf
  cases fuel with
  | zero => have := sizeF_pos F; omega
  | succ f =>
      simp only [parseImplies, hS str rest f hs (CB_SB hr) (by omega)]
      exact impLoop_stop _ hr (by have := sizeF_pos F; omega)

theorem saysStmt_of_imp {F : Formula} (hF : canonicalFmla F = true)
    (hI : ImpStmt F) : SaysStmt F := by
  intro str rest fuel hs hr hf
  cases fuel with
  | zero => have := sizeF_pos F; omega
  | succ f =>
      obtain ⟨c, cs, hd, hws, _⟩ := canonical_head hF hs
      have hskip : skipWs (str.data ++ rest) = str.data ++ rest := by
        rw [hd]; exact skipWs_cons_of_neg hws _
      simp only [parseSays, hskip]
      rw [says_chain_none hF hs (CB_SB hr) f]
      exact hI str rest f hs hr (by omega)

theorem fmlaStmt_of_says {F : Formula} (hF : canonicalFmla F = true)
    (hY : SaysStmt F) : FmlaStmt F := by
  intro str rest fuel hs hr hf
  cases fuel with
  | zero => have := sizeF_pos F; omega
  | succ f =>
      obtain ⟨c, cs, hd, hws, hat⟩ := canonical_head hF hs
      have hskip : skipWs (str.data ++ rest) = str.data ++ rest := by
        rw [hd]; exact skipWs_cons_of_neg hws _
      simp only [parseFmla, hskip]
      split
      · next cs1 heq =>
          exfalso
          rw [hd] at heq
          simp only [List.cons_append] at heq
          injection heq with h1 _
          exact hat h1
      · exact hY str rest f hs hr (by omega)

theorem parseAtom_paren {F : Formula} (hM : FmlaStmt F) {str : String}
    {rest : List Char} {fuel : Nat} (hs : fmla_stringify F = .ok str) (hr : CB rest)
    (hf : 10 * sizeF F + 55 ≤ fuel) :
    parseAtom fuel ('(' :: (str.data ++ ')' :: rest)) = some (F, rest) := by
  cases fuel with
  | zero => have := sizeF_pos F; omega
  | succ m =>
      have h0 : skipWs ('(' :: (str.data ++ ')' :: rest)) =
          '(' :: (str.data ++ ')' :: rest) := rfl
      have h1 : litGo ['t','r','u','e'] ('(' :: (str.data ++ ')' :: rest)) = none := rfl
      have h2 : litGo ['f','a','l','s','e'] ('(' :: (str.data ++ ')' :: rest)) = none := rfl
      have h3 : litGo ['c','a'] ('(' :: (str.data ++ ')' :: rest)) = none := rfl
      have h4 : litGo ['i','s','k','e','y'] ('(' :: (str.data ++ ')' :: rest)) = none := rfl
      have h5 : litGo ['o','p','e','n'] ('(' :: (str.data ++ ')' :: rest)) = none := rfl
      have h6 : litGo ['('] ('(' :: (str.data ++ ')' :: rest)) =
          some (str.data ++ ')' :: rest) := rfl
      have h7 : parseFmla m (str.data ++ ')' :: rest) = some (F, ')' :: rest) :=
        hM str (')' :: rest) m hs (Or.inr (Or.inl ⟨rest, rfl⟩)) (by omega)
      have h8 : parseLit [')'] (')' :: rest) = some rest := rfl
      simp only [parseAtom, h0, h1, h2, h3, h4, h5, h6, h7, h8,
        Option.bind_eq_bind, Option.none_bind, Option.some_bind]

theorem parseSign_paren {F : Formula} (hM : FmlaStmt F) {str : String}
    {rest : List Char} {fuel : Nat} (hs : fmla_stringify F = .ok str) (hr : CB rest)
    (hf : 10 * sizeF F + 56 ≤ fuel) :
    parseSign fuel ('(' :: (str.data ++ ')' :: rest)) = some (F, rest) := by
  cases fuel with
  | zero => have := sizeF_pos F; omega
  | succ g =>
      have h0 : litGo ['s','i','g','n'] ('(' :: (str.data ++ ')' :: rest)) = none := rfl
      simp only [parseSign, skipWs, isWsChar, Bool.or_self, Bool.false_or]
      show (match (do
          let r1 ← litGo ['s','i','g','n'] ('(' :: (str.data ++ ')' :: rest))
          let r2 ← parseLit ['('] r1
          let (p, r3) ← parseFmla g r2
          let r4 ← parseLit [','] r3
          let (k, r5) ← parseKeyOrVar r4
          let r6 ← parseLit [')'] r5
          pure ((Formula.App .SIGN 2 [p, k]), r6)) with
        | some res => some res
        | none => parseAtom g ('(' :: (str.data ++ ')' :: rest))) = some (F, rest)
      rw [h0]
      show parseAtom g ('(' :: (str.data ++ ')' :: rest)) = some (F, rest)
      exact parseAtom_paren hM hs hr (by omega)

theorem parenSaysStmt_of_fmla {F : Formula} (hM : FmlaStmt F) : ParenSaysStmt F := by
  intro str rest fuel hs hr hf
  cases fuel with
  | zero => have := sizeF_pos F; omega
  | succ f =>
      have hag : parseAgOrVar ('(' :: (str.data ++ ')' :: rest)) = none :=
        parseAgOrVar_lpar _
      have hskip : skipWs ('(' :: (str.data ++ ')' :: rest)) =
          '(' :: (str.data ++ ')' :: rest) := rfl
      simp only [parseSays, hskip, hag, Option.bind_eq_bind, Option.none_bind]
      cases f with
      | zero => have := sizeF_pos F; omega
      | succ g =>
          simp only [parseImplies,
            parseSign_paren hM hs hr (by omega : 10 * sizeF F + 56 ≤ g)]
          exact impLoop_stop _ hr (by have := sizeF_pos F; omega)

theorem parenFmlaStmt_of_parenSays {F : Formula} (hPS : ParenSaysStmt F) :
    ParenFmlaStmt F := by
  intro str rest fuel hs hr hf
  cases fuel with
  | zero => have := sizeF_pos F; omega
  | succ f =>
      have hskip : skipWs ('(' :: (str.data ++ ')' :: rest)) =
          '(' :: (str.data ++ ')' :: rest) := rfl
      simp only [parseFmla, hskip]
      split
      · next cs1 heq => cases heq
      · exact hPS str rest f hs hr (by omega)

/-- Heads of canonical agent-or-variable strings. -/
theorem agent_head {a : Formula} {sa : String} (ha : agentOrVarOk a = true)
    (hs : fmla_stringify a = .ok sa) :
    ∃ c cs, sa.data = c :: cs ∧ isWsChar c = false ∧ c ≠ '@' := by
  cases a with
  | Variable id =>
      rw [stringify_var hs]
      simp only [agentOrVarOk] at ha
      obtain ⟨c, cs, hd, hc, _⟩ := validIdent_parts ha
      exact ⟨c, cs, hd, alpha_not_ws hc, by intro h; rw [h] at hc; cases hc⟩
  | Agent id =>
      rw [stringify_var hs]
      simp only [agentOrVarOk] at ha
      cases hd : id.data with
      | nil => rw [hd] at ha; cases ha
      | cons c0 cs0 =>
          rw [hd] at ha
          by_cases hc0 : c0 = '#'
          · exact ⟨c0, cs0, rfl, by rw [hc0]; decide, by rw [hc0]; decide⟩
          · exfalso
            cases cs0 with
            | nil => simp [hc0] at ha
            | cons c1 cs1 => simp [hc0] at ha
  | Key id => simp [agentOrVarOk] at ha
  | Resource id => simp [agentOrVarOk] at ha
  | App op n args => simp [agentOrVarOk] at ha
  | Forall x p => simp [agentOrVarOk] at ha

/-- The inner (unparenthesized) string of an implication round-trips at the
`fmla` level. -/
theorem impInner {p q : Formula} (hp : canonicalFmla p = true)
    (hq : canonicalFmla q = true) (hSp : SignStmt p) (hSq : SignStmt q)
    {sp sq : String} {rest : List Char} {fuel : Nat}
    (hsp : fmla_stringify p = .ok sp) (hsq : fmla_stringify q = .ok sq)
    (hr : CB rest) (hf : 10 * (sizeF p + sizeF q) + 50 ≤ fuel) :
    parseFmla fuel (sp.data ++ ' ' :: '-' :: '>' :: ' ' :: (sq.data ++ rest)) =
      some (.App .IMPLIES 2 [p, q], rest) := by
  have hqpos := sizeF_pos q
  have hppos := sizeF_pos p
  cases fuel with
  | zero => omega
  | succ f =>
      obtain ⟨c, cs, hd, hws, hat⟩ := canonical_head hp hsp
      have hskip : skipWs (sp.data ++ ' ' :: '-' :: '>' :: ' ' :: (sq.data ++ rest)) =
          sp.data ++ ' ' :: '-' :: '>' :: ' ' :: (sq.data ++ rest) := by
        rw [hd]; exact skipWs_cons_of_neg hws _
      have hSB : SB (' ' :: '-' :: '>' :: ' ' :: (sq.data ++ rest)) :=
        Or.inr ⟨sq.data ++ rest, rfl⟩
      simp only [parseFmla, hskip]
      split
      · next cs1 heq =>
          exfalso
          rw [hd] at heq
          simp only [List.cons_append] at heq
          injection heq with h1 _
          exact hat h1
      · cases f with
        | zero => omega
        | succ g =>
            -- says level
            simp only [parseSays, hskip]
            rw [says_chain_none hp hsp hSB g]
            cases g with
            | zero => omega
            | succ h =>
                -- implies level
                simp only [parseImplies,
                  hSp sp (' ' :: '-' :: '>' :: ' ' :: (sq.data ++ rest)) h hsp hSB
                    (by omega : 10 * sizeF p + 51 ≤ h)]
                -- the loop takes the arrow
                cases h with
                | zero => omega
                | succ m =>
                    have harrow : parseLit ['-','>']
                        (' ' :: '-' :: '>' :: ' ' :: (sq.data ++ rest)) =
                        some (' ' :: (sq.data ++ rest)) := rfl
                    simp only [impLoop, harrow, parseSign_ws,
                      hSq sq rest m hsq (CB_SB hr) (by omega : 10 * sizeF q + 51 ≤ m)]
                    exact impLoop_stop _ hr (by omega)

/-- The inner string of a `says` formula round-trips at the `fmla` level. -/
theorem saysInner {a p : Formula} (ha : agentOrVarOk a = true)
    (hp : canonicalFmla p = true) (hIp : ImpStmt p)
    {sa sp : String} {rest : List Char} {fuel : Nat}
    (hsa : fmla_stringify a = .ok sa) (hsp : fmla_stringify p = .ok sp)
    (hr : CB rest) (hf : 10 * (sizeF a + sizeF p) + 50 ≤ fuel) :
    parseFmla fuel (sa.data ++ ' ' :: 's' :: 'a' :: 'y' :: 's' :: ' ' :: (sp.data ++ rest)) =
      some (.App .SAYS 2 [a, p], rest) := by
  have happos := sizeF_pos a
  have hppos := sizeF_pos p
  cases fuel with
  | zero => omega
  | succ f =>
      obtain ⟨c, cs, hd, hws, hat⟩ := agent_head ha hsa
      have hskip : skipWs (sa.data ++ ' ' :: 's' :: 'a' :: 'y' :: 's' :: ' ' :: (sp.data ++ rest)) =
          sa.data ++ ' ' :: 's' :: 'a' :: 'y' :: 's' :: ' ' :: (sp.data ++ rest) := by
        rw [hd]; exact skipWs_cons_of_neg hws _
      simp only [parseFmla, hskip]
      split
      · next cs1 heq =>
          exfalso
          rw [hd] at heq
          simp only [List.cons_append] at heq
          injection heq with h1 _
          exact hat h1
      · cases f with
        | zero => omega
        | succ g =>
            simp only [parseSays, hskip]
            have hag : parseAgOrVar
                (sa.data ++ ' ' :: 's' :: 'a' :: 'y' :: 's' :: ' ' :: (sp.data ++ rest)) =
                some (a, ' ' :: 's' :: 'a' :: 'y' :: 's' :: ' ' :: (sp.data ++ rest)) :=
              parseAgOrVar_ok ha hsa
                (by intro ch chs hch; injection hch with h1 _; rw [← h1]; decide)
            have hsays : parseLit ['s','a','y','s']
                (' ' :: 's' :: 'a' :: 'y' :: 's' :: ' ' :: (sp.data ++ rest)) =
                some (' ' :: (sp.data ++ rest)) := rfl
            simp only [hag, hsays, Option.bind_eq_bind, Option.some_bind,
              parseImplies_ws,
              hIp sp rest g hsp hr (by omega : 10 * sizeF p + 52 ≤ g)]

/-- The dedicated `sign` branch parses a canonical `sign` application. -/
theorem signStmt_sign {p k : Formula} (hkc : keyOrVarOk k = true)
    (hPF : ParenFmlaStmt p) : SignStmt (.App .SIGN 2 [p, k]) := by
  intro str rest fuel hs hr hf
  have hsz : sizeF (Formula.App .SIGN 2 [p, k]) = 1 + (sizeF p + (sizeF k + 0)) := rfl
  have hppos := sizeF_pos p
  have hkpos := sizeF_pos k
  cases fuel with
  | zero => omega
  | succ f =>
      obtain ⟨sp, sk, hsp, hsk, hd⟩ := stringify_sign hs
      rw [hd]
      have hskip : skipWs (('s' :: 'i' :: 'g' :: 'n' :: '(' :: '(' ::
          (sp.data ++ ')' :: ',' :: ' ' :: (sk.data ++ [')']))) ++ rest) =
          ('s' :: 'i' :: 'g' :: 'n' :: '(' :: '(' ::
          (sp.data ++ ')' :: ',' :: ' ' :: (sk.data ++ [')']))) ++ rest := rfl
      have h1 : litGo ['s','i','g','n'] (('s' :: 'i' :: 'g' :: 'n' :: '(' :: '(' ::
          (sp.data ++ ')' :: ',' :: ' ' :: (sk.data ++ [')']))) ++ rest) =
          some ('(' :: '(' :: ((sp.data ++ ')' :: ',' :: ' ' :: (sk.data ++ [')'])) ++ rest)) := rfl
      have h2 : parseLit ['(']
          ('(' :: '(' :: ((sp.data ++ ')' :: ',' :: ' ' :: (sk.data ++ [')'])) ++ rest)) =
          some ('(' :: ((sp.data ++ ')' :: ',' :: ' ' :: (sk.data ++ [')'])) ++ rest)) := rfl
      have h3 : parseFmla f
          ('(' :: ((sp.data ++ ')' :: ',' :: ' ' :: (sk.data ++ [')'])) ++ rest)) =
          some (p, ',' :: ' ' :: ((sk.data ++ [')']) ++ rest)) := by
        have := hPF sp (',' :: ' ' :: ((sk.data ++ [')']) ++ rest)) f hsp
          (Or.inr (Or.inr ⟨' ' :: ((sk.data ++ [')']) ++ rest), rfl⟩))
          (by simp [sizeF, sizeFL] at hf ⊢; omega)
        simpa [List.append_assoc] using this
      have h4 : parseLit [','] (',' :: ' ' :: ((sk.data ++ [')']) ++ rest)) =
          some (' ' :: ((sk.data ++ [')']) ++ rest)) := rfl
      have h5 : parseKeyOrVar (' ' :: ((sk.data ++ [')']) ++ rest)) =
          some (k, ')' :: rest) := by
        rw [parseKeyOrVar_ws]
        have := parseKeyOrVar_ok hkc hsk
          (show headNI (')' :: rest) by
            intro ch chs hch; injection hch with hch1 _; rw [← hch1]; decide)
        rw [List.append_assoc]
        simpa using this
      have h6 : parseLit [')'] (')' :: rest) = some rest := rfl
      simp only [parseSign, hskip, h1, h2, h3, h4, h5, h6,
        Option.bind_eq_bind, Option.some_bind]

theorem atomStmt_true : AtomStmt (.App .TRUE 0 []) := by
  intro str rest fuel hs hr hf
  cases fuel with
  | zero => omega
  | succ f =>
      rw [stringify_true hs]
      have h0 : skipWs (['t','r','u','e'] ++ rest) = ['t','r','u','e'] ++ rest := rfl
      have h1 : litGo ['t','r','u','e'] (['t','r','u','e'] ++ rest) = some rest :=
        litGo_self _ _
      simp only [parseAtom, h0, h1]

theorem atomStmt_false : AtomStmt (.App .FALSE 0 []) := by
  intro str rest fuel hs hr hf
  cases fuel with
  | zero => omega
  | succ f =>
      rw [stringify_false hs]
      have h0 : skipWs (['f','a','l','s','e'] ++ rest) = ['f','a','l','s','e'] ++ rest := rfl
      have h1 : litGo ['t','r','u','e'] (['f','a','l','s','e'] ++ rest) = none := rfl
      have h2 : litGo ['f','a','l','s','e'] (['f','a','l','s','e'] ++ rest) = some rest :=
        litGo_self _ _
      simp only [parseAtom, h0, h1, h2]

theorem atomStmt_var {id : String} (h : validIdentStr id = true) :
    AtomStmt (.Variable id) := by
  intro str rest fuel hs hr hf
  rw [stringify_var hs]
  exact parseAtom_var h hr (by omega)

theorem atomStmt_isca {a : Formula} (ha : agentOrVarOk a = true) :
    AtomStmt (.App .ISCA 1 [a]) := by
  intro str rest fuel hs hr hf
  cases fuel with
  | zero => omega
  | succ f =>
      obtain ⟨sa, hsa, hd⟩ := stringify_isca hs
      rw [hd]
      have h0 : skipWs (('c' :: 'a' :: '(' :: (sa.data ++ [')'])) ++ rest) =
          ('c' :: 'a' :: '(' :: (sa.data ++ [')'])) ++ rest := rfl
      have h1 : litGo ['t','r','u','e'] (('c' :: 'a' :: '(' :: (sa.data ++ [')'])) ++ rest) =
          none := rfl
      have h2 : litGo ['f','a','l','s','e'] (('c' :: 'a' :: '(' :: (sa.data ++ [')'])) ++ rest) =
          none := rfl
      have h3 : litGo ['c','a'] (('c' :: 'a' :: '(' :: (sa.data ++ [')'])) ++ rest) =
          some ('(' :: ((sa.data ++ [')']) ++ rest)) := rfl
      have h4 : parseLit ['('] ('(' :: ((sa.data ++ [')']) ++ rest)) =
          some ((sa.data ++ [')']) ++ rest) := rfl
      have h5 : parseAgOrVar ((sa.data ++ [')']) ++ rest) = some (a, ')' :: rest) := by
        rw [List.append_assoc]
        exact parseAgOrVar_ok ha hsa
          (by intro ch chs hch; injection hch with h1 _; rw [← h1]; decide)
      have h6 : parseLit [')'] (')' :: rest) = some rest := rfl
      simp only [parseAtom, h0, h1, h2, h3, h4, h5, h6,
        Option.bind_eq_bind, Option.some_bind]

theorem atomStmt_iskey {a k : Formula} (ha : agentOrVarOk a = true)
    (hk : keyOrVarOk k = true) : AtomStmt (.App .ISKEY 2 [a, k]) := by
  intro str rest fuel hs hr hf
  cases fuel with
  | zero => omega
  | succ f =>
      obtain ⟨sa, sk, hsa, hsk, hd⟩ := stringify_iskey hs
      rw [hd]
      have h0 : skipWs (('i' :: 's' :: 'k' :: 'e' :: 'y' :: '(' ::
          (sa.data ++ ',' :: ' ' :: (sk.data ++ [')']))) ++ rest) =
          ('i' :: 's' :: 'k' :: 'e' :: 'y' :: '(' ::
          (sa.data ++ ',' :: ' ' :: (sk.data ++ [')']))) ++ rest := rfl
      have h1 : litGo ['t','r','u','e'] (('i' :: 's' :: 'k' :: 'e' :: 'y' :: '(' ::
          (sa.data ++ ',' :: ' ' :: (sk.data ++ [')']))) ++ rest) = none := rfl
      have h2 : litGo ['f','a','l','s','e'] (('i' :: 's' :: 'k' :: 'e' :: 'y' :: '(' ::
          (sa.data ++ ',' :: ' ' :: (sk.data ++ [')']))) ++ rest) = none := rfl
      have h3 : litGo ['c','a'] (('i' :: 's' :: 'k' :: 'e' :: 'y' :: '(' ::
          (sa.data ++ ',' :: ' ' :: (sk.data ++ [')']))) ++ rest) = none := rfl
      have h4 : litGo ['i','s','k','e','y'] (('i' :: 's' :: 'k' :: 'e' :: 'y' :: '(' ::
          (sa.data ++ ',' :: ' ' :: (sk.data ++ [')']))) ++ rest) =
          some ('(' :: ((sa.data ++ ',' :: ' ' :: (sk.data ++ [')'])) ++ rest)) := rfl
      have h5 : parseLit ['('] ('(' :: ((sa.data ++ ',' :: ' ' :: (sk.data ++ [')'])) ++ rest)) =
          some ((sa.data ++ ',' :: ' ' :: (sk.data ++ [')'])) ++ rest) := rfl
      have h6 : parseAgOrVar ((sa.data ++ ',' :: ' ' :: (sk.data ++ [')'])) ++ rest) =
          some (a, ',' :: ' ' :: ((sk.data ++ [')']) ++ rest)) := by
        rw [List.append_assoc]
        exact parseAgOrVar_ok ha hsa
          (by intro ch chs hch; injection hch with h1 _; rw [← h1]; decide)
      have h7 : parseLit [','] (',' :: ' ' :: ((sk.data ++ [')']) ++ rest)) =
          some (' ' :: ((sk.data ++ [')']) ++ rest)) := rfl
      have h8 : parseKeyOrVar (' ' :: ((sk.data ++ [')']) ++ rest)) =
          some (k, ')' :: rest) := by
        rw [parseKeyOrVar_ws, List.append_assoc]
        exact parseKeyOrVar_ok hk hsk
          (by intro ch chs hch; injection hch with h1 _; rw [← h1]; decide)
      have h9 : parseLit [')'] (')' :: rest) = some rest := rfl
      simp only [parseAtom, h0, h1, h2, h3, h4, h5, h6, h7, h8, h9,
        Option.bind_eq_bind, Option.none_bind, Option.some_bind]

theorem atomStmt_open {a r : Formula} (ha : agentOrVarOk a = true)
    (hre : resOrVarOk r = true) : AtomStmt (.App .OPEN 2 [a, r]) := by
  intro str rest fuel hs hr hf
  cases fuel with
  | zero => omega
  | succ f =>
      obtain ⟨sa, sr, hsa, hsr, hd⟩ := stringify_open hs
      rw [hd]
      have h0 : skipWs (('o' :: 'p' :: 'e' :: 'n' :: '(' ::
          (sa.data ++ ',' :: ' ' :: (sr.data ++ [')']))) ++ rest) =
          ('o' :: 'p' :: 'e' :: 'n' :: '(' ::
          (sa.data ++ ',' :: ' ' :: (sr.data ++ [')']))) ++ rest := rfl
      have h1 : litGo ['t','r','u','e'] (('o' :: 'p' :: 'e' :: 'n' :: '(' ::
          (sa.data ++ ',' :: ' ' :: (sr.data ++ [')']))) ++ rest) = none := rfl
      have h2 : litGo ['f','a','l','s','e'] (('o' :: 'p' :: 'e' :: 'n' :: '(' ::
          (sa.data ++ ',' :: ' ' :: (sr.data ++ [')']))) ++ rest) = none := rfl
      have h3 : litGo ['c','a'] (('o' :: 'p' :: 'e' :: 'n' :: '(' ::
          (sa.data ++ ',' :: ' ' :: (sr.data ++ [')']))) ++ rest) = none := rfl
      have h4 : litGo ['i','s','k','e','y'] (('o' :: 'p' :: 'e' :: 'n' :: '(' ::
          (sa.data ++ ',' :: ' ' :: (sr.data ++ [')']))) ++ rest) = none := rfl
      have h5 : litGo ['o','p','e','n'] (('o' :: 'p' :: 'e' :: 'n' :: '(' ::
          (sa.data ++ ',' :: ' ' :: (sr.data ++ [')']))) ++ rest) =
          some ('(' :: ((sa.data ++ ',' :: ' ' :: (sr.data ++ [')'])) ++ rest)) := rfl
      have h6 : parseLit ['('] ('(' :: ((sa.data ++ ',' :: ' ' :: (sr.data ++ [')'])) ++ rest)) =
          some ((sa.data ++ ',' :: ' ' :: (sr.data ++ [')'])) ++ rest) := rfl
      have h7 : parseAgOrVar ((sa.data ++ ',' :: ' ' :: (sr.data ++ [')'])) ++ rest) =
          some (a, ',' :: ' ' :: ((sr.data ++ [')']) ++ rest)) := by
        rw [List.append_assoc]
        exact parseAgOrVar_ok ha hsa
          (by intro ch chs hch; injection hch with h1 _; rw [← h1]; decide)
      have h8 : parseLit [','] (',' :: ' ' :: ((sr.data ++ [')']) ++ rest)) =
          some (' ' :: ((sr.data ++ [')']) ++ rest)) := rfl
      have h9 : parseResOrVar (' ' :: ((sr.data ++ [')']) ++ rest)) =
          some (r, ')' :: rest) := by
        rw [parseResOrVar_ws, List.append_assoc]
        exact parseResOrVar_ok hre hsr
          (by intro ch chs hch; injection hch with h1 _; rw [← h1]; decide)
      have h10 : parseLit [')'] (')' :: rest) = some rest := rfl
      simp only [parseAtom, h0, h1, h2, h3, h4, h5, h6, h7, h8, h9, h10,
        Option.bind_eq_bind, Option.none_bind, Option.some_bind]

theorem atomStmt_implies {p q : Formula} (hp : canonicalFmla p = true)
    (hq : canonicalFmla q = true) (hSp : SignStmt p) (hSq : SignStmt q) :
    AtomStmt (.App .IMPLIES 2 [p, q]) := by
  intro str rest fuel hs hr hf
  have hsz : sizeF (Formula.App .IMPLIES 2 [p, q]) = 1 + (sizeF p + (sizeF q + 0)) := rfl
  cases fuel with
  | zero => omega
  | succ f =>
      obtain ⟨sp, sq, hsp, hsq, hd⟩ := stringify_implies hs
      rw [hd]
      have h0 : skipWs (('(' :: (sp.data ++ ' ' :: '-' :: '>' :: ' ' :: (sq.data ++ [')']))) ++ rest) =
          ('(' :: (sp.data ++ ' ' :: '-' :: '>' :: ' ' :: (sq.data ++ [')']))) ++ rest := rfl
      have h1 : litGo ['t','r','u','e'] (('(' :: (sp.data ++ ' ' :: '-' :: '>' :: ' ' :: (sq.data ++ [')']))) ++ rest) = none := rfl
      have h2 : litGo ['f','a','l','s','e'] (('(' :: (sp.data ++ ' ' :: '-' :: '>' :: ' ' :: (sq.data ++ [')']))) ++ rest) = none := rfl
      have h3 : litGo ['c','a'] (('(' :: (sp.data ++ ' ' :: '-' :: '>' :: ' ' :: (sq.data ++ [')']))) ++ rest) = none := rfl
      have h4 : litGo ['i','s','k','e','y'] (('(' :: (sp.data ++ ' ' :: '-' :: '>' :: ' ' :: (sq.data ++ [')']))) ++ rest) = none := rfl
      have h5 : litGo ['o','p','e','n'] (('(' :: (sp.data ++ ' ' :: '-' :: '>' :: ' ' :: (sq.data ++ [')']))) ++ rest) = none := rfl
      have h6 : litGo ['('] (('(' :: (sp.data ++ ' ' :: '-' :: '>' :: ' ' :: (sq.data ++ [')']))) ++ rest) =
          some ((sp.data ++ ' ' :: '-' :: '>' :: ' ' :: (sq.data ++ [')'])) ++ rest) := rfl
      have h7 : parseFmla f ((sp.data ++ ' ' :: '-' :: '>' :: ' ' :: (sq.data ++ [')'])) ++ rest) =
          some (.App .IMPLIES 2 [p, q], ')' :: rest) := by
        have := impInner hp hq hSp hSq hsp hsq
          (Or.inr (Or.inl ⟨rest, rfl⟩))
          (by omega : 10 * (sizeF p + sizeF q) + 50 ≤ f)
        simpa [List.append_assoc] using this
      have h8 : parseLit [')'] (')' :: rest) = some rest := rfl
      simp only [parseAtom, h0, h1, h2, h3, h4, h5, h6, h7, h8,
        Option.bind_eq_bind, Option.none_bind, Option.some_bind]

theorem atomStmt_says {a p : Formula} (ha : agentOrVarOk a = true)
    (hp : canonicalFmla p = true) (hIp : ImpStmt p) :
    AtomStmt (.App .SAYS 2 [a, p]) := by
  intro str rest fuel hs hr hf
  have hsz : sizeF (Formula.App .SAYS 2 [a, p]) = 1 + (sizeF a + (sizeF p + 0)) := rfl
  cases fuel with
  | zero => omega
  | succ f =>
      obtain ⟨sa, sp, hsa, hsp, hd⟩ := stringify_says hs
      rw [hd]
      have h0 : skipWs (('(' :: (sa.data ++ ' ' :: 's' :: 'a' :: 'y' :: 's' :: ' ' :: (sp.data ++ [')']))) ++ rest) =
          ('(' :: (sa.data ++ ' ' :: 's' :: 'a' :: 'y' :: 's' :: ' ' :: (sp.data ++ [')']))) ++ rest := rfl
      have h1 : litGo ['t','r','u','e'] (('(' :: (sa.data ++ ' ' :: 's' :: 'a' :: 'y' :: 's' :: ' ' :: (sp.data ++ [')']))) ++ rest) = none := rfl
      have h2 : litGo ['f','a','l','s','e'] (('(' :: (sa.data ++ ' ' :: 's' :: 'a' :: 'y' :: 's' :: ' ' :: (sp.data ++ [')']))) ++ rest) = none := rfl
      have h3 : litGo ['c','a'] (('(' :: (sa.data ++ ' ' :: 's' :: 'a' :: 'y' :: 's' :: ' ' :: (sp.data ++ [')']))) ++ rest) = none := rfl
      have h4 : litGo ['i','s','k','e','y'] (('(' :: (sa.data ++ ' ' :: 's' :: 'a' :: 'y' :: 's' :: ' ' :: (sp.data ++ [')']))) ++ rest) = none := rfl
      have h5 : litGo ['o','p','e','n'] (('(' :: (sa.data ++ ' ' :: 's' :: 'a' :: 'y' :: 's' :: ' ' :: (sp.data ++ [')']))) ++ rest) = none := rfl
      have h6 : litGo ['('] (('(' :: (sa.data ++ ' ' :: 's' :: 'a' :: 'y' :: 's' :: ' ' :: (sp.data ++ [')']))) ++ rest) =
          some ((sa.data ++ ' ' :: 's' :: 'a' :: 'y' :: 's' :: ' ' :: (sp.data ++ [')'])) ++ rest) := rfl
      have h7 : parseFmla f ((sa.data ++ ' ' :: 's' :: 'a' :: 'y' :: 's' :: ' ' :: (sp.data ++ [')'])) ++ rest) =
          some (.App .SAYS 2 [a, p], ')' :: rest) := by
        have := saysInner ha hp hIp hsa hsp
          (Or.inr (Or.inl ⟨rest, rfl⟩))
          (by omega : 10 * (sizeF a + sizeF p) + 50 ≤ f)
        simpa [List.append_assoc] using this
      have h8 : parseLit [')'] (')' :: rest) = some rest := rfl
      simp only [parseAtom, h0, h1, h2, h3, h4, h5, h6, h7, h8,
        Option.bind_eq_bind, Option.none_bind, Option.some_bind]

theorem atomStmt_forall {x : String} {p : Formula} (hx : validIdentStr x = true)
    (hp : canonicalFmla p = true) (hPSp : ParenSaysStmt p) :
    AtomStmt (.Forall x p) := by
  intro str rest fuel hs hr hf
  have hsz : sizeF (Formula.Forall x p) = 1 + sizeF p := rfl
  have hppos := sizeF_pos p
  cases fuel with
  | zero => omega
  | succ f =>
      obtain ⟨sp, hsp, hd⟩ := stringify_forall hs
      rw [hd]
      have h0 : skipWs (('(' :: '@' :: (x.data ++ ' ' :: '.' :: ' ' :: '(' :: (sp.data ++ [')', ')']))) ++ rest) =
          ('(' :: '@' :: (x.data ++ ' ' :: '.' :: ' ' :: '(' :: (sp.data ++ [')', ')']))) ++ rest := rfl
      have h1 : litGo ['t','r','u','e'] (('(' :: '@' :: (x.data ++ ' ' :: '.' :: ' ' :: '(' :: (sp.data ++ [')', ')']))) ++ rest) = none := rfl
      have h2 : litGo ['f','a','l','s','e'] (('(' :: '@' :: (x.data ++ ' ' :: '.' :: ' ' :: '(' :: (sp.data ++ [')', ')']))) ++ rest) = none := rfl
      have h3 : litGo ['c','a'] (('(' :: '@' :: (x.data ++ ' ' :: '.' :: ' ' :: '(' :: (sp.data ++ [')', ')']))) ++ rest) = none := rfl
      have h4 : litGo ['i','s','k','e','y'] (('(' :: '@' :: (x.data ++ ' ' :: '.' :: ' ' :: '(' :: (sp.data ++ [')', ')']))) ++ rest) = none := rfl
      have h5 : litGo ['o','p','e','n'] (('(' :: '@' :: (x.data ++ ' ' :: '.' :: ' ' :: '(' :: (sp.data ++ [')', ')']))) ++ rest) = none := rfl
      have h6 : litGo ['('] (('(' :: '@' :: (x.data ++ ' ' :: '.' :: ' ' :: '(' :: (sp.data ++ [')', ')']))) ++ rest) =
          some ('@' :: ((x.data ++ ' ' :: '.' :: ' ' :: '(' :: (sp.data ++ [')', ')'])) ++ rest)) := rfl
      have h7 : parseFmla f ('@' :: ((x.data ++ ' ' :: '.' :: ' ' :: '(' :: (sp.data ++ [')', ')'])) ++ rest)) =
          some (.Forall x p, ')' :: rest) := by
        cases f with
        | zero => omega
        | succ g =>
            have hidt : parseIdent ((x.data ++ ' ' :: '.' :: ' ' :: '(' :: (sp.data ++ [')', ')'])) ++ rest) =
                some (x, ' ' :: '.' :: ' ' :: '(' :: ((sp.data ++ [')', ')']) ++ rest)) := by
              rw [List.append_assoc]
              exact parseIdent_valid hx
                (by intro ch chs hch; injection hch with h1 _; rw [← h1]; decide)
            have hdot : parseLit ['.'] (' ' :: '.' :: ' ' :: '(' :: ((sp.data ++ [')', ')']) ++ rest)) =
                some (' ' :: '(' :: ((sp.data ++ [')', ')']) ++ rest)) := rfl
            have hsys : parseSays g (' ' :: '(' :: ((sp.data ++ [')', ')']) ++ rest)) =
                some (p, ')' :: rest) := by
              rw [parseSays_ws]
              have := hPSp sp (')' :: rest) g hsp
                (Or.inr (Or.inl ⟨rest, rfl⟩))
                (by omega : 10 * sizeF p + 58 ≤ g)
              simpa [List.append_assoc] using this
            have hskip2 : skipWs ('@' :: ((x.data ++ ' ' :: '.' :: ' ' :: '(' :: (sp.data ++ [')', ')'])) ++ rest)) =
                '@' :: ((x.data ++ ' ' :: '.' :: ' ' :: '(' :: (sp.data ++ [')', ')'])) ++ rest) := rfl
            simp only [parseFmla, hskip2, hidt, hdot, hsys,
              Option.bind_eq_bind, Option.some_bind]
            rfl
      have h8 : parseLit [')'] (')' :: rest) = some rest := rfl
      simp only [parseAtom, h0, h1, h2, h3, h4, h5, h6, h7, h8,
        Option.bind_eq_bind, Option.none_bind, Option.some_bind]

theorem atomStmt_other {f x : String} (hf : validIdentStr f = true)
    (hx : validIdentStr x = true) (hne : f ≠ "ca") :
    AtomStmt (.App .OTHER 2 [.Variable f, .Variable x]) := by
  intro str rest fuel hfs hr hfl
  cases fuel with
  | zero => omega
  | succ fl =>
      obtain ⟨sf, sx, hsf, hsx, hd⟩ := stringify_other hfs
      rw [hd, stringify_var hsf, stringify_var hsx]
      obtain ⟨c0, cs0, hdf, hc0, hcs0⟩ := validIdent_parts hf
      have hNI : headNI ('(' :: ((x.data ++ [')']) ++ rest)) := by
        intro ch chs hch; injection hch with h1 _; rw [← h1]; decide
      have hski : skipWs ((f.data ++ '(' :: (x.data ++ [')'])) ++ rest) =
          (f.data ++ '(' :: (x.data ++ [')'])) ++ rest := by
        rw [hdf]
        exact skipWs_cons_of_neg (alpha_not_ws hc0) _
      have hnorm : (f.data ++ '(' :: (x.data ++ [')'])) ++ rest =
          f.data ++ '(' :: ((x.data ++ [')']) ++ rest) := by
        simp
      rw [hnorm] at hski ⊢
      have hAll : ∀ ch ∈ f.data, isIdentChar ch = true := validIdent_all hf
      have h1 : litGo ['t','r','u','e'] (f.data ++ '(' :: ((x.data ++ [')']) ++ rest)) = none :=
        litGo_none_of_not_pref (by decide) hAll hNI (validIdent_not_true hf)
      have h2 : litGo ['f','a','l','s','e'] (f.data ++ '(' :: ((x.data ++ [')']) ++ rest)) = none :=
        litGo_none_of_not_pref (by decide) hAll hNI (validIdent_not_false hf)
      have hident1 : parseIdent (f.data ++ '(' :: ((x.data ++ [')']) ++ rest)) =
          some (f, '(' :: ((x.data ++ [')']) ++ rest)) :=
        parseIdent_valid hf hNI
      have hlp : parseLit ['('] ('(' :: ((x.data ++ [')']) ++ rest)) =
          some ((x.data ++ [')']) ++ rest) := rfl
      have hident2 : parseIdent ((x.data ++ [')']) ++ rest) = some (x, ')' :: rest) := by
        rw [List.append_assoc]
        exact parseIdent_valid hx
          (by intro ch chs hch; injection hch with h1 _; rw [← h1]; decide)
      have hrp : parseLit [')'] (')' :: rest) = some rest := rfl
      have hparen : litGo ['('] (f.data ++ '(' :: ((x.data ++ [')']) ++ rest)) = none := by
        rw [hdf]
        exact litGo_head_ne _ _ (by intro h; rw [h] at hc0; cases hc0)
      have hca : (do
          let r1 ← litGo ['c','a'] (f.data ++ '(' :: ((x.data ++ [')']) ++ rest))
          let r2 ← parseLit ['('] r1
          let (a, r3) ← parseAgOrVar r2
          let r4 ← parseLit [')'] r3
          pure ((Formula.App .ISCA 1 [a]), r4)) = none := by
        have hnef : f.data ≠ ['c','a'] := by
          intro hcon
          exact hne (by apply String.ext; rw [hcon])
        exact keyword_chain_other_none ['c','a'] (by decide) hf hnef _ _
      have hik : (do
          let r1 ← litGo ['i','s','k','e','y'] (f.data ++ '(' :: ((x.data ++ [')']) ++ rest))
          let r2 ← parseLit ['('] r1
          let (a, r3) ← parseAgOrVar r2
          let r4 ← parseLit [','] r3
          let (k, r5) ← parseKeyOrVar r4
          let r6 ← parseLit [')'] r5
          pure ((Formula.App .ISKEY 2 [a, k]), r6)) = none := by
        by_cases hfe : f = "iskey"
        · subst hfe
          have e1 : litGo ['i','s','k','e','y']
              (("iskey" : String).data ++ '(' :: ((x.data ++ [')']) ++ rest)) =
              some ('(' :: ((x.data ++ [')']) ++ rest)) := rfl
          have e2 : parseAgOrVar ((x.data ++ [')']) ++ rest) =
              some (.Variable x, ')' :: rest) := by
            rw [List.append_assoc]
            exact parseAgOrVar_ok (by simp [agentOrVarOk, hx]) rfl
              (by intro ch chs hch; injection hch with h1 _; rw [← h1]; decide)
          have e3 : parseLit [','] (')' :: rest) = none := rfl
          simp only [e1, hlp, e2, e3, Option.bind_eq_bind, Option.some_bind,
            Option.none_bind]
        · have hnef : f.data ≠ ['i','s','k','e','y'] := by
            intro hcon
            exact hfe (by apply String.ext; rw [hcon])
          exact keyword_chain_other_none ['i','s','k','e','y'] (by decide) hf hnef _ _
      have hop : (do
          let r1 ← litGo ['o','p','e','n'] (f.data ++ '(' :: ((x.data ++ [')']) ++ rest))
          let r2 ← parseLit ['('] r1
          let (a, r3) ← parseAgOrVar r2
          let r4 ← parseLit [','] r3
          let (rr, r5) ← parseResOrVar r4
          let r6 ← parseLit [')'] r5
          pure ((Formula.App .OPEN 2 [a, rr]), r6)) = none := by
        by_cases hfe : f = "open"
        · subst hfe
          have e1 : litGo ['o','p','e','n']
              (("open" : String).data ++ '(' :: ((x.data ++ [')']) ++ rest)) =
              some ('(' :: ((x.data ++ [')']) ++ rest)) := rfl
          have e2 : parseAgOrVar ((x.data ++ [')']) ++ rest) =
              some (.Variable x, ')' :: rest) := by
            rw [List.append_assoc]
            exact parseAgOrVar_ok (by simp [agentOrVarOk, hx]) rfl
              (by intro ch chs hch; injection hch with h1 _; rw [← h1]; decide)
          have e3 : parseLit [','] (')' :: rest) = none := rfl
          simp only [e1, hlp, e2, e3, Option.bind_eq_bind, Option.some_bind,
            Option.none_bind]
        · have hnef : f.data ≠ ['o','p','e','n'] := by
            intro hcon
            exact hfe (by apply String.ext; rw [hcon])
          exact keyword_chain_other_none ['o','p','e','n'] (by decide) hf hnef _ _
      simp only [Option.bind_eq_bind] at hca hik hop
      simp only [parseAtom, hski, h1, h2, hca, hik, hop, hparen, hident1, hlp,
        hident2, hrp, Option.bind_eq_bind, Option.none_bind, Option.some_bind]

/-- Main induction: every canonical formula round-trips at every grammar
level, given enough fuel. -/
theorem roundtrip_pkg : ∀ (n : Nat) (F : Formula), sizeF F ≤ n →
    canonicalFmla F = true →
    SignStmt F ∧ ImpStmt F ∧ SaysStmt F ∧ FmlaStmt F ∧
    ParenSaysStmt F ∧ ParenFmlaStmt F := by
  intro n
  induction n with
  | zero => intro F hsz; have := sizeF_pos F; omega
  | succ n ih =>
      intro F hsz hF
      have hSign : SignStmt F := by
        have hF2 := hF
        unfold canonicalFmla at hF2
        split at hF2
        · next id =>
            exact signStmt_of_atom hF rfl (atomStmt_var hF2)
        · exact signStmt_of_atom hF rfl atomStmt_true
        · exact signStmt_of_atom hF rfl atomStmt_false
        · next a =>
            exact signStmt_of_atom hF rfl (atomStmt_isca hF2)
        · next a k =>
            simp only [Bool.and_eq_true] at hF2
            exact signStmt_of_atom hF rfl (atomStmt_iskey hF2.1 hF2.2)
        · next a r =>
            simp only [Bool.and_eq_true] at hF2
            exact signStmt_of_atom hF rfl (atomStmt_open hF2.1 hF2.2)
        · next p k =>
            simp only [Bool.and_eq_true] at hF2
            have hszp : sizeF p ≤ n := by
              have : sizeF (Formula.App .SIGN 2 [p, k]) =
                  1 + (sizeF p + (sizeF k + 0)) := rfl
              have := sizeF_pos k
              omega
            have hpkg := ih p hszp hF2.1
            exact signStmt_sign hF2.2 hpkg.2.2.2.2.2
        · next p q =>
            simp only [Bool.and_eq_true] at hF2
            have hsze : sizeF (Formula.App .IMPLIES 2 [p, q]) =
                1 + (sizeF p + (sizeF q + 0)) := rfl
            have hp1 := sizeF_pos p
            have hq1 := sizeF_pos q
            have hpkgp := ih p (by omega) hF2.1
            have hpkgq := ih q (by omega) hF2.2
            exact signStmt_of_atom hF rfl
              (atomStmt_implies hF2.1 hF2.2 hpkgp.1 hpkgq.1)
        · next a p =>
            simp only [Bool.and_eq_true] at hF2
            have hsze : sizeF (Formula.App .SAYS 2 [a, p]) =
                1 + (sizeF a + (sizeF p + 0)) := rfl
            have ha1 := sizeF_pos a
            have hpkgp := ih p (by omega) hF2.2
            exact signStmt_of_atom hF rfl
              (atomStmt_says hF2.1 hF2.2 hpkgp.2.1)
        · next f x =>
            simp only [Bool.and_eq_true, decide_eq_true_eq] at hF2
            exact signStmt_of_atom hF rfl
              (atomStmt_other hF2.1.1 hF2.1.2 hF2.2)
        · next x p =>
            simp only [Bool.and_eq_true] at hF2
            have hsze : sizeF (Formula.Forall x p) = 1 + sizeF p := rfl
            have hpkgp := ih p (by omega) hF2.2
            exact signStmt_of_atom hF rfl
              (atomStmt_forall hF2.1 hF2.2 hpkgp.2.2.2.2.1)
        · cases hF2
      have hImp : ImpStmt F := impStmt_of_sign hSign
      have hSays : SaysStmt F := saysStmt_of_imp hF hImp
      have hFmla : FmlaStmt F := fmlaStmt_of_says hF hSays
      have hPS : ParenSaysStmt F := parenSaysStmt_of_fmla hFmla
      exact ⟨hSign, hImp, hSays, hFmla, hPS, parenFmlaStmt_of_parenSays hPS⟩

theorem agentOrVar_size {a : Formula} (h : agentOrVarOk a = true) : sizeF a = 1 := by
  cases a <;> simp [agentOrVarOk] at h <;> rfl

theorem keyOrVar_size {k : Formula} (h : keyOrVarOk k = true) : sizeF k = 1 := by
  cases k <;> simp [keyOrVarOk] at h <;> rfl

theorem resOrVar_size {r : Formula} (h : resOrVarOk r = true) : sizeF r = 1 := by
  cases r <;> simp [resOrVarOk] at h <;> rfl

theorem validIdent_len {id : String} (h : validIdentStr id = true) :
    1 ≤ id.data.length := by
  obtain ⟨c, cs, hd, _, _⟩ := validIdent_parts h
  rw [hd]; simp

/-- The canonical encoding spends at least one character per node. -/
theorem sizeF_le_length : ∀ (n : Nat) (F : Formula) (str : String), sizeF F ≤ n →
    canonicalFmla F = true → fmla_stringify F = .ok str →
    sizeF F ≤ str.data.length := by
  intro n
  induction n with
  | zero => intro F str hsz; have := sizeF_pos F; omega
  | succ n ih =>
      intro F str hsz hF hs
      have hF2 := hF
      unfold canonicalFmla at hF2
      split at hF2
      · next id =>
          rw [stringify_var hs]
          have := validIdent_len hF2
          show sizeF (Formula.Variable id) ≤ id.data.length
          simp only [sizeF]
          omega
      · rw [show sizeF (Formula.App .TRUE 0 []) = 1 from rfl, stringify_true hs]
        simp
      · rw [show sizeF (Formula.App .FALSE 0 []) = 1 from rfl, stringify_false hs]
        simp
      · next a =>
          obtain ⟨sa, hsa, hd⟩ := stringify_isca hs
          rw [show sizeF (Formula.App .ISCA 1 [a]) = 1 + (sizeF a + 0) from rfl,
            agentOrVar_size hF2, hd]
          simp
      · next a k =>
          simp only [Bool.and_eq_true] at hF2
          obtain ⟨sa, sk, hsa, hsk, hd⟩ := stringify_iskey hs
          rw [show sizeF (Formula.App .ISKEY 2 [a, k]) = 1 + (sizeF a + (sizeF k + 0)) from rfl,
            agentOrVar_size hF2.1, keyOrVar_size hF2.2, hd]
          simp
      · next a r =>
          simp only [Bool.and_eq_true] at hF2
          obtain ⟨sa, sr, hsa, hsr, hd⟩ := stringify_open hs
          rw [show sizeF (Formula.App .OPEN 2 [a, r]) = 1 + (sizeF a + (sizeF r + 0)) from rfl,
            agentOrVar_size hF2.1, resOrVar_size hF2.2, hd]
          simp
      · next p k =>
          simp only [Bool.and_eq_true] at hF2
          obtain ⟨sp, sk, hsp, hsk, hd⟩ := stringify_sign hs
          have hpn : sizeF p ≤ n := by
            have h1 : sizeF (Formula.App .SIGN 2 [p, k]) =
                1 + (sizeF p + (sizeF k + 0)) := rfl
            have := sizeF_pos k
            omega
          have hih := ih p sp hpn hF2.1 hsp
          rw [show sizeF (Formula.App .SIGN 2 [p, k]) = 1 + (sizeF p + (sizeF k + 0)) from rfl,
            keyOrVar_size hF2.2, hd]
          have hbp : sp.data.length = sp.length := rfl
          simp
          omega
      · next p q =>
          simp only [Bool.and_eq_true] at hF2
          obtain ⟨sp, sq, hsp, hsq, hd⟩ := stringify_implies hs
          have h1 : sizeF (Formula.App .IMPLIES 2 [p, q]) =
              1 + (sizeF p + (sizeF q + 0)) := rfl
          have hp1 := sizeF_pos p
          have hq1 := sizeF_pos q
          have hihp := ih p sp (by omega) hF2.1 hsp
          have hihq := ih q sq (by omega) hF2.2 hsq
          rw [h1, hd]
          have hbp : sp.data.length = sp.length := rfl
          have hbq : sq.data.length = sq.length := rfl
          simp
          omega
      · next a p =>
          simp only [Bool.and_eq_true] at hF2
          obtain ⟨sa, sp, hsa, hsp, hd⟩ := stringify_says hs
          have h1 : sizeF (Formula.App .SAYS 2 [a, p]) =
              1 + (sizeF a + (sizeF p + 0)) := rfl
          have ha1 := sizeF_pos a
          have hihp := ih p sp (by omega) hF2.2 hsp
          rw [h1, agentOrVar_size hF2.1, hd]
          have hbp : sp.data.length = sp.length := rfl
          simp
          omega
      · next f x =>
          simp only [Bool.and_eq_true, decide_eq_true_eq] at hF2
          obtain ⟨sf, sx, hsf, hsx, hd⟩ := stringify_other hs
          rw [show sizeF (Formula.App .OTHER 2 [Formula.Variable f, Formula.Variable x]) =
              1 + (1 + (1 + 0)) from rfl, hd, stringify_var hsf, stringify_var hsx]
          have hbf : f.data.length = f.length := rfl
          have hbx : x.data.length = x.length := rfl
          have := validIdent_len hF2.1.1
          have := validIdent_len hF2.1.2
          simp
          omega
      · next x p =>
          simp only [Bool.and_eq_true] at hF2
          obtain ⟨sp, hsp, hd⟩ := stringify_forall hs
          have h1 : sizeF (Formula.Forall x p) = 1 + sizeF p := rfl
          have hihp := ih p sp (by omega) hF2.2 hsp
          rw [h1, hd]
          have hbp : sp.data.length = sp.length := rfl
          simp
          omega
      · cases hF2

/-- C9 (amended): on the grammar-supported canonical fragment, parsing the
canonical textual encoding returns the original formula. -/
theorem parse_stringify_roundtrip (F : Formula) (str : String)
    (hF : canonicalFmla F = true) (hs : fmla_stringify F = .ok str) :
    parse str = some F := by
  have hM := (roundtrip_pkg (sizeF F) F le_rfl hF).2.2.2.1
  have hlen := sizeF_le_length (sizeF F) F str le_rfl hF hs
  have hb : str.length = str.data.length := rfl
  have hfuel : 10 * sizeF F + 54 ≤ 100 * (str.length + 1) := by omega
  have hres := hM str [] (100 * (str.length + 1)) hs (Or.inl rfl) hfuel
  rw [List.append_nil] at hres
  unfold parse fmla_parse
  rw [hres]
  rfl

/-- C9 counterexample to the unrestricted claim: the variable named `true`
stringifies to `true`, which parses back as the constant; and a `NOT`
formula stringifies to `!(true)`, which does not parse at all. -/
theorem parse_stringify_roundtrip_counterexample :
    fmla_stringify (.Variable "true") = .ok "true" ∧
    parse "true" = some (.App .TRUE 0 []) ∧
    (Formula.App .TRUE 0 [] ≠ .Variable "true") ∧
    fmla_stringify (.App .NOT 1 [.App .TRUE 0 []]) = .ok "!(true)" ∧
    parse "!(true)" = none :=
  ⟨rfl, rfl, by decide, rfl, rfl⟩

/-- Closed witness for the amended round trip. -/
theorem parse_stringify_roundtrip_witness :
    canonicalFmla (.App .ISKEY 2 [.Agent "#a", .Key "[k1]"]) = true ∧
    fmla_stringify (.App .ISKEY 2 [.Agent "#a", .Key "[k1]"]) = .ok "iskey(#a, [k1])" ∧
    parse "iskey(#a, [k1])" = some (.App .ISKEY 2 [.Agent "#a", .Key "[k1]"]) :=
  ⟨by decide, rfl,
    parse_stringify_roundtrip (.App .ISKEY 2 [.Agent "#a", .Key "[k1]"])
      "iskey(#a, [k1])" (by decide) rfl⟩

end AuthLogic
